import Mathlib

/-!
Verification of the core algorithms of the es-spec-html converter:

* the style cascade resolver (`src/docx.py`, `populate_full_style`),
* the presentation-property collector (`src/docx.py`, `parse_pr`, `put`),
* the numbering lookup (`src/docx.py`, `Document.get_list_style_at`),
* the numbering counter pass (`src/fixups.py`, `fixup_add_numbering`),
* the span range-nesting engine (`src/fixups.py`, `rewrite_spans` and
  `build_result`),
* the list structural inference (`src/fixups.py`, `fixup_lists`),
* the generic node model (`src/htmodel.py`, `Element`).

Modelling conventions: Python dicts are association lists with in-place
update semantics (an assignment to an existing key replaces the value at
its original position; a fresh key is appended); Python exceptions are an
explicit error type and fallible code returns `Except`; unbounded Python
recursion is fuel-bounded recursion, the fuel standing for the interpreter
recursion limit.
-/

/-- The Python exceptions actually raised by the modelled code, plus the
two error kinds that the specification names.  `cycleError` and
`unresolvedReferenceError` are modelled from the spec (§7): no code under
src/ defines or raises them; in the corresponding situations the code
raises `RecursionError` (interpreter stack exhaustion) and `KeyError`.
`duplicatePropertyError` stands for the bare `Exception` raised by
`parse_pr.put` (docx.py line 84). -/
inductive PyError where
  | keyError (k : String)
  | recursionError
  | indexError
  | assertionError
  | valueError
  | typeError
  | duplicatePropertyError (k : String)
  | cycleError
  | unresolvedReferenceError
  | attributeError
deriving Repr, DecidableEq

instance {e a : Type} [DecidableEq e] [DecidableEq a] :
    DecidableEq (Except e a) := fun x y =>
  match x, y with
  | .error u, .error v =>
    if h : u = v then isTrue (by rw [h])
    else isFalse (fun hc => h (by injection hc))
  | .ok u, .ok v =>
    if h : u = v then isTrue (by rw [h])
    else isFalse (fun hc => h (by injection hc))
  | .error _, .ok _ => isFalse (fun hc => Except.noConfusion hc)
  | .ok _, .error _ => isFalse (fun hc => Except.noConfusion hc)

/-- A Python dict with string keys, as an insertion-ordered association
list.  All dicts built by the modelled code keep their keys distinct. -/
abbrev PropMap := List (String × String)

/-- Python dict item assignment `d[k] = v`: if `k` is already a key, the
value is replaced at the key's original position, otherwise the new entry
is appended at the end. -/
def dictInsert {β : Type} (d : List (String × β)) (k : String) (v : β) :
    List (String × β) :=
  if (d.lookup k).isSome then
    d.map (fun p => if p.1 = k then (k, v) else p)
  else
    d ++ [(k, v)]

/-- Python `d.update(e)`: assign every entry of `e` into `d`, in order. -/
def dictUpdate {β : Type} (d e : List (String × β)) : List (String × β) :=
  e.foldl (fun d p => dictInsert d p.1 p.2) d

theorem lookup_cons {β : Type} (p : String × β) (t : List (String × β))
    (k : String) :
    (p :: t).lookup k = if k = p.1 then some p.2 else t.lookup k := by
  rcases p with ⟨a, b⟩
  by_cases h : k = a
  · subst h; simp [List.lookup]
  · have hb : (k == a) = false := beq_eq_false_iff_ne.mpr h
    simp [List.lookup, hb, h]

theorem lookup_append {β : Type} (d e : List (String × β)) (k : String) :
    (d ++ e).lookup k =
      match d.lookup k with
      | some v => some v
      | none => e.lookup k := by
  induction d with
  | nil => rfl
  | cons p t ih =>
    rw [List.cons_append, lookup_cons, lookup_cons]
    by_cases h : k = p.1
    · simp [h]
    · simp only [if_neg h]
      exact ih

theorem lookup_eq_none_of_not_mem_keys {β : Type} {d : List (String × β)}
    {k : String} (h : k ∉ d.map Prod.fst) : d.lookup k = none := by
  induction d with
  | nil => rfl
  | cons p t ih =>
    simp only [List.map_cons, List.mem_cons, not_or] at h
    rw [lookup_cons, if_neg h.1]
    exact ih h.2

theorem lookup_isSome_iff_mem_keys {β : Type} (d : List (String × β))
    (k : String) : (d.lookup k).isSome ↔ k ∈ d.map Prod.fst := by
  induction d with
  | nil => simp [List.lookup]
  | cons p t ih =>
    rw [lookup_cons]
    simp only [List.map_cons, List.mem_cons]
    by_cases h : k = p.1
    · simp [h]
    · rw [if_neg h]
      simp [h, ih]

theorem lookup_map_replace {β : Type} (d : List (String × β)) (k : String)
    (v : β) (k' : String) :
    (d.map (fun p => if p.1 = k then (k, v) else p)).lookup k' =
      if k' = k ∧ (d.lookup k).isSome then some v else d.lookup k' := by
  induction d with
  | nil => simp [List.lookup]
  | cons p t ih =>
    by_cases hpk : p.1 = k
    · by_cases hk' : k' = k
      · subst hk'
        simp [List.map_cons, lookup_cons, hpk]
      · simp [List.map_cons, lookup_cons, hpk, hk', ih]
    · have hkp : ¬k = p.1 := fun h => hpk h.symm
      by_cases hq : k' = p.1
      · have hk'k : ¬k' = k := fun h => hkp (h.symm.trans hq)
        simp [List.map_cons, lookup_cons, hpk, hq, hk'k]
      · simp only [List.map_cons, if_neg hpk, lookup_cons, if_neg hq, ih,
          if_neg hkp]

theorem lookup_dictInsert {β : Type} (d : List (String × β)) (k : String)
    (v : β) (k' : String) :
    (dictInsert d k v).lookup k' = if k' = k then some v else d.lookup k' := by
  unfold dictInsert
  by_cases hk : (d.lookup k).isSome
  · rw [if_pos hk, lookup_map_replace]
    by_cases hk' : k' = k
    · rw [if_pos ⟨hk', hk⟩, if_pos hk']
    · rw [if_neg (by simp [hk']), if_neg hk']
  · rw [if_neg hk]
    have hnone : d.lookup k = none := by
      cases h : d.lookup k with
      | none => rfl
      | some _ => rw [h] at hk; simp at hk
    rw [lookup_append]
    by_cases hk' : k' = k
    · subst hk'
      rw [hnone, if_pos rfl]
      simp [List.lookup]
    · rw [if_neg hk']
      cases h : d.lookup k' with
      | some w => rfl
      | none =>
        simp only []
        rw [lookup_cons, if_neg hk']
        rfl

theorem keys_dictInsert {β : Type} (d : List (String × β)) (k : String)
    (v : β) :
    (dictInsert d k v).map Prod.fst =
      if (d.lookup k).isSome then d.map Prod.fst else d.map Prod.fst ++ [k] := by
  unfold dictInsert
  by_cases hk : (d.lookup k).isSome
  · rw [if_pos hk, if_pos hk, List.map_map]
    congr 1
    funext p
    by_cases h : p.1 = k
    · simp [h]
    · simp [h]
  · rw [if_neg hk, if_neg hk, List.map_append]
    rfl

theorem nodup_keys_dictInsert {β : Type} {d : List (String × β)} {k : String}
    {v : β} (h : (d.map Prod.fst).Nodup) :
    ((dictInsert d k v).map Prod.fst).Nodup := by
  rw [keys_dictInsert]
  by_cases hk : (d.lookup k).isSome
  · rw [if_pos hk]; exact h
  · rw [if_neg hk]
    have hkm : k ∉ d.map Prod.fst := by
      intro hm
      exact hk ((lookup_isSome_iff_mem_keys d k).mpr hm)
    simp [List.nodup_append, h, hkm]

theorem lookup_dictUpdate {β : Type} (d e : List (String × β)) (k : String)
    (h : (e.map Prod.fst).Nodup) :
    (dictUpdate d e).lookup k =
      match e.lookup k with
      | some v => some v
      | none => d.lookup k := by
  induction e generalizing d with
  | nil => rfl
  | cons p t ih =>
    simp only [List.map_cons, List.nodup_cons] at h
    show (dictUpdate (dictInsert d p.1 p.2) t).lookup k = _
    rw [ih _ h.2, lookup_cons]
    by_cases hk : k = p.1
    · have ht : t.lookup k = none := by
        rw [hk]; exact lookup_eq_none_of_not_mem_keys h.1
      rw [ht, if_pos hk]
      simp only []
      rw [lookup_dictInsert, if_pos hk]
    · rw [if_neg hk]
      cases ht : t.lookup k with
      | some v => rfl
      | none =>
        simp only []
        rw [lookup_dictInsert, if_neg hk]

theorem nodup_keys_dictUpdate {β : Type} {d : List (String × β)}
    (e : List (String × β)) (h : (d.map Prod.fst).Nodup) :
    ((dictUpdate d e).map Prod.fst).Nodup := by
  induction e generalizing d with
  | nil => exact h
  | cons p t ih =>
    show ((dictUpdate (dictInsert d p.1 p.2) t).map Prod.fst).Nodup
    exact ih (nodup_keys_dictInsert h)

/-! ### parse_pr and its `put` helper (src/docx.py, lines 76-256)

parse_pr walks the children of a presentation-properties element and
assigns CSS properties into the dict `pr` through the nested function
`put` (lines 82-85):

    def put(k, v):
        if k in pr and pr[k] != v:
            raise Exception("duplicate CSS property on the same element: " + k)
        pr[k] = v

We model the sequence of `put (k, v)` calls that processing one element
performs, folded from the empty dict exactly as parse_pr starts. -/

def put (pr : PropMap) (k v : String) : Except PyError PropMap :=
  match pr.lookup k with
  | some v0 =>
    if v0 ≠ v then .error (.duplicatePropertyError k)
    else .ok (dictInsert pr k v)
  | none => .ok (dictInsert pr k v)

/-- Folding a sequence of property assignments through `put`, starting
from a given dict. -/
def putAllFrom (pr : PropMap) (ps : List (String × String)) :
    Except PyError PropMap :=
  ps.foldlM (fun pr p => put pr p.1 p.2) pr

/-- All `put` calls made while processing one element, from the empty
dict (parse_pr line 81: `pr = {}`). -/
def putAll (ps : List (String × String)) : Except PyError PropMap :=
  putAllFrom [] ps

theorem putAllFrom_cons (pr : PropMap) (p : String × String)
    (ps : List (String × String)) :
    putAllFrom pr (p :: ps) =
      match put pr p.1 p.2 with
      | .ok pr2 => putAllFrom pr2 ps
      | .error e => .error e := by
  rw [putAllFrom, List.foldlM_cons]
  cases put pr p.1 p.2 <;> rfl

theorem put_ok_lookup {pr : PropMap} {k v : String} {pr2 : PropMap}
    (h : put pr k v = .ok pr2) (k' : String) :
    pr2.lookup k' = if k' = k then some v else pr.lookup k' := by
  unfold put at h
  cases hl : pr.lookup k with
  | some v0 =>
    simp only [hl] at h
    by_cases hv : v0 ≠ v
    · rw [if_pos hv] at h; exact Except.noConfusion h
    · rw [if_neg hv] at h
      injection h with h2
      subst h2
      rw [lookup_dictInsert]
  | none =>
    simp only [hl] at h
    injection h with h2
    subst h2
    rw [lookup_dictInsert]

theorem put_ok_compat {pr : PropMap} {k v : String} {pr2 : PropMap}
    (h : put pr k v = .ok pr2) : ∀ v0, pr.lookup k = some v0 → v = v0 := by
  intro v0 hl
  unfold put at h
  simp only [hl] at h
  by_cases hv : v0 ≠ v
  · rw [if_pos hv] at h; exact Except.noConfusion h
  · push_neg at hv; exact hv.symm

theorem put_error_elim {pr : PropMap} {k v : String} {e : PyError}
    (h : put pr k v = .error e) :
    e = .duplicatePropertyError k ∧ ∃ v0, pr.lookup k = some v0 ∧ v0 ≠ v := by
  unfold put at h
  cases hl : pr.lookup k with
  | some v0 =>
    simp only [hl] at h
    by_cases hv : v0 ≠ v
    · rw [if_pos hv] at h
      injection h with h2
      exact ⟨h2.symm, v0, rfl, hv⟩
    · rw [if_neg hv] at h; exact Except.noConfusion h
  | none =>
    simp only [hl] at h
    exact Except.noConfusion h

theorem put_ok_nodup {pr : PropMap} {k v : String} {pr2 : PropMap}
    (h : put pr k v = .ok pr2) (hpr : (pr.map Prod.fst).Nodup) :
    (pr2.map Prod.fst).Nodup := by
  unfold put at h
  cases hl : pr.lookup k with
  | some v0 =>
    simp only [hl] at h
    by_cases hv : v0 ≠ v
    · rw [if_pos hv] at h; exact Except.noConfusion h
    · rw [if_neg hv] at h
      injection h with h2
      subst h2
      exact nodup_keys_dictInsert hpr
  | none =>
    simp only [hl] at h
    injection h with h2
    subst h2
    exact nodup_keys_dictInsert hpr

theorem putAllFrom_ok_iff (ps : List (String × String)) (pr : PropMap) :
    (∃ r, putAllFrom pr ps = .ok r) ↔
      ((∀ p ∈ ps, ∀ v0, pr.lookup p.1 = some v0 → p.2 = v0) ∧
        ps.Pairwise (fun a b => a.1 = b.1 → a.2 = b.2)) := by
  induction ps generalizing pr with
  | nil =>
    constructor
    · intro _
      refine ⟨?_, List.Pairwise.nil⟩
      intro p hp
      exact absurd hp (List.not_mem_nil p)
    · intro _; exact ⟨pr, rfl⟩
  | cons p ps ih =>
    rw [putAllFrom_cons]
    cases hp : put pr p.1 p.2 with
    | error e =>
      obtain ⟨-, v0, hl, hne⟩ := put_error_elim hp
      constructor
      · rintro ⟨r, hr⟩; cases hr
      · rintro ⟨hc, -⟩
        exact absurd (hc p (List.mem_cons_self p ps) v0 hl).symm hne
    | ok pr2 =>
      rw [ih pr2]
      constructor
      · rintro ⟨hc, hpw⟩
        refine ⟨?_, List.Pairwise.cons ?_ hpw⟩
        · intro q hq v0 hl
          rcases List.mem_cons.mp hq with hq | hq
          · subst hq
            exact put_ok_compat hp v0 hl
          · have := hc q hq
            rw [put_ok_lookup hp] at this
            by_cases hqp : q.1 = p.1
            · rw [if_pos hqp] at this
              have hv := put_ok_compat hp v0 (hqp ▸ hl)
              exact hv ▸ this p.2 rfl
            · rw [if_neg hqp] at this
              exact this v0 hl
        · intro q hq hqp
          have := hc q hq
          rw [put_ok_lookup hp, if_pos hqp.symm] at this
          exact (this p.2 rfl).symm
      · rintro ⟨hc, hpw⟩
        rcases List.pairwise_cons.mp hpw with ⟨hfst, hpw'⟩
        refine ⟨?_, hpw'⟩
        intro q hq v0 hl
        rw [put_ok_lookup hp] at hl
        by_cases hqp : q.1 = p.1
        · rw [if_pos hqp] at hl
          cases hl
          exact (hfst q hq hqp.symm).symm
        · rw [if_neg hqp] at hl
          exact hc q (List.mem_cons_of_mem p hq) v0 hl

theorem putAllFrom_ok_lookup (ps : List (String × String)) (pr r : PropMap)
    (h : putAllFrom pr ps = .ok r) (k : String) :
    r.lookup k =
      match pr.lookup k with
      | some v => some v
      | none => ps.lookup k := by
  induction ps generalizing pr with
  | nil =>
    have h2 : pr = r := by
      simpa [putAllFrom, pure, Except.pure] using h
    subst h2
    cases hl : pr.lookup k with
    | some v => simp [hl]
    | none => simp [hl]
  | cons p ps ih =>
    rw [putAllFrom_cons] at h
    cases hp : put pr p.1 p.2 with
    | error e => rw [hp] at h; exact Except.noConfusion h
    | ok pr2 =>
      rw [hp] at h
      have hr := ih pr2 h
      rw [put_ok_lookup hp] at hr
      rw [hr, lookup_cons]
      by_cases hk : k = p.1
      · rw [if_pos hk, if_pos hk]
        cases hl : pr.lookup k with
        | some v0 =>
          have := put_ok_compat hp v0 (hk ▸ hl)
          simp [this]
        | none => rfl
      · rw [if_neg hk, if_neg hk]

theorem putAllFrom_error_kind (ps : List (String × String)) (pr : PropMap)
    (e : PyError) (h : putAllFrom pr ps = .error e) :
    ∃ k, e = .duplicatePropertyError k := by
  induction ps generalizing pr with
  | nil => cases h
  | cons p ps ih =>
    rw [putAllFrom_cons] at h
    cases hp : put pr p.1 p.2 with
    | error e0 =>
      rw [hp] at h
      cases h
      exact ⟨p.1, (put_error_elim hp).1⟩
    | ok pr2 =>
      rw [hp] at h
      exact ih pr2 h

theorem putAllFrom_ok_nodup (ps : List (String × String)) (pr r : PropMap)
    (h : putAllFrom pr ps = .ok r) (hpr : (pr.map Prod.fst).Nodup) :
    (r.map Prod.fst).Nodup := by
  induction ps generalizing pr with
  | nil => cases h; exact hpr
  | cons p ps ih =>
    rw [putAllFrom_cons] at h
    cases hp : put pr p.1 p.2 with
    | error e => rw [hp] at h; cases h
    | ok pr2 =>
      rw [hp] at h
      exact ih pr2 h (put_ok_nodup hp hpr)

/-- C8: processing an element's property assignments through parse_pr's
`put` raises the duplicate-property error iff some key is assigned two
conflicting values (assigning the same key the same value again is
accepted); any error raised is the duplicate-property error; and on
success the resulting dict holds exactly one value per key, namely the
first value assigned to it. -/
theorem parse_pr_put_duplicates (ps : List (String × String)) :
    ((∃ r, putAll ps = .ok r) ↔
        ps.Pairwise (fun a b => a.1 = b.1 → a.2 = b.2)) ∧
      (∀ e, putAll ps = .error e → ∃ k, e = .duplicatePropertyError k) ∧
      (∀ r, putAll ps = .ok r →
        (r.map Prod.fst).Nodup ∧ ∀ k, r.lookup k = ps.lookup k) := by
  refine ⟨?_, ?_, ?_⟩
  · rw [putAll, putAllFrom_ok_iff]
    constructor
    · exact fun h => h.2
    · intro h
      refine ⟨?_, h⟩
      intro p hp v0 hl
      cases hl
  · exact fun e h => putAllFrom_error_kind ps [] e h
  · intro r h
    refine ⟨putAllFrom_ok_nodup ps [] r h (by simp), ?_⟩
    intro k
    exact putAllFrom_ok_lookup ps [] r h k

/-- Witness for C8 at a concrete element: assigning `font-style` twice
with the same value is accepted; the conflicting and the clean streams
behave as the theorem states. -/
theorem parse_pr_put_duplicates_witness :
    ((∃ r, putAll [("font-style", "italic"), ("font-weight", "bold"),
        ("font-style", "italic")] = .ok r) ↔
      [("font-style", "italic"), ("font-weight", "bold"),
        ("font-style", "italic")].Pairwise
          (fun a b => a.1 = b.1 → a.2 = b.2)) ∧
      (∀ e, putAll [("font-style", "italic"), ("font-weight", "bold"),
          ("font-style", "italic")] = .error e →
        ∃ k, e = .duplicatePropertyError k) ∧
      (∀ r, putAll [("font-style", "italic"), ("font-weight", "bold"),
          ("font-style", "italic")] = .ok r →
        (r.map Prod.fst).Nodup ∧
          ∀ k, r.lookup k = [("font-style", "italic"),
            ("font-weight", "bold"), ("font-style", "italic")].lookup k) :=
  parse_pr_put_duplicates
    [("font-style", "italic"), ("font-weight", "bold"),
      ("font-style", "italic")]

/-! ### The style cascade resolver (src/docx.py, lines 261-313)

`class Style` holds id, basedOn, type, the own property map `style`, and
the memo field `full_style` (initially `None`).  `parse_styles` builds
the id-keyed dict of styles and then runs `populate_full_style` over
every style:

    def populate_full_style(s):
        if s.full_style is None:
            if s.basedOn is None:
                s.full_style = s.style
            else:
                parent = all_styles[s.basedOn]
                populate_full_style(parent)
                s.full_style = parent.full_style.copy()
                s.full_style.update(s.style)

The recursion is unbounded (no cycle check): the fuel argument stands
for the interpreter recursion limit, and running out of fuel models the
`RecursionError` that Python raises on a basedOn cycle.  The dict lookup
`all_styles[s.basedOn]` raises `KeyError` on a dangling reference. -/

structure Style where
  id : String
  basedOn : Option String
  type : Option String
  style : PropMap
  full_style : Option PropMap
deriving Repr, DecidableEq

/-- The id-keyed style dict built by parse_styles. -/
abbrev StyleSet := List (String × Style)

/-- Write `s.full_style = m` on the style stored under `sid`. -/
def setFullStyle (styles : StyleSet) (sid : String) (m : PropMap) : StyleSet :=
  styles.map (fun p =>
    if p.1 = sid then (p.1, { p.2 with full_style := some m }) else p)

/-- docx.py `populate_full_style` (lines 300-308), on the style object
`s` stored under `sid`. -/
def populate_full_style (styles : StyleSet) (sid : String) (s : Style) :
    Nat → Except PyError StyleSet
  | 0 => .error .recursionError
  | fuel + 1 =>
    match s.full_style with
    | some _ => .ok styles
    | none =>
      match s.basedOn with
      | none => .ok (setFullStyle styles sid s.style)
      | some pid =>
        match styles.lookup pid with
        | none => .error (.keyError pid)
        | some parent =>
          match populate_full_style styles pid parent fuel with
          | .error e => .error e
          | .ok styles2 =>
            match (styles2.lookup pid).bind Style.full_style with
            | none => .error (.keyError pid)
            | some pfs => .ok (setFullStyle styles2 sid (dictUpdate pfs s.style))

/-- One iteration of the `for s in all_styles.values()` loop. -/
def populateAt (fuel : Nat) (styles : StyleSet) (sid : String) :
    Except PyError StyleSet :=
  match styles.lookup sid with
  | none => .error (.keyError sid)
  | some s => populate_full_style styles sid s fuel

/-- The resolution pass of parse_styles (docx.py lines 310-311):
populate every style, in dict (= insertion) order. -/
def parse_styles_pass (fuel : Nat) (styles : StyleSet) :
    Except PyError StyleSet :=
  (styles.map Prod.fst).foldlM (populateAt fuel) styles

/-- The resolved map of a style id after the pass. -/
def resolveOf (styles : StyleSet) (sid : String) : Option PropMap :=
  (styles.lookup sid).bind Style.full_style

theorem lookup_mem {β : Type} {l : List (String × β)} {k : String} {v : β}
    (h : l.lookup k = some v) : (k, v) ∈ l := by
  induction l with
  | nil => cases h
  | cons p t ih =>
    rw [lookup_cons] at h
    by_cases hk : k = p.1
    · rw [if_pos hk] at h
      injection h with h2
      subst h2
      subst hk
      exact List.mem_cons_self _ _
    · rw [if_neg hk] at h
      exact List.mem_cons_of_mem p (ih h)

/-- A style with its memo field blanked: equality under `eraseFull`
says the id, basedOn link, type tag and own property map all agree. -/
def eraseFull (s : Style) : Style := { s with full_style := none }

/-- `st` agrees with `st0` on every field except possibly the
`full_style` memo. -/
def FieldsEq (st0 st : StyleSet) : Prop :=
  ∀ id, (st.lookup id).map eraseFull = (st0.lookup id).map eraseFull

theorem FieldsEq.refl (st : StyleSet) : FieldsEq st st := fun _ => rfl

theorem FieldsEq.trans {a b c : StyleSet} (h1 : FieldsEq a b)
    (h2 : FieldsEq b c) : FieldsEq a c :=
  fun id => (h2 id).trans (h1 id)

theorem eraseFull_fields {s t : Style} (h : eraseFull s = eraseFull t) :
    s.id = t.id ∧ s.basedOn = t.basedOn ∧ s.type = t.type ∧
      s.style = t.style := by
  cases s; cases t
  cases h
  exact ⟨rfl, rfl, rfl, rfl⟩

theorem FieldsEq.lookup_of {st0 st : StyleSet} (h : FieldsEq st0 st)
    {sid : String} {s : Style} (hs : st.lookup sid = some s) :
    ∃ s0, st0.lookup sid = some s0 ∧ s0.id = s.id ∧
      s0.basedOn = s.basedOn ∧ s0.type = s.type ∧ s0.style = s.style := by
  have := h sid
  rw [hs] at this
  cases h0 : st0.lookup sid with
  | none => rw [h0] at this; cases this
  | some s0 =>
    rw [h0] at this
    injection this with h2
    obtain ⟨h3, h4, h5, h6⟩ := eraseFull_fields h2.symm
    exact ⟨s0, rfl, h3, h4, h5, h6⟩

/-- The mathematical cascade: a fuel-bounded unfolding of
`overlay(resolve(parent), own)` over the input set. -/
def fullOf (st0 : StyleSet) : Nat → String → Option PropMap
  | 0, _ => none
  | fuel + 1, sid =>
    match st0.lookup sid with
    | none => none
    | some s =>
      match s.basedOn with
      | none => some s.style
      | some pid => (fullOf st0 fuel pid).map (fun pm => dictUpdate pm s.style)

/-- Fuel-determinism of the cascade: whenever two fuel values both
produce a result, the results agree. -/
theorem fullOf_det (st0 : StyleSet) :
    ∀ f g sid m m', fullOf st0 f sid = some m → fullOf st0 g sid = some m' →
      m = m' := by
  intro f
  induction f with
  | zero => intro g sid m m' h; cases h
  | succ f ih =>
    intro g sid m m' h h'
    cases g with
    | zero => cases h'
    | succ g =>
      rw [fullOf] at h h'
      cases hl : st0.lookup sid with
      | none =>
        simp only [hl] at h
        exact Option.noConfusion h
      | some s =>
        simp only [hl] at h h'
        cases hb : s.basedOn with
        | none =>
          simp only [hb] at h h'
          injection h with h2
          injection h' with h3
          rw [← h2, ← h3]
        | some pid =>
          simp only [hb] at h h'
          cases hp : fullOf st0 f pid with
          | none =>
            simp only [hp, Option.map_none'] at h
            exact Option.noConfusion h
          | some pm =>
            cases hp' : fullOf st0 g pid with
            | none =>
              simp only [hp', Option.map_none'] at h'
              exact Option.noConfusion h'
            | some pm' =>
              simp only [hp, Option.map_some'] at h
              simp only [hp', Option.map_some'] at h'
              injection h with h2
              injection h' with h3
              rw [← h2, ← h3, ih g pid pm pm' hp hp']

theorem lookup_setFullStyle (st : StyleSet) (sid : String) (m : PropMap)
    (id : String) :
    (setFullStyle st sid m).lookup id =
      (st.lookup id).map
        (fun s => if id = sid then { s with full_style := some m } else s) := by
  induction st with
  | nil => rfl
  | cons p t ih =>
    unfold setFullStyle at ih ⊢
    by_cases hp : p.1 = sid
    · simp only [List.map_cons, if_pos hp]
      rw [lookup_cons, lookup_cons]
      by_cases hid : id = p.1
      · rw [if_pos hid, if_pos hid]
        simp [hid.trans hp]
      · rw [if_neg hid, if_neg hid]
        exact ih
    · simp only [List.map_cons, if_neg hp]
      rw [lookup_cons, lookup_cons]
      by_cases hid : id = p.1
      · rw [if_pos hid, if_pos hid]
        simp [hid, hp]
      · rw [if_neg hid, if_neg hid]
        exact ih

/-- Every memo currently present is a value of the mathematical
cascade over the pristine input set. -/
def MemoSound (st0 st : StyleSet) : Prop :=
  ∀ id m, resolveOf st id = some m → ∃ f, fullOf st0 f id = some m

theorem fieldsEq_setFullStyle (st : StyleSet) (sid : String) (m : PropMap) :
    FieldsEq st (setFullStyle st sid m) := by
  intro id
  rw [lookup_setFullStyle]
  cases h : st.lookup id with
  | none => rfl
  | some s =>
    simp only [Option.map_some']
    by_cases hid : id = sid
    · rw [if_pos hid]; rfl
    · rw [if_neg hid]

theorem FieldsEq.isSome_iff {st0 st : StyleSet} (h : FieldsEq st0 st)
    (id : String) : (st.lookup id).isSome ↔ (st0.lookup id).isSome := by
  have := h id
  cases h1 : st.lookup id with
  | none =>
    rw [h1] at this
    cases h0 : st0.lookup id with
    | none => simp
    | some s0 => rw [h0] at this; cases this
  | some s =>
    rw [h1] at this
    cases h0 : st0.lookup id with
    | none => rw [h0] at this; cases this
    | some s0 => simp

theorem resolveOf_setFullStyle_ne (st : StyleSet) {sid id : String}
    (m : PropMap) (h : id ≠ sid) :
    resolveOf (setFullStyle st sid m) id = resolveOf st id := by
  unfold resolveOf
  rw [lookup_setFullStyle]
  cases hl : st.lookup id with
  | none => rfl
  | some s =>
    simp [h]

theorem resolveOf_setFullStyle_self (st : StyleSet) (sid : String)
    (m : PropMap) :
    resolveOf (setFullStyle st sid m) sid = (st.lookup sid).map (fun _ => m) := by
  unfold resolveOf
  rw [lookup_setFullStyle]
  cases hl : st.lookup sid with
  | none => rfl
  | some s =>
    simp

/-- The structural invariants of one `populate_full_style` call: fields
other than the memo are untouched, every memo present afterwards is a
cascade value, the resolved style of the visited id is memoized
afterwards, and no memo is dropped. -/
theorem populate_ok_inv (st0 : StyleSet) :
    ∀ (fuel : Nat) (st : StyleSet) (sid : String) (s : Style)
      (st' : StyleSet),
      st.lookup sid = some s →
      FieldsEq st0 st →
      MemoSound st0 st →
      populate_full_style st sid s fuel = .ok st' →
      (FieldsEq st0 st' ∧ MemoSound st0 st' ∧
        (resolveOf st' sid).isSome ∧
        ∀ id, (resolveOf st id).isSome → (resolveOf st' id).isSome) := by
  intro fuel
  induction fuel with
  | zero => intro st sid s st' _ _ _ h; exact Except.noConfusion h
  | succ fuel ih =>
    intro st sid s st' hs hF hS h
    rw [populate_full_style] at h
    cases hm : s.full_style with
    | some m =>
      simp only [hm] at h
      injection h with h2
      subst h2
      refine ⟨hF, hS, ?_, fun id hi => hi⟩
      simp [resolveOf, hs, hm]
    | none =>
      simp only [hm] at h
      cases hb : s.basedOn with
      | none =>
        simp only [hb] at h
        injection h with h2
        subst h2
        obtain ⟨s0, hs0, -, hb0, -, hst0⟩ := hF.lookup_of hs
        have hb0' : s0.basedOn = none := hb0.trans hb
        refine ⟨hF.trans (fieldsEq_setFullStyle st sid s.style), ?_, ?_, ?_⟩
        · intro id m' hm'
          by_cases hid : id = sid
          · subst hid
            rw [resolveOf_setFullStyle_self] at hm'
            rw [hs] at hm'
            simp only [Option.map_some'] at hm'
            injection hm' with h3
            refine ⟨1, ?_⟩
            simp only [fullOf, hs0, hb0']
            rw [hst0]
            exact congrArg some h3
          · rw [resolveOf_setFullStyle_ne st s.style hid] at hm'
            exact hS id m' hm'
        · rw [resolveOf_setFullStyle_self, hs]
          rfl
        · intro id hi
          by_cases hid : id = sid
          · subst hid
            rw [resolveOf_setFullStyle_self, hs]
            rfl
          · rw [resolveOf_setFullStyle_ne st s.style hid]
            exact hi
      | some pid =>
        simp only [hb] at h
        cases hp : st.lookup pid with
        | none => rw [hp] at h; exact Except.noConfusion h
        | some parent =>
          simp only [hp] at h
          cases hrec : populate_full_style st pid parent fuel with
          | error e => rw [hrec] at h; exact Except.noConfusion h
          | ok st2 =>
            simp only [hrec] at h
            obtain ⟨hF2, hS2, hP2, hMono2⟩ := ih st pid parent st2 hp hF hS hrec
            cases hpfs : (st2.lookup pid).bind Style.full_style with
            | none =>
              rw [hpfs] at h
              exact Except.noConfusion h
            | some pfs =>
              simp only [hpfs] at h
              injection h with h2
              subst h2
              obtain ⟨s0, hs0, -, hb0, -, hst0⟩ := hF.lookup_of hs
              have hb0' : s0.basedOn = some pid := hb0.trans hb
              have hsome2 : (st2.lookup sid).isSome := by
                rw [hF2.isSome_iff sid, hs0]
                rfl
              refine ⟨hF2.trans (fieldsEq_setFullStyle st2 sid _), ?_, ?_, ?_⟩
              · intro id m' hm'
                by_cases hid : id = sid
                · subst hid
                  rw [resolveOf_setFullStyle_self] at hm'
                  cases h2s : st2.lookup id with
                  | none =>
                    rw [h2s] at hm'
                    exact Option.noConfusion hm'
                  | some s2 =>
                    rw [h2s] at hm'
                    simp only [Option.map_some'] at hm'
                    injection hm' with h3
                    obtain ⟨fp, hfp⟩ := hS2 pid pfs hpfs
                    refine ⟨fp + 1, ?_⟩
                    simp only [fullOf, hs0, hb0', hfp, Option.map_some']
                    rw [hst0]
                    exact congrArg some h3
                · rw [resolveOf_setFullStyle_ne st2 _ hid] at hm'
                  exact hS2 id m' hm'
              · rw [resolveOf_setFullStyle_self]
                cases h2s : st2.lookup sid with
                | none => rw [h2s] at hsome2; exact Bool.noConfusion hsome2
                | some s2 => rfl
              · intro id hi
                by_cases hid : id = sid
                · subst hid
                  rw [resolveOf_setFullStyle_self]
                  cases h2s : st2.lookup id with
                  | none => rw [h2s] at hsome2; exact Bool.noConfusion hsome2
                  | some s2 => rfl
                · rw [resolveOf_setFullStyle_ne st2 _ hid]
                  exact hMono2 id hi

/-- On an acyclic, closed style set (witnessed by a rank function that
drops along basedOn links), `populate_full_style` succeeds whenever the
fuel exceeds the rank of the style being resolved. -/
theorem populate_success (st0 : StyleSet) (rank : String → Nat)
    (hclosed : ∀ p ∈ st0, ∀ pid, p.2.basedOn = some pid →
      (st0.lookup pid).isSome)
    (hrank : ∀ p ∈ st0, ∀ pid, p.2.basedOn = some pid →
      rank pid < rank p.1) :
    ∀ (fuel : Nat) (st : StyleSet) (sid : String) (s : Style),
      st.lookup sid = some s →
      FieldsEq st0 st →
      MemoSound st0 st →
      rank sid < fuel →
      ∃ st', populate_full_style st sid s fuel = .ok st' := by
  intro fuel
  induction fuel with
  | zero => intro st sid s _ _ _ hr; exact absurd hr (Nat.not_lt_zero _)
  | succ fuel ih =>
    intro st sid s hs hF hS hr
    cases hm : s.full_style with
    | some m =>
      refine ⟨st, ?_⟩
      rw [populate_full_style]
      simp only [hm]
    | none =>
      cases hb : s.basedOn with
      | none =>
        refine ⟨setFullStyle st sid s.style, ?_⟩
        rw [populate_full_style]
        simp only [hm, hb]
      | some pid =>
        obtain ⟨s0, hs0, -, hb0, -, -⟩ := hF.lookup_of hs
        have hb0' : s0.basedOn = some pid := hb0.trans hb
        have hmem : (sid, s0) ∈ st0 := lookup_mem hs0
        have hpid0 : (st0.lookup pid).isSome := hclosed (sid, s0) hmem pid hb0'
        have hpid : (st.lookup pid).isSome := (hF.isSome_iff pid).mpr hpid0
        cases hp : st.lookup pid with
        | none => rw [hp] at hpid; exact Bool.noConfusion hpid
        | some parent =>
          have hrp : rank pid < fuel := by
            have h1 : rank pid < rank sid := hrank (sid, s0) hmem pid hb0'
            omega
          obtain ⟨st2, hrec⟩ := ih st pid parent hp hF hS hrp
          obtain ⟨-, -, hP2, -⟩ :=
            populate_ok_inv st0 fuel st pid parent st2 hp hF hS hrec
          cases hpfs : (st2.lookup pid).bind Style.full_style with
          | none =>
            have hP2' : (resolveOf st2 pid).isSome := hP2
            rw [resolveOf] at hP2'
            rw [hpfs] at hP2'
            exact Bool.noConfusion hP2'
          | some pfs =>
            refine ⟨setFullStyle st2 sid (dictUpdate pfs s.style), ?_⟩
            rw [populate_full_style]
            simp only [hm, hb, hp, hrec, hpfs]

/-- Fields other than the memo are untouched by one populate call
(no hypotheses beyond success). -/
theorem populate_fieldsEq :
    ∀ (fuel : Nat) (st : StyleSet) (sid : String) (s : Style)
      (st' : StyleSet),
      populate_full_style st sid s fuel = .ok st' →
      FieldsEq st st' := by
  intro fuel
  induction fuel with
  | zero => intro st sid s st' h; exact Except.noConfusion h
  | succ fuel ih =>
    intro st sid s st' h
    rw [populate_full_style] at h
    cases hm : s.full_style with
    | some m =>
      simp only [hm] at h
      injection h with h2
      subst h2
      exact FieldsEq.refl st
    | none =>
      simp only [hm] at h
      cases hb : s.basedOn with
      | none =>
        simp only [hb] at h
        injection h with h2
        subst h2
        exact fieldsEq_setFullStyle st sid s.style
      | some pid =>
        simp only [hb] at h
        cases hp : st.lookup pid with
        | none => rw [hp] at h; exact Except.noConfusion h
        | some parent =>
          simp only [hp] at h
          cases hrec : populate_full_style st pid parent fuel with
          | error e => rw [hrec] at h; exact Except.noConfusion h
          | ok st2 =>
            simp only [hrec] at h
            cases hpfs : (st2.lookup pid).bind Style.full_style with
            | none => rw [hpfs] at h; exact Except.noConfusion h
            | some pfs =>
              simp only [hpfs] at h
              injection h with h2
              subst h2
              exact (ih st pid parent st2 hrec).trans
                (fieldsEq_setFullStyle st2 sid _)

/-- Folding `populateAt` over a list of present ids succeeds on an
acyclic closed set and memoizes every visited id. -/
theorem pass_fold_inv (st0 : StyleSet) (rank : String → Nat) (fuel : Nat)
    (hclosed : ∀ p ∈ st0, ∀ pid, p.2.basedOn = some pid →
      (st0.lookup pid).isSome)
    (hrank : ∀ p ∈ st0, ∀ pid, p.2.basedOn = some pid →
      rank pid < rank p.1) :
    ∀ (ids : List String) (st : StyleSet),
      FieldsEq st0 st →
      MemoSound st0 st →
      (∀ sid ∈ ids, (st0.lookup sid).isSome ∧ rank sid < fuel) →
      ∃ final, ids.foldlM (populateAt fuel) st = .ok final ∧
        FieldsEq st0 final ∧ MemoSound st0 final ∧
        (∀ id, (resolveOf st id).isSome → (resolveOf final id).isSome) ∧
        (∀ sid ∈ ids, (resolveOf final sid).isSome) := by
  intro ids
  induction ids with
  | nil =>
    intro st hF hS _
    refine ⟨st, rfl, hF, hS, fun id hi => hi, ?_⟩
    intro sid hsid
    exact absurd hsid (List.not_mem_nil sid)
  | cons sid rest ih =>
    intro st hF hS hids
    obtain ⟨hsid0, hsidr⟩ := hids sid (List.mem_cons_self sid rest)
    have hsome : (st.lookup sid).isSome := (hF.isSome_iff sid).mpr hsid0
    cases hs : st.lookup sid with
    | none => rw [hs] at hsome; exact Bool.noConfusion hsome
    | some s =>
      obtain ⟨st2, hrec⟩ :=
        populate_success st0 rank hclosed hrank fuel st sid s hs hF hS hsidr
      obtain ⟨hF2, hS2, hP2, hMono2⟩ :=
        populate_ok_inv st0 fuel st sid s st2 hs hF hS hrec
      obtain ⟨final, hfold, hFf, hSf, hMonof, hMemof⟩ :=
        ih st2 hF2 hS2 (fun id hid => hids id (List.mem_cons_of_mem sid hid))
      refine ⟨final, ?_, hFf, hSf, ?_, ?_⟩
      · rw [List.foldlM_cons]
        have hstep : populateAt fuel st sid = .ok st2 := by
          rw [populateAt]
          simp only [hs]
          exact hrec
        rw [hstep]
        exact hfold
      · intro id hi
        exact hMonof id (hMono2 id hi)
      · intro id hid
        rcases List.mem_cons.mp hid with h1 | h1
        · subst h1
          exact hMonof id hP2
        · exact hMemof id h1

/-- `aid` is `sid` itself or a basedOn-ancestor of `sid` in the set. -/
inductive Ancestor (st0 : StyleSet) : String → String → Prop where
  | refl (sid : String) : Ancestor st0 sid sid
  | step {sid aid pid : String} {s : Style} :
      st0.lookup sid = some s → s.basedOn = some pid →
      Ancestor st0 pid aid → Ancestor st0 sid aid

theorem fullOf_unfold {st0 : StyleSet} {f : Nat} {sid : String} {m : PropMap}
    (h : fullOf st0 f sid = some m) :
    ∃ s, st0.lookup sid = some s ∧
      ((s.basedOn = none ∧ m = s.style) ∨
        (∃ pid pm g, s.basedOn = some pid ∧ fullOf st0 g pid = some pm ∧
          m = dictUpdate pm s.style)) := by
  cases f with
  | zero => cases h
  | succ g =>
    rw [fullOf] at h
    cases hl : st0.lookup sid with
    | none =>
      simp only [hl] at h
      exact Option.noConfusion h
    | some s =>
      simp only [hl] at h
      refine ⟨s, rfl, ?_⟩
      cases hb : s.basedOn with
      | none =>
        simp only [hb] at h
        injection h with h2
        exact Or.inl ⟨rfl, h2.symm⟩
      | some pid =>
        simp only [hb] at h
        cases hp : fullOf st0 g pid with
        | none =>
          simp only [hp, Option.map_none'] at h
          exact Option.noConfusion h
        | some pm =>
          simp only [hp, Option.map_some'] at h
          injection h with h2
          exact Or.inr ⟨pid, pm, g, rfl, hp, h2.symm⟩

/-- A key absent from the own map of every ancestor is absent from the
cascade value. -/
theorem fullOf_absent (st0 : StyleSet)
    (hNodupOwn : ∀ p ∈ st0, (p.2.style.map Prod.fst).Nodup) :
    ∀ (f : Nat) (sid : String) (m : PropMap) (k : String),
      fullOf st0 f sid = some m →
      (∀ aid s', Ancestor st0 sid aid → st0.lookup aid = some s' →
        s'.style.lookup k = none) →
      m.lookup k = none := by
  intro f
  induction f with
  | zero => intro sid m k h; cases h
  | succ g ih =>
    intro sid m k h habs
    rw [fullOf] at h
    cases hl : st0.lookup sid with
    | none =>
      simp only [hl] at h
      exact Option.noConfusion h
    | some s =>
      simp only [hl] at h
      have hown : s.style.lookup k = none :=
        habs sid s (Ancestor.refl sid) hl
      cases hb : s.basedOn with
      | none =>
        simp only [hb] at h
        injection h with h2
        rw [← h2]
        exact hown
      | some pid =>
        simp only [hb] at h
        cases hp : fullOf st0 g pid with
        | none =>
          simp only [hp, Option.map_none'] at h
          exact Option.noConfusion h
        | some pm =>
          simp only [hp, Option.map_some'] at h
          injection h with h2
          rw [← h2]
          have hnd : (s.style.map Prod.fst).Nodup :=
            hNodupOwn (sid, s) (lookup_mem hl)
          rw [lookup_dictUpdate pm s.style k hnd, hown]
          exact ih pid pm k hp (fun aid s' ha hl' =>
            habs aid s' (Ancestor.step hl hb ha) hl')

/-- C1: over a closed style set whose basedOn graph is acyclic
(witnessed by a rank function that strictly drops along basedOn links)
and whose memos start out empty, the resolution pass of parse_styles
succeeds, and for every style id: its resolved map is the parent's
resolved map overlaid with its own map (own values winning on key
collision), a style with no parent resolves to exactly its own map, and
a key absent from its own map and from every ancestor's own map is
absent from its resolved map. -/
theorem cascade_resolution_correct (styles : StyleSet) (rank : String → Nat)
    (fuel : Nat)
    (hclean : ∀ p ∈ styles, p.2.full_style = none)
    (hclosed : ∀ p ∈ styles, ∀ pid, p.2.basedOn = some pid →
      (styles.lookup pid).isSome)
    (hrank : ∀ p ∈ styles, ∀ pid, p.2.basedOn = some pid →
      rank pid < rank p.1)
    (hfuel : ∀ p ∈ styles, rank p.1 < fuel)
    (hNodupOwn : ∀ p ∈ styles, (p.2.style.map Prod.fst).Nodup) :
    ∃ final, parse_styles_pass fuel styles = .ok final ∧
      ∀ sid s, styles.lookup sid = some s →
        ∃ m, resolveOf final sid = some m ∧
          (s.basedOn = none → m = s.style) ∧
          (∀ pid, s.basedOn = some pid →
            ∃ pm, resolveOf final pid = some pm ∧ m = dictUpdate pm s.style) ∧
          (∀ k, (∀ aid s', Ancestor styles sid aid →
              styles.lookup aid = some s' → s'.style.lookup k = none) →
            m.lookup k = none) := by
  have hS0 : MemoSound styles styles := by
    intro id m hm
    rw [resolveOf] at hm
    cases hl : styles.lookup id with
    | none => rw [hl] at hm; exact Option.noConfusion hm
    | some s =>
      rw [hl] at hm
      have hcl := hclean (id, s) (lookup_mem hl)
      have hm2 : s.full_style = some m := hm
      rw [hcl] at hm2
      exact Option.noConfusion hm2
  have hids : ∀ sid ∈ styles.map Prod.fst,
      (styles.lookup sid).isSome ∧ rank sid < fuel := by
    intro sid hsid
    obtain ⟨p, hp, hp1⟩ := List.mem_map.mp hsid
    refine ⟨(lookup_isSome_iff_mem_keys styles sid).mpr hsid, ?_⟩
    rw [← hp1]
    exact hfuel p hp
  obtain ⟨final, hfold, hFf, hSf, -, hMemof⟩ :=
    pass_fold_inv styles rank fuel hclosed hrank (styles.map Prod.fst)
      styles (FieldsEq.refl styles) hS0 hids
  refine ⟨final, hfold, ?_⟩
  intro sid s hs
  have hsidk : sid ∈ styles.map Prod.fst := by
    rw [← lookup_isSome_iff_mem_keys]
    rw [hs]
    rfl
  have hmemo : (resolveOf final sid).isSome := hMemof sid hsidk
  cases hm : resolveOf final sid with
  | none => rw [hm] at hmemo; exact Bool.noConfusion hmemo
  | some m =>
    obtain ⟨f, hf⟩ := hSf sid m hm
    obtain ⟨s', hs', hcase⟩ := fullOf_unfold hf
    have hss : s' = s := by
      rw [hs] at hs'
      injection hs' with h2
      exact h2.symm
    subst hss
    refine ⟨m, rfl, ?_, ?_, ?_⟩
    · intro hbn
      rcases hcase with ⟨-, hm2⟩ | ⟨pid, pm0, g, hbp, -, -⟩
      · exact hm2
      · rw [hbn] at hbp; exact Option.noConfusion hbp
    · intro pid hbp
      rcases hcase with ⟨hbn, -⟩ | ⟨pid0, pm0, g, hbp0, hgp, hm2⟩
      · rw [hbn] at hbp; exact Option.noConfusion hbp
      · have hpid : pid0 = pid := by
          have := hbp0.symm.trans hbp
          injection this
        subst hpid
        have hpidk : pid0 ∈ styles.map Prod.fst := by
          rw [← lookup_isSome_iff_mem_keys]
          exact hclosed (sid, s') (lookup_mem hs) pid0 hbp0
        have hpmemo : (resolveOf final pid0).isSome := hMemof pid0 hpidk
        cases hpm : resolveOf final pid0 with
        | none => rw [hpm] at hpmemo; exact Bool.noConfusion hpmemo
        | some pm =>
          obtain ⟨g', hg'⟩ := hSf pid0 pm hpm
          have : pm0 = pm := fullOf_det styles g g' pid0 pm0 pm hgp hg'
          subst this
          exact ⟨pm0, rfl, hm2⟩
    · intro k habs
      exact fullOf_absent styles hNodupOwn f sid m k hf habs

/-- Spec §8 example 1: A = color red (no parent), B = font serif based
on A, C = color blue based on A. -/
def exStyles : StyleSet :=
  [("A", ⟨"A", none, some "paragraph", [("color", "red")], none⟩),
   ("B", ⟨"B", some "A", some "paragraph", [("font", "serif")], none⟩),
   ("C", ⟨"C", some "A", some "paragraph", [("color", "blue")], none⟩)]

/-- Witness for C1 at the spec's cascade example, together with the
concrete resolved maps: resolve(A) = color red, resolve(B) = color red
plus font serif, resolve(C) = color blue (child wins). -/
theorem cascade_resolution_correct_witness :
    ((∀ p ∈ exStyles, p.2.full_style = none) ∧
      (∀ p ∈ exStyles, ∀ pid, p.2.basedOn = some pid →
        (exStyles.lookup pid).isSome) ∧
      (∀ p ∈ exStyles, ∀ pid, p.2.basedOn = some pid →
        (fun sid => if sid = "A" then 0 else 1) pid <
          (fun sid => if sid = "A" then 0 else 1) p.1) ∧
      (∀ p ∈ exStyles, (fun sid => if sid = "A" then 0 else 1) p.1 < 2) ∧
      (∀ p ∈ exStyles, (p.2.style.map Prod.fst).Nodup)) ∧
    ((parse_styles_pass 2 exStyles).map (fun st => resolveOf st "A") =
        .ok (some [("color", "red")]) ∧
      (parse_styles_pass 2 exStyles).map (fun st => resolveOf st "B") =
        .ok (some [("color", "red"), ("font", "serif")]) ∧
      (parse_styles_pass 2 exStyles).map (fun st => resolveOf st "C") =
        .ok (some [("color", "blue")])) ∧
    (∃ final, parse_styles_pass 2 exStyles = .ok final ∧
      ∀ sid s, exStyles.lookup sid = some s →
        ∃ m, resolveOf final sid = some m ∧
          (s.basedOn = none → m = s.style) ∧
          (∀ pid, s.basedOn = some pid →
            ∃ pm, resolveOf final pid = some pm ∧ m = dictUpdate pm s.style) ∧
          (∀ k, (∀ aid s', Ancestor exStyles sid aid →
              exStyles.lookup aid = some s' → s'.style.lookup k = none) →
            m.lookup k = none)) :=
  ⟨⟨by decide, by decide, by decide, by decide, by decide⟩,
    ⟨by decide, by decide, by decide⟩,
    cascade_resolution_correct exStyles (fun sid => if sid = "A" then 0 else 1)
      2 (by decide) (by decide) (by decide) (by decide) (by decide)⟩

/-- A successful pass only rewrites memo fields: fold version. -/
theorem pass_fold_fieldsEq (fuel : Nat) :
    ∀ (ids : List String) (st final : StyleSet),
      ids.foldlM (populateAt fuel) st = .ok final →
      FieldsEq st final := by
  intro ids
  induction ids with
  | nil =>
    intro st final h
    have h2 : st = final := by
      simpa [pure, Except.pure] using h
    subst h2
    exact FieldsEq.refl st
  | cons sid rest ih =>
    intro st final h
    rw [List.foldlM_cons] at h
    cases hs : st.lookup sid with
    | none =>
      rw [show populateAt fuel st sid = .error (.keyError sid) by
        rw [populateAt]; simp only [hs]] at h
      exact Except.noConfusion h
    | some s =>
      cases hrec : populate_full_style st sid s fuel with
      | error e =>
        rw [show populateAt fuel st sid = .error e by
          rw [populateAt]; simp only [hs]; exact hrec] at h
        exact Except.noConfusion h
      | ok st2 =>
        rw [show populateAt fuel st sid = .ok st2 by
          rw [populateAt]; simp only [hs]; exact hrec] at h
        exact (populate_fieldsEq fuel st sid s st2 hrec).trans (ih st2 final h)

/-- C9: a successful resolution pass never mutates any style's id,
basedOn link, type tag or own property map — only the full_style memo
is written; and a populate call on an already-memoized style returns
the state unchanged, with the memoized value still in place. -/
theorem populate_pass_frame (styles final : StyleSet) (fuel : Nat)
    (h : parse_styles_pass fuel styles = .ok final) :
    (∀ id, (final.lookup id).map eraseFull = (styles.lookup id).map eraseFull) ∧
    (∀ (st : StyleSet) (sid : String) (s : Style) (m : PropMap) (f : Nat),
      st.lookup sid = some s → s.full_style = some m →
      populate_full_style st sid s (f + 1) = .ok st ∧
        resolveOf st sid = some m) := by
  constructor
  · exact pass_fold_fieldsEq fuel (styles.map Prod.fst) styles final h
  · intro st sid s m f hs hm
    constructor
    · rw [populate_full_style]
      simp only [hm]
    · simp [resolveOf, hs, hm]

/-- The resolved style set that the pass produces on `exStyles`. -/
def exFinal : StyleSet :=
  [("A", ⟨"A", none, some "paragraph", [("color", "red")],
      some [("color", "red")]⟩),
   ("B", ⟨"B", some "A", some "paragraph", [("font", "serif")],
      some [("color", "red"), ("font", "serif")]⟩),
   ("C", ⟨"C", some "A", some "paragraph", [("color", "blue")],
      some [("color", "blue")]⟩)]

/-- Witness for C9 at the spec's cascade example. -/
theorem populate_pass_frame_witness :
    parse_styles_pass 2 exStyles = .ok exFinal ∧
    (∀ id, (exFinal.lookup id).map eraseFull =
        (exStyles.lookup id).map eraseFull) ∧
    (∀ (st : StyleSet) (sid : String) (s : Style) (m : PropMap) (f : Nat),
      st.lookup sid = some s → s.full_style = some m →
      populate_full_style st sid s (f + 1) = .ok st ∧
        resolveOf st sid = some m) :=
  ⟨by decide,
    (populate_pass_frame exStyles exFinal 2 (by decide)).1,
    (populate_pass_frame exStyles exFinal 2 (by decide)).2⟩

/-! ### Cycles and dangling references in the cascade (C6)

The spec names `CycleError` and `UnresolvedReferenceError`.  The code
has no cycle detection at all: on a basedOn cycle, `populate_full_style`
recurses forever and the interpreter aborts with `RecursionError`; a
dangling basedOn id raises `KeyError` from `all_styles[s.basedOn]`.
Both abort `parse_styles` with no styles dict returned. -/

/-- Follow one basedOn link through the set. -/
def basedOnStep (st0 : StyleSet) (sid : String) : Option String :=
  (st0.lookup sid).bind Style.basedOn

/-- Follow `n` basedOn links. -/
def stepN (st0 : StyleSet) : Nat → String → Option String
  | 0, sid => some sid
  | n + 1, sid => (basedOnStep st0 sid).bind (stepN st0 n)

/-- `sid` lies on a basedOn cycle of the set. -/
def OnCycle (st0 : StyleSet) (sid : String) : Prop :=
  ∃ n, stepN st0 (n + 1) sid = some sid

/-- No id lying on a basedOn cycle has been memoized in `st`. -/
def CycFree (st0 st : StyleSet) : Prop :=
  ∀ cid, OnCycle st0 cid → resolveOf st cid = none

theorem stepN_add (st0 : StyleSet) (a b : Nat) (sid : String) :
    stepN st0 (a + b) sid = (stepN st0 a sid).bind (stepN st0 b) := by
  induction a generalizing sid with
  | zero => simp [stepN]
  | succ a ih =>
    have : a + 1 + b = (a + b) + 1 := by omega
    rw [this, stepN, stepN]
    cases h : basedOnStep st0 sid with
    | none => simp
    | some pid =>
      simp only [Option.some_bind]
      exact ih pid

theorem onCycle_present {st0 : StyleSet} {sid : String}
    (h : OnCycle st0 sid) : (st0.lookup sid).isSome := by
  obtain ⟨n, hn⟩ := h
  rw [stepN] at hn
  cases hb : basedOnStep st0 sid with
  | none => rw [hb] at hn; exact Option.noConfusion hn
  | some pid =>
    rw [basedOnStep] at hb
    cases hl : st0.lookup sid with
    | none => rw [hl] at hb; exact Option.noConfusion hb
    | some s => rfl

theorem onCycle_step {st0 : StyleSet} {sid pid : String}
    (h : OnCycle st0 sid) (hb : basedOnStep st0 sid = some pid) :
    OnCycle st0 pid := by
  obtain ⟨n, hn⟩ := h
  rw [stepN, hb, Option.some_bind] at hn
  refine ⟨n, ?_⟩
  rw [stepN_add st0 n 1 pid, hn, Option.some_bind]
  show (basedOnStep st0 sid).bind (stepN st0 0) = some pid
  rw [hb]
  rfl

/-- Joint cycle lemma: while no on-cycle id is memoized, resolving an
on-cycle id exhausts any recursion budget (RecursionError), and any
successful populate call keeps every on-cycle id unmemoized. -/
theorem populate_cycle (st0 : StyleSet) :
    ∀ (fuel : Nat) (st : StyleSet) (sid : String) (s : Style),
      FieldsEq st0 st →
      CycFree st0 st →
      st.lookup sid = some s →
      ((OnCycle st0 sid →
          populate_full_style st sid s fuel = .error .recursionError) ∧
        (∀ st', populate_full_style st sid s fuel = .ok st' →
          CycFree st0 st')) := by
  intro fuel
  induction fuel with
  | zero =>
    intro st sid s hF hC hs
    exact ⟨fun _ => rfl, fun st' h => Except.noConfusion h⟩
  | succ fuel ih =>
    intro st sid s hF hC hs
    constructor
    · intro hcyc
      have hm : s.full_style = none := by
        have hr := hC sid hcyc
        rw [resolveOf, hs] at hr
        exact hr
      cases hbs : basedOnStep st0 sid with
      | none =>
        exfalso
        obtain ⟨n, hn⟩ := hcyc
        rw [stepN, hbs] at hn
        exact Option.noConfusion hn
      | some pid =>
        have hcycp : OnCycle st0 pid := onCycle_step hcyc hbs
        have hsb : s.basedOn = some pid := by
          rw [basedOnStep] at hbs
          obtain ⟨s0, hs0, -, hb0, -, -⟩ := hF.lookup_of hs
          rw [hs0, Option.some_bind, hb0] at hbs
          exact hbs
        have hpp : (st.lookup pid).isSome :=
          (hF.isSome_iff pid).mpr (onCycle_present hcycp)
        cases hp : st.lookup pid with
        | none => rw [hp] at hpp; exact Bool.noConfusion hpp
        | some parent =>
          have herr := (ih st pid parent hF hC hp).1 hcycp
          rw [populate_full_style]
          simp only [hm, hsb, hp, herr]
    · intro st' h
      rw [populate_full_style] at h
      cases hm : s.full_style with
      | some m =>
        simp only [hm] at h
        injection h with h2
        subst h2
        exact hC
      | none =>
        simp only [hm] at h
        cases hb : s.basedOn with
        | none =>
          simp only [hb] at h
          injection h with h2
          subst h2
          intro cid hcid
          by_cases hc : cid = sid
          · subst hc
            exfalso
            obtain ⟨n, hn⟩ := hcid
            rw [stepN] at hn
            have hbs : basedOnStep st0 cid = none := by
              rw [basedOnStep]
              obtain ⟨s0, hs0, -, hb0, -, -⟩ := hF.lookup_of hs
              rw [hs0, Option.some_bind, hb0]
              exact hb
            rw [hbs] at hn
            exact Option.noConfusion hn
          · rw [resolveOf_setFullStyle_ne st s.style hc]
            exact hC cid hcid
        | some pid =>
          simp only [hb] at h
          cases hp : st.lookup pid with
          | none => rw [hp] at h; exact Except.noConfusion h
          | some parent =>
            simp only [hp] at h
            cases hrec : populate_full_style st pid parent fuel with
            | error e => rw [hrec] at h; exact Except.noConfusion h
            | ok st2 =>
              simp only [hrec] at h
              cases hpfs : (st2.lookup pid).bind Style.full_style with
              | none => rw [hpfs] at h; exact Except.noConfusion h
              | some pfs =>
                simp only [hpfs] at h
                injection h with h2
                subst h2
                have hC2 : CycFree st0 st2 :=
                  (ih st pid parent hF hC hp).2 st2 hrec
                intro cid hcid
                by_cases hc : cid = sid
                · subst hc
                  exfalso
                  have hbs : basedOnStep st0 cid = some pid := by
                    rw [basedOnStep]
                    obtain ⟨s0, hs0, -, hb0, -, -⟩ := hF.lookup_of hs
                    rw [hs0, Option.some_bind, hb0]
                    exact hb
                  have hcycp : OnCycle st0 pid := onCycle_step hcid hbs
                  have herr := (ih st pid parent hF hC hp).1 hcycp
                  rw [herr] at hrec
                  exact Except.noConfusion hrec
                · rw [resolveOf_setFullStyle_ne st2 _ hc]
                  exact hC2 cid hcid

/-- If some id on a basedOn cycle is among the ids to process, the fold
aborts with an error. -/
theorem pass_cycle_fold (st0 : StyleSet) (fuel : Nat) :
    ∀ (ids : List String) (st : StyleSet),
      FieldsEq st0 st → CycFree st0 st →
      (∃ cid ∈ ids, OnCycle st0 cid) →
      ∃ e, ids.foldlM (populateAt fuel) st = .error e := by
  intro ids
  induction ids with
  | nil =>
    intro st _ _ hex
    obtain ⟨cid, hcid, -⟩ := hex
    exact absurd hcid (List.not_mem_nil cid)
  | cons sid rest ih =>
    intro st hF hC hex
    rw [List.foldlM_cons]
    cases hsl : st.lookup sid with
    | none =>
      refine ⟨.keyError sid, ?_⟩
      rw [show populateAt fuel st sid = .error (.keyError sid) by
        rw [populateAt]; simp only [hsl]]
      rfl
    | some s =>
      cases hrec : populate_full_style st sid s fuel with
      | error e =>
        refine ⟨e, ?_⟩
        rw [show populateAt fuel st sid = .error e by
          rw [populateAt]; simp only [hsl]; exact hrec]
        rfl
      | ok st2 =>
        have hF2 : FieldsEq st0 st2 :=
          hF.trans (populate_fieldsEq fuel st sid s st2 hrec)
        have hC2 : CycFree st0 st2 :=
          (populate_cycle st0 fuel st sid s hF hC hsl).2 st2 hrec
        obtain ⟨cid, hcid, hcyc⟩ := hex
        rcases List.mem_cons.mp hcid with h1 | h1
        · subst h1
          have herr := (populate_cycle st0 fuel st cid s hF hC hsl).1 hcyc
          rw [herr] at hrec
          exact Except.noConfusion hrec
        · obtain ⟨e, herr⟩ := ih st2 hF2 hC2 ⟨cid, h1, hcyc⟩
          refine ⟨e, ?_⟩
          rw [show populateAt fuel st sid = .ok st2 by
            rw [populateAt]; simp only [hsl]; exact hrec]
          exact herr

/-- C6 amended: the code detects neither cycles nor dangling parents
with dedicated error kinds.  On a pristine style set, resolving an id
that lies on a basedOn cycle exhausts every recursion budget and fails
with RecursionError (Python's stack exhaustion), and the whole pass
aborts with an error (no styles dict is returned); a basedOn reference
to an absent id fails with KeyError naming that id, likewise aborting. -/
theorem cascade_error_behavior (styles : StyleSet)
    (hclean : ∀ p ∈ styles, p.2.full_style = none) :
    (∀ sid s fuel, styles.lookup sid = some s → OnCycle styles sid →
      populate_full_style styles sid s fuel = .error .recursionError) ∧
    (∀ sid s pid fuel, styles.lookup sid = some s →
      s.basedOn = some pid → styles.lookup pid = none →
      populate_full_style styles sid s (fuel + 1) = .error (.keyError pid)) ∧
    (∀ fuel sid, OnCycle styles sid →
      ∃ e, parse_styles_pass fuel styles = .error e) := by
  have hCF : CycFree styles styles := by
    intro cid hcyc
    have hpres := onCycle_present hcyc
    cases hl : styles.lookup cid with
    | none => rw [hl] at hpres; exact Bool.noConfusion hpres
    | some s =>
      have hm := hclean (cid, s) (lookup_mem hl)
      rw [resolveOf, hl]
      show s.full_style = none
      exact hm
  refine ⟨?_, ?_, ?_⟩
  · intro sid s fuel hs hcyc
    exact (populate_cycle styles fuel styles sid s (FieldsEq.refl styles)
      hCF hs).1 hcyc
  · intro sid s pid fuel hs hb hp
    have hm : s.full_style = none := hclean (sid, s) (lookup_mem hs)
    rw [populate_full_style]
    simp only [hm, hb, hp]
  · intro fuel sid hcyc
    have hk : sid ∈ styles.map Prod.fst := by
      rw [← lookup_isSome_iff_mem_keys]
      exact onCycle_present hcyc
    exact pass_cycle_fold styles fuel (styles.map Prod.fst) styles
      (FieldsEq.refl styles) hCF ⟨sid, hk, hcyc⟩

/-- A two-style basedOn cycle, as in spec §8 example 2. -/
def exCyc : StyleSet :=
  [("A", ⟨"A", some "B", none, [], none⟩),
   ("B", ⟨"B", some "A", none, [], none⟩)]

/-- A style whose basedOn names an id absent from the set. -/
def exDangling : StyleSet :=
  [("S", ⟨"S", some "Missing", none, [], none⟩)]

set_option maxRecDepth 100000 in
/-- Counterexample to C6 as stated: on the two-style cycle the code
does not raise a CycleError — at the interpreter recursion limit
(modelled as fuel 1000) it fails with RecursionError; on a dangling
reference it raises KeyError, not an UnresolvedReferenceError. -/
theorem cascade_error_counterexample :
    populate_full_style exCyc "A" ⟨"A", some "B", none, [], none⟩ 1000 =
        .error .recursionError ∧
      populate_full_style exCyc "A" ⟨"A", some "B", none, [], none⟩ 1000 ≠
        .error .cycleError ∧
      parse_styles_pass 1000 exCyc = .error .recursionError ∧
      populate_full_style exDangling "S"
          ⟨"S", some "Missing", none, [], none⟩ 1000 =
        .error (.keyError "Missing") ∧
      populate_full_style exDangling "S"
          ⟨"S", some "Missing", none, [], none⟩ 1000 ≠
        .error .unresolvedReferenceError := by
  refine ⟨?_, ?_, ?_, ?_, ?_⟩ <;> decide

/-- Witness for the amended C6 at the concrete two-style cycle. -/
theorem cascade_error_behavior_witness :
    (∀ p ∈ exCyc, p.2.full_style = none) ∧
    ((∀ sid s fuel, exCyc.lookup sid = some s → OnCycle exCyc sid →
        populate_full_style exCyc sid s fuel = .error .recursionError) ∧
      (∀ sid s pid fuel, exCyc.lookup sid = some s →
        s.basedOn = some pid → exCyc.lookup pid = none →
        populate_full_style exCyc sid s (fuel + 1) =
          .error (.keyError pid)) ∧
      (∀ fuel sid, OnCycle exCyc sid →
        ∃ e, parse_styles_pass fuel exCyc = .error e)) ∧
    OnCycle exCyc "A" :=
  ⟨by decide, cascade_error_behavior exCyc (by decide), 1, by decide⟩

/-! ### The numbering lookup (src/docx.py, lines 330-580)

`Document.get_list_style_at(numId, ilvl)` first consults the list
instance's lvlOverride slots (bounds-checked: `if ilvl < len(ov) and
ov[ilvl] is not None`), then resolves the abstract definition, chasing
`numStyleLink` aliases through the styles table, and finally indexes
the abstract level list with `abstract_num[ilvl]` — which is *not*
bounds-checked.  A `None` slot inside the list is returned as is
("no level"). -/

/-- docx.py class Lvl (data from a w:lvl element). -/
structure Lvl where
  pStyle : Option String
  numFmt : Option String
  lvlText : Option String
  suff : String
  full_style : PropMap
deriving Repr, DecidableEq

/-- One entry of Numbering.abstract_num: either a sparse level list or
a numStyleLink alias (docx.py lines 440-457). -/
inductive AbstractNum where
  | levels (ls : List (Option Lvl))
  | styleLink (sid : String)
deriving Repr, DecidableEq

/-- docx.py class Num (data from a w:num element).  Named NumEntry
here because Lean's library already declares `Num`. -/
structure NumEntry where
  abstract_num_id : String
  overrides : List (Option Lvl)
deriving Repr, DecidableEq

/-- docx.py class Numbering. -/
structure Numbering where
  abstract_num : List (String × AbstractNum)
  num : List (String × NumEntry)
deriving Repr, DecidableEq

/-- The parts of docx.py class Document that the numbering lookup
reads. -/
structure Document where
  styles : StyleSet
  numbering : Numbering
deriving Repr, DecidableEq

/-- docx.py Document.get_list_style_at (lines 568-580).  The fuel
bounds the numStyleLink chase (Python recursion). -/
def get_list_style_at (doc : Document) :
    Nat → String → Nat → Except PyError (Option Lvl)
  | 0, _, _ => .error .recursionError
  | fuel + 1, numId, ilvl =>
    match doc.numbering.num.lookup numId with
    | none => .error (.keyError numId)
    | some num =>
      match num.overrides[ilvl]? with
      | some (some l) => .ok (some l)
      | _ =>
        match doc.numbering.abstract_num.lookup num.abstract_num_id with
        | none => .error (.keyError num.abstract_num_id)
        | some (.styleLink sid) =>
          match doc.styles.lookup sid with
          | none => .error (.keyError sid)
          | some st =>
            match st.full_style with
            | none => .error .typeError
            | some fs =>
              match fs.lookup "-ooxml-numId" with
              | none => .error (.keyError "-ooxml-numId")
              | some numId2 => get_list_style_at doc fuel numId2 ilvl
        | some (.levels ls) =>
          match ls[ilvl]? with
          | some l => .ok l
          | none => .error .indexError

/-- C7 amended: for a non-alias abstract definition, the lookup
returns an applicable override if there is one; otherwise an in-range
index into the abstract level list returns that slot (possibly "no
level" for an unset slot), while an index at or beyond the end of the
abstract level list raises IndexError — it is not bounds-checked. -/
theorem get_list_style_at_characterization (doc : Document)
    (numId : String) (ilvl : Nat) (num : NumEntry) (ls : List (Option Lvl))
    (fuel : Nat)
    (h1 : doc.numbering.num.lookup numId = some num)
    (h2 : doc.numbering.abstract_num.lookup num.abstract_num_id =
      some (.levels ls)) :
    get_list_style_at doc (fuel + 1) numId ilvl =
      match num.overrides[ilvl]? with
      | some (some l) => .ok (some l)
      | _ =>
        match ls[ilvl]? with
        | some l => .ok l
        | none => .error .indexError := by
  rw [get_list_style_at]
  simp only [h1, h2]

/-- A one-level list instance with no overrides. -/
def exDoc : Document :=
  { styles := [],
    numbering :=
      { abstract_num :=
          [("a0", .levels [some ⟨none, some "decimal", some "%1.", "\t", []⟩])],
        num := [("1", ⟨"a0", []⟩)] } }

/-- Counterexample to C7 as stated: looking up level 1 of a list
instance whose abstract definition has only level 0 raises IndexError;
it does not return "no level". -/
theorem get_list_style_at_counterexample :
    get_list_style_at exDoc 10 "1" 1 = .error .indexError ∧
      get_list_style_at exDoc 10 "1" 1 ≠ .ok none := by
  refine ⟨?_, ?_⟩ <;> decide

/-- Witness for the amended C7 at the concrete document: level 0 is
found, level 1 raises IndexError. -/
theorem get_list_style_at_characterization_witness :
    (exDoc.numbering.num.lookup "1" = some (NumEntry.mk "a0" []) ∧
      exDoc.numbering.abstract_num.lookup "a0" =
        some (.levels [some ⟨none, some "decimal", some "%1.", "\t", []⟩])) ∧
    (get_list_style_at exDoc 10 "1" 0 =
        .ok (some ⟨none, some "decimal", some "%1.", "\t", []⟩) ∧
      get_list_style_at exDoc 10 "1" 1 =
        match (NumEntry.mk "a0" []).overrides[1]? with
        | some (some l) => .ok (some l)
        | _ =>
          match ([some ⟨none, some "decimal", some "%1.", "\t", []⟩] :
              List (Option Lvl))[1]? with
          | some l => .ok l
          | none => .error .indexError) :=
  ⟨⟨by decide, by decide⟩,
    by decide,
    get_list_style_at_characterization exDoc "1" 1 (NumEntry.mk "a0" [])
      [some ⟨none, some "decimal", some "%1.", "\t", []⟩] 9
      (by decide) (by decide)⟩

/-! ### The numbering counter pass (src/fixups.py, lines 138-271)

`fixup_add_numbering` keeps `numbering_context`, a defaultdict mapping an
abstract definition id to the stack of current counter values, and
`seen_numids`, the set of numId values of all paragraphs processed so
far.  For a numbered paragraph (numid, ilvl) it runs (lines 204-220):

    abstract_num_id, levels = docx.numbering.get_abstract_num_id_and_levels(numid)
    current_number = numbering_context[abstract_num_id]
    if len(current_number) <= ilvl:
        while len(current_number) <= ilvl:
            lvl = levels[len(current_number)]
            current_number.append(lvl.start)
    else:
        del current_number[ilvl + 1:]
        if numid not in seen_numids:
            current_number[ilvl] = levels[ilvl].start
        else:
            current_number[ilvl] += 1

and then `seen_numids.add(numid)` (line 230) for every paragraph,
numbered or not (non-numbered paragraphs have numid = 0).

Modelled from the spec: `Numbering.get_abstract_num_id_and_levels` and
the `start` attribute of a level are referenced here but absent from
src/docx.py (that file holds an older Document class without them).
Following spec §4.2, the call resolves a list instance id to its
abstract definition id and the instance's effective level sequence;
the counter pass reads only each level's start value, so the lookup is
modelled as a table mapping numid to (abstract id, list of start
values). -/

/-- A numbered paragraph as the counter pass sees it: its resolved
numId (0 = not numbered) and ilvl. -/
structure NumPara where
  numid : Nat
  ilvl : Nat
deriving Repr, DecidableEq

/-- The mutable state of fixup_add_numbering: numbering_context and
seen_numids. -/
structure NumState where
  ctx : List (String × List Int)
  seen : List Nat
deriving Repr, DecidableEq

/-- Python set.add. -/
def seenAdd (seen : List Nat) (n : Nat) : List Nat :=
  if n ∈ seen then seen else seen ++ [n]

/-- The `while len(current_number) <= ilvl` push loop, with an explicit
iteration budget (each pass appends one entry, so `ilvl + 1 - cur.length`
iterations always suffice). -/
def extendLoop (levels : List Int) (ilvl : Nat) :
    Nat → List Int → Except PyError (List Int)
  | 0, cur => .ok cur
  | gas + 1, cur =>
    if cur.length ≤ ilvl then
      match levels[cur.length]? with
      | none => .error .indexError
      | some v => extendLoop levels ilvl gas (cur ++ [v])
    else .ok cur

def extendNumber (levels : List Int) (ilvl : Nat) (cur : List Int) :
    Except PyError (List Int) :=
  extendLoop levels ilvl (ilvl + 1 - cur.length) cur

/-- One paragraph step of the counter pass (fixups.py lines 196-230,
numbering bookkeeping only). -/
def add_numbering_step (numtab : List (Nat × (String × List Int)))
    (st : NumState) (p : NumPara) : Except PyError NumState :=
  if p.numid = 0 then
    .ok { st with seen := seenAdd st.seen 0 }
  else
    match numtab.lookup p.numid with
    | none => .error (.keyError (toString p.numid))
    | some nd =>
      let cur := (st.ctx.lookup nd.1).getD []
      let next : Except PyError (List Int) :=
        if cur.length ≤ p.ilvl then
          extendNumber nd.2 p.ilvl cur
        else
          let cur2 := cur.take (p.ilvl + 1)
          if p.numid ∈ st.seen then
            .ok (cur2.set p.ilvl (cur2.getD p.ilvl 0 + 1))
          else
            match nd.2[p.ilvl]? with
            | none => .error .indexError
            | some v => .ok (cur2.set p.ilvl v)
      match next with
      | .error e => .error e
      | .ok cur2 =>
        .ok { ctx := dictInsert st.ctx nd.1 cur2,
              seen := seenAdd st.seen p.numid }

/-- The single forward pass over the paragraph stream, from the empty
initial state. -/
def add_numbering_run (numtab : List (Nat × (String × List Int)))
    (ps : List NumPara) : Except PyError NumState :=
  ps.foldlM (add_numbering_step numtab) ⟨[], []⟩

/-- The counter value observed for each numbered paragraph (the value
the rendered marker displays for its own level). -/
def add_numbering_trace (numtab : List (Nat × (String × List Int))) :
    NumState → List NumPara → Except PyError (List Int)
  | _, [] => .ok []
  | st, p :: ps =>
    match add_numbering_step numtab st p with
    | .error e => .error e
    | .ok st2 =>
      let head : List Int :=
        if p.numid = 0 then []
        else
          match numtab.lookup p.numid with
          | some nd =>
            match ((st2.ctx.lookup nd.1).getD [])[p.ilvl]? with
            | some v => [v]
            | none => []
          | none => []
      match add_numbering_trace numtab st2 ps with
      | .error e => .error e
      | .ok tr => .ok (head ++ tr)

theorem mem_seenAdd (seen : List Nat) (n m : Nat) :
    m ∈ seenAdd seen n ↔ m = n ∨ m ∈ seen := by
  unfold seenAdd
  by_cases h : n ∈ seen
  · rw [if_pos h]
    constructor
    · exact fun hm => Or.inr hm
    · rintro (rfl | hm)
      · exact h
      · exact hm
  · rw [if_neg h]
    simp [List.mem_append, or_comm]

/-- After a successful run, seen_numids holds exactly the numId values
of the processed paragraphs. -/
theorem run_seen_spec (numtab : List (Nat × (String × List Int))) :
    ∀ (ps : List NumPara) (st0 st : NumState),
      ps.foldlM (add_numbering_step numtab) st0 = .ok st →
      ∀ n, n ∈ st.seen ↔ n ∈ ps.map NumPara.numid ∨ n ∈ st0.seen := by
  intro ps
  induction ps with
  | nil =>
    intro st0 st h n
    have h2 : st0 = st := by simpa [pure, Except.pure] using h
    subst h2
    simp
  | cons p ps ih =>
    intro st0 st h n
    rw [List.foldlM_cons] at h
    cases hstep : add_numbering_step numtab st0 p with
    | error e => rw [hstep] at h; exact Except.noConfusion h
    | ok st1 =>
      rw [hstep] at h
      have hseen1 : st1.seen = seenAdd st0.seen p.numid := by
        rw [add_numbering_step] at hstep
        by_cases h0 : p.numid = 0
        · rw [if_pos h0] at hstep
          injection hstep with h2
          rw [← h2, h0]
        · rw [if_neg h0] at hstep
          cases hn : numtab.lookup p.numid with
          | none => rw [hn] at hstep; exact Except.noConfusion hstep
          | some nd =>
            rw [hn] at hstep
            simp only [] at hstep
            cases hnext :
                (if ((st0.ctx.lookup nd.1).getD []).length ≤ p.ilvl then
                  extendNumber nd.2 p.ilvl ((st0.ctx.lookup nd.1).getD [])
                else
                  if p.numid ∈ st0.seen then
                    .ok ((((st0.ctx.lookup nd.1).getD []).take (p.ilvl + 1)).set
                      p.ilvl
                      ((((st0.ctx.lookup nd.1).getD []).take
                        (p.ilvl + 1)).getD p.ilvl 0 + 1))
                  else
                    match nd.2[p.ilvl]? with
                    | none => .error .indexError
                    | some v =>
                      .ok ((((st0.ctx.lookup nd.1).getD []).take
                        (p.ilvl + 1)).set p.ilvl v) :
                  Except PyError (List Int)) with
            | error e => rw [hnext] at hstep; exact Except.noConfusion hstep
            | ok cur2 =>
              rw [hnext] at hstep
              injection hstep with h2
              rw [← h2]
      rw [ih st1 st h n, hseen1, mem_seenAdd]
      simp only [List.map_cons, List.mem_cons]
      tauto

/-- C4: in the single forward pass, when a paragraph (numid, ilvl)
finds its abstract definition's counter stack already holding an entry
at index ilvl, deeper entries are truncated, and the counter at ilvl is
reset to that level's start value iff numid has never been the numId of
any earlier paragraph in the document — even though the abstract
definition already produced counters — and is otherwise incremented by
one.  In particular, for a two-level list with starts 1,1 and the item
stream level0, level0, level1, level0 on one instance, the observed
counters are 1, 2, 1, 3. -/
theorem add_numbering_first_use_reset
    (numtab : List (Nat × (String × List Int)))
    (ps : List NumPara) (p : NumPara) (st : NumState)
    (aid : String) (levels : List Int)
    (hrun : add_numbering_run numtab ps = .ok st)
    (hnum : numtab.lookup p.numid = some (aid, levels))
    (hnz : ¬p.numid = 0)
    (hdepth : p.ilvl < ((st.ctx.lookup aid).getD []).length)
    (hstart : p.ilvl < levels.length) :
    (add_numbering_run numtab (ps ++ [p]) = .ok
      { ctx := dictInsert st.ctx aid
          ((((st.ctx.lookup aid).getD []).take (p.ilvl + 1)).set p.ilvl
            (if p.numid ∈ ps.map NumPara.numid then
              ((((st.ctx.lookup aid).getD []).take (p.ilvl + 1)).getD
                p.ilvl 0) + 1
            else levels.get ⟨p.ilvl, hstart⟩)),
        seen := seenAdd st.seen p.numid }) ∧
    add_numbering_trace [(5, ("L", [1, 1]))] ⟨[], []⟩
      [⟨5, 0⟩, ⟨5, 0⟩, ⟨5, 1⟩, ⟨5, 0⟩] = .ok [1, 2, 1, 3] := by
  constructor
  · have hseen : p.numid ∈ st.seen ↔ p.numid ∈ ps.map NumPara.numid := by
      rw [run_seen_spec numtab ps ⟨[], []⟩ st hrun p.numid]
      simp
    have hlen : ¬((st.ctx.lookup aid).getD []).length ≤ p.ilvl := by omega
    have hstep : add_numbering_step numtab st p = .ok
        { ctx := dictInsert st.ctx aid
            ((((st.ctx.lookup aid).getD []).take (p.ilvl + 1)).set p.ilvl
              (if p.numid ∈ ps.map NumPara.numid then
                ((((st.ctx.lookup aid).getD []).take (p.ilvl + 1)).getD
                  p.ilvl 0) + 1
              else levels.get ⟨p.ilvl, hstart⟩)),
          seen := seenAdd st.seen p.numid } := by
      simp only [add_numbering_step, if_neg hnz, hnum]
      simp only [if_neg hlen]
      by_cases hmem : p.numid ∈ ps.map NumPara.numid
      · simp only [if_pos (hseen.mpr hmem), if_pos hmem]
      · simp only [if_neg (fun hc => hmem (hseen.mp hc)), if_neg hmem]
        have hget : levels[p.ilvl]? = some (levels.get ⟨p.ilvl, hstart⟩) := by
          rw [List.getElem?_eq_getElem hstart]
          rfl
        simp only [hget]
    rw [add_numbering_run] at hrun ⊢
    rw [List.foldlM_append, hrun]
    show [p].foldlM (add_numbering_step numtab) st = _
    rw [List.foldlM_cons, hstep]
    rfl
  · decide

/-- Witness for C4 at the spec's counter-sequencing example: after
level0, level0, level1, a fourth level0 paragraph truncates the stack
and increments (instance already seen), giving counter 3; the observed
counters over the stream are 1, 2, 1, 3. -/
theorem add_numbering_first_use_reset_witness :
    (add_numbering_run [(5, ("L", [1, 1]))]
        [⟨5, 0⟩, ⟨5, 0⟩, ⟨5, 1⟩, ⟨5, 0⟩] =
      .ok { ctx := [("L", [3])], seen := [5] }) ∧
    add_numbering_trace [(5, ("L", [1, 1]))] ⟨[], []⟩
      [⟨5, 0⟩, ⟨5, 0⟩, ⟨5, 1⟩, ⟨5, 0⟩] = .ok [1, 2, 1, 3] :=
  add_numbering_first_use_reset [(5, ("L", [1, 1]))]
    [⟨5, 0⟩, ⟨5, 0⟩, ⟨5, 1⟩] ⟨5, 0⟩
    { ctx := [("L", [2, 1])], seen := [5] } "L" [1, 1]
    (by decide) (by decide) (by decide) (by decide) (by decide)

/-! ### The range nesting engine (src/fixups.py, lines 698-841)

`rewrite_spans` turns a paragraph's runs into (content, style) items,
builds per-property maximal constant StyleRanges grouped by their
(start, stop) extent, sorts them by (start ascending, stop descending),
and calls `build_result(ranges, i0, i1)`, which peels the first range
off as the outermost wrapper, splits the remaining ranges into those
inside it and those after it — cutting a straddling range in two at the
wrapper's stop — recurses on both parts, and fills gaps with plain
content.

`new_span` (lines 717-732) merges adjacent raw strings inside one
wrapper before building the span element; this concatenation changes
neither the span nesting nor the order or multiplicity of the content,
and content pieces are modelled as opaque values, so the model emits
the pieces unmerged.

Each Python `assert` is modelled as a guard returning an error; the
fuel again stands for the interpreter recursion limit. -/

/-- One entry of the sorted range list: (start, stop, style dict). -/
structure SRange where
  start : Nat
  stop : Nat
  style : PropMap
deriving Repr, DecidableEq

/-- Output tree of the range nesting engine: plain content pieces and
style-carrying span wrappers. -/
inductive SNode (α : Type) where
  | piece (a : α)
  | span (style : PropMap) (kids : List (SNode α))
deriving Repr

mutual

def leafOf {α : Type} : SNode α → List α
  | .piece a => [a]
  | .span _ ks => leavesOf ks

def leavesOf {α : Type} : List (SNode α) → List α
  | [] => []
  | n :: ns => leafOf n ++ leavesOf ns

end

/-- Python slice `all_content[c:d]`. -/
def extract {α : Type} (ac : List α) (c d : Nat) : List α :=
  (ac.drop c).take (d - c)

/-- The split of the remaining ranges against the chosen wrapper's stop
(fixups.py lines 813-825): ranges ending inside go to the inner list,
ranges starting at or after the stop go to the after list, and a range
straddling the stop is cut in two, one piece to each. -/
def splitRanges (stop : Nat) : List SRange → List SRange × List SRange
  | [] => ([], [])
  | r :: rest =>
    let p := splitRanges stop rest
    if r.stop ≤ stop then (r :: p.1, p.2)
    else if stop ≤ r.start then (p.1, r :: p.2)
    else (⟨r.start, stop, r.style⟩ :: p.1, ⟨stop, r.stop, r.style⟩ :: p.2)

/-- fixups.py build_result (lines 803-835). -/
def build_result {α : Type} (ac : List α) :
    Nat → List SRange → Nat → Nat → Except PyError (List (SNode α))
  | 0, _, _, _ => .error .recursionError
  | fuel + 1, ranges, c, i1 =>
    match ranges with
    | [] => .ok ((extract ac c i1).map .piece)
    | r :: rest =>
      if c ≤ r.start ∧ r.start < r.stop ∧ r.stop ≤ i1 ∧
          (∀ t ∈ rest, r.start ≤ t.start ∧ t.start < t.stop ∧ t.stop ≤ i1)
      then
        match build_result ac fuel (splitRanges r.stop rest).1
            r.start r.stop with
        | .error e => .error e
        | .ok inner =>
          match build_result ac fuel (splitRanges r.stop rest).2
              r.stop i1 with
          | .error e => .error e
          | .ok after =>
            .ok ((extract ac c r.start).map .piece ++
              (SNode.span r.style inner :: after))
      else .error .assertionError

theorem splitRanges_fst_length (stop : Nat) (l : List SRange) :
    (splitRanges stop l).1.length ≤ l.length := by
  induction l with
  | nil => exact Nat.le_refl 0
  | cons r rest ih =>
    rw [splitRanges]
    by_cases h1 : r.stop ≤ stop
    · simp only [if_pos h1, List.length_cons]
      omega
    · by_cases h2 : stop ≤ r.start
      · simp only [if_neg h1, if_pos h2, List.length_cons]
        omega
      · simp only [if_neg h1, if_neg h2, List.length_cons]
        omega

theorem splitRanges_snd_length (stop : Nat) (l : List SRange) :
    (splitRanges stop l).2.length ≤ l.length := by
  induction l with
  | nil => exact Nat.le_refl 0
  | cons r rest ih =>
    rw [splitRanges]
    by_cases h1 : r.stop ≤ stop
    · simp only [if_pos h1, List.length_cons]
      omega
    · by_cases h2 : stop ≤ r.start
      · simp only [if_neg h1, if_pos h2, List.length_cons]
        omega
      · simp only [if_neg h1, if_neg h2, List.length_cons]
        omega

theorem splitRanges_fst_bounds (stop : Nat) (l : List SRange) (lo hi : Nat)
    (hb : ∀ t ∈ l, lo ≤ t.start ∧ t.start < t.stop ∧ t.stop ≤ hi) :
    ∀ t ∈ (splitRanges stop l).1,
      lo ≤ t.start ∧ t.start < t.stop ∧ t.stop ≤ stop := by
  induction l with
  | nil => intro t ht; exact absurd ht (List.not_mem_nil t)
  | cons r rest ih =>
    have hr := hb r (List.mem_cons_self r rest)
    have hrest := fun t ht => hb t (List.mem_cons_of_mem r ht)
    intro t ht
    rw [splitRanges] at ht
    by_cases h1 : r.stop ≤ stop
    · simp only [if_pos h1] at ht
      rcases List.mem_cons.mp ht with h | h
      · subst h; exact ⟨hr.1, hr.2.1, h1⟩
      · exact ih hrest t h
    · by_cases h2 : stop ≤ r.start
      · simp only [if_neg h1, if_pos h2] at ht
        exact ih hrest t ht
      · simp only [if_neg h1, if_neg h2] at ht
        rcases List.mem_cons.mp ht with h | h
        · subst h
          exact ⟨hr.1, show r.start < stop by omega, Nat.le_refl stop⟩
        · exact ih hrest t h

theorem splitRanges_snd_bounds (stop : Nat) (l : List SRange) (lo hi : Nat)
    (hb : ∀ t ∈ l, lo ≤ t.start ∧ t.start < t.stop ∧ t.stop ≤ hi) :
    ∀ t ∈ (splitRanges stop l).2,
      stop ≤ t.start ∧ t.start < t.stop ∧ t.stop ≤ hi := by
  induction l with
  | nil => intro t ht; exact absurd ht (List.not_mem_nil t)
  | cons r rest ih =>
    have hr := hb r (List.mem_cons_self r rest)
    have hrest := fun t ht => hb t (List.mem_cons_of_mem r ht)
    intro t ht
    rw [splitRanges] at ht
    by_cases h1 : r.stop ≤ stop
    · simp only [if_pos h1] at ht
      exact ih hrest t ht
    · by_cases h2 : stop ≤ r.start
      · simp only [if_neg h1, if_pos h2] at ht
        rcases List.mem_cons.mp ht with h | h
        · subst h; exact ⟨h2, hr.2.1, hr.2.2⟩
        · exact ih hrest t h
      · simp only [if_neg h1, if_neg h2] at ht
        rcases List.mem_cons.mp ht with h | h
        · subst h
          exact ⟨Nat.le_refl stop, show stop < r.stop by omega, hr.2.2⟩
        · exact ih hrest t h

theorem splitRanges_snd_mem (stop : Nat) (l : List SRange) :
    ∀ t ∈ (splitRanges stop l).2, ∃ u ∈ l,
      (t.start = u.start ∧ stop ≤ u.start) ∨
        (t.start = stop ∧ u.start < stop) := by
  induction l with
  | nil => intro t ht; exact absurd ht (List.not_mem_nil t)
  | cons r rest ih =>
    intro t ht
    rw [splitRanges] at ht
    by_cases h1 : r.stop ≤ stop
    · simp only [if_pos h1] at ht
      obtain ⟨u, hu, hc⟩ := ih t ht
      exact ⟨u, List.mem_cons_of_mem r hu, hc⟩
    · by_cases h2 : stop ≤ r.start
      · simp only [if_neg h1, if_pos h2] at ht
        rcases List.mem_cons.mp ht with h | h
        · subst h
          exact ⟨t, List.mem_cons_self t rest, Or.inl ⟨rfl, h2⟩⟩
        · obtain ⟨u, hu, hc⟩ := ih t h
          exact ⟨u, List.mem_cons_of_mem r hu, hc⟩
      · simp only [if_neg h1, if_neg h2] at ht
        rcases List.mem_cons.mp ht with h | h
        · subst h
          exact ⟨r, List.mem_cons_self r rest, Or.inr ⟨rfl, by omega⟩⟩
        · obtain ⟨u, hu, hc⟩ := ih t h
          exact ⟨u, List.mem_cons_of_mem r hu, hc⟩

theorem splitRanges_fst_mem (stop : Nat) (l : List SRange) :
    ∀ t ∈ (splitRanges stop l).1, ∃ u ∈ l, t.start = u.start := by
  induction l with
  | nil => intro t ht; exact absurd ht (List.not_mem_nil t)
  | cons r rest ih =>
    intro t ht
    rw [splitRanges] at ht
    by_cases h1 : r.stop ≤ stop
    · simp only [if_pos h1] at ht
      rcases List.mem_cons.mp ht with h | h
      · subst h; exact ⟨t, List.mem_cons_self t rest, rfl⟩
      · obtain ⟨u, hu, hc⟩ := ih t h
        exact ⟨u, List.mem_cons_of_mem r hu, hc⟩
    · by_cases h2 : stop ≤ r.start
      · simp only [if_neg h1, if_pos h2] at ht
        obtain ⟨u, hu, hc⟩ := ih t ht
        exact ⟨u, List.mem_cons_of_mem r hu, hc⟩
      · simp only [if_neg h1, if_neg h2] at ht
        rcases List.mem_cons.mp ht with h | h
        · subst h
          exact ⟨r, List.mem_cons_self r rest, rfl⟩
        · obtain ⟨u, hu, hc⟩ := ih t h
          exact ⟨u, List.mem_cons_of_mem r hu, hc⟩

theorem splitRanges_fst_sorted (stop : Nat) (l : List SRange)
    (h : l.Pairwise (fun a b => a.start ≤ b.start)) :
    (splitRanges stop l).1.Pairwise (fun a b => a.start ≤ b.start) := by
  induction l with
  | nil => exact List.Pairwise.nil
  | cons r rest ih =>
    rcases List.pairwise_cons.mp h with ⟨hr, hrest⟩
    have hhead : ∀ t ∈ (splitRanges stop rest).1, r.start ≤ t.start := by
      intro t ht
      obtain ⟨u, hu, he⟩ := splitRanges_fst_mem stop rest t ht
      rw [he]
      exact hr u hu
    rw [splitRanges]
    by_cases h1 : r.stop ≤ stop
    · simp only [if_pos h1]
      exact List.Pairwise.cons hhead (ih hrest)
    · by_cases h2 : stop ≤ r.start
      · simp only [if_neg h1, if_pos h2]
        exact ih hrest
      · simp only [if_neg h1, if_neg h2]
        exact List.Pairwise.cons hhead (ih hrest)

theorem splitRanges_snd_sorted (stop : Nat) (l : List SRange)
    (h : l.Pairwise (fun a b => a.start ≤ b.start)) :
    (splitRanges stop l).2.Pairwise (fun a b => a.start ≤ b.start) := by
  induction l with
  | nil => exact List.Pairwise.nil
  | cons r rest ih =>
    rcases List.pairwise_cons.mp h with ⟨hr, hrest⟩
    rw [splitRanges]
    by_cases h1 : r.stop ≤ stop
    · simp only [if_pos h1]
      exact ih hrest
    · by_cases h2 : stop ≤ r.start
      · simp only [if_neg h1, if_pos h2]
        refine List.Pairwise.cons ?_ (ih hrest)
        intro t ht
        obtain ⟨u, hu, hc⟩ := splitRanges_snd_mem stop rest t ht
        have := hr u hu
        rcases hc with ⟨he, -⟩ | ⟨he, hlt⟩
        · rw [he]; exact this
        · omega
      · simp only [if_neg h1, if_neg h2]
        refine List.Pairwise.cons ?_ (ih hrest)
        intro t ht
        obtain ⟨u, hu, hc⟩ := splitRanges_snd_mem stop rest t ht
        rcases hc with ⟨he, hge⟩ | ⟨he, -⟩
        · show stop ≤ t.start
          omega
        · show stop ≤ t.start
          omega

theorem leavesOf_append {α : Type} (x y : List (SNode α)) :
    leavesOf (x ++ y) = leavesOf x ++ leavesOf y := by
  induction x with
  | nil => rfl
  | cons n ns ih =>
    rw [List.cons_append, leavesOf, leavesOf, ih, List.append_assoc]

theorem leavesOf_map_piece {α : Type} (l : List α) :
    leavesOf (l.map SNode.piece) = l := by
  induction l with
  | nil => rfl
  | cons a t ih =>
    rw [List.map_cons, leavesOf, leafOf, ih]
    rfl

theorem extract_append_extract {α : Type} (ac : List α) (c m d : Nat)
    (h1 : c ≤ m) (h2 : m ≤ d) :
    extract ac c m ++ extract ac m d = extract ac c d := by
  unfold extract
  have hd : ac.drop m = (ac.drop c).drop (m - c) := by
    rw [List.drop_drop]
    congr 1
    omega
  rw [hd, show d - c = (m - c) + (d - m) by omega, List.take_add]

/-- C3: on a range list sorted by (start ascending, stop descending)
whose entries are nonempty and lie within [c, i1), build_result
succeeds (no assertion fires) and the leaves of the produced span tree
are exactly the content slice [c, i1) in order — every content index is
emitted exactly once, straddling ranges being split at the outer
range's stop into an inner and an after piece, so overlapping content
is wrapped by both spans, never duplicated and never dropped. -/
theorem build_result_exact {α : Type} (ac : List α) :
    ∀ (fuel : Nat) (ranges : List SRange) (c i1 : Nat),
      ranges.length < fuel →
      (∀ t ∈ ranges, c ≤ t.start ∧ t.start < t.stop ∧ t.stop ≤ i1) →
      ranges.Pairwise (fun a b =>
        a.start < b.start ∨ (a.start = b.start ∧ b.stop ≤ a.stop)) →
      ∃ out, build_result ac fuel ranges c i1 = .ok out ∧
        leavesOf out = extract ac c i1 := by
  have main : ∀ (fuel : Nat) (ranges : List SRange) (c i1 : Nat),
      ranges.length < fuel →
      (∀ t ∈ ranges, c ≤ t.start ∧ t.start < t.stop ∧ t.stop ≤ i1) →
      ranges.Pairwise (fun a b => a.start ≤ b.start) →
      ∃ out, build_result ac fuel ranges c i1 = .ok out ∧
        leavesOf out = extract ac c i1 := by
    intro fuel
    induction fuel with
    | zero => intro ranges c i1 hlen; omega
    | succ fuel ih =>
      intro ranges c i1 hlen hb hsort
      cases ranges with
      | nil =>
        refine ⟨(extract ac c i1).map SNode.piece, rfl, ?_⟩
        exact leavesOf_map_piece (extract ac c i1)
      | cons r rest =>
        rcases List.pairwise_cons.mp hsort with ⟨hr, hrest⟩
        have hrb := hb r (List.mem_cons_self r rest)
        have hrestb : ∀ t ∈ rest,
            r.start ≤ t.start ∧ t.start < t.stop ∧ t.stop ≤ i1 := by
          intro t ht
          have := hb t (List.mem_cons_of_mem r ht)
          exact ⟨hr t ht, this.2.1, this.2.2⟩
        have hguard : c ≤ r.start ∧ r.start < r.stop ∧ r.stop ≤ i1 ∧
            (∀ t ∈ rest, r.start ≤ t.start ∧ t.start < t.stop ∧
              t.stop ≤ i1) :=
          ⟨hrb.1, hrb.2.1, hrb.2.2, hrestb⟩
        have hlen1 : (splitRanges r.stop rest).1.length < fuel := by
          have := splitRanges_fst_length r.stop rest
          simp only [List.length_cons] at hlen
          omega
        have hlen2 : (splitRanges r.stop rest).2.length < fuel := by
          have := splitRanges_snd_length r.stop rest
          simp only [List.length_cons] at hlen
          omega
        obtain ⟨inner, hinner, hinnerL⟩ :=
          ih (splitRanges r.stop rest).1 r.start r.stop hlen1
            (splitRanges_fst_bounds r.stop rest r.start i1 hrestb)
            (splitRanges_fst_sorted r.stop rest hrest)
        obtain ⟨after, hafter, hafterL⟩ :=
          ih (splitRanges r.stop rest).2 r.stop i1 hlen2
            (splitRanges_snd_bounds r.stop rest r.start i1 hrestb)
            (splitRanges_snd_sorted r.stop rest hrest)
        refine ⟨(extract ac c r.start).map SNode.piece ++
          (SNode.span r.style inner :: after), ?_, ?_⟩
        · rw [build_result]
          simp only [if_pos hguard, hinner, hafter]
        · rw [leavesOf_append, leavesOf_map_piece, leavesOf, leafOf,
            hinnerL, hafterL]
          rw [← List.append_assoc,
            extract_append_extract ac c r.start r.stop hrb.1
              (Nat.le_of_lt hrb.2.1),
            extract_append_extract ac c r.stop i1
              (by omega) hrb.2.2]
  intro fuel ranges c i1 hlen hb hsort
  exact main fuel ranges c i1 hlen hb
    (hsort.imp (fun h => by rcases h with h | ⟨h, -⟩ <;> omega))

/-- Witness for C3 at the spec's straddling example: bold over tokens
0-1 and italic over tokens 1-2 nest as bold[ab, italic[bc]],
italic[cd]; the straddled token "bc" appears exactly once, wrapped by
both spans, and the leaves are the full content in order. -/
theorem build_result_exact_witness :
    (build_result ["ab", "bc", "cd"] 3
        [⟨0, 2, [("font-weight", "bold")]⟩,
          ⟨1, 3, [("font-style", "italic")]⟩] 0 3 =
      .ok [SNode.span [("font-weight", "bold")]
            [SNode.piece "ab",
              SNode.span [("font-style", "italic")] [SNode.piece "bc"]],
          SNode.span [("font-style", "italic")] [SNode.piece "cd"]]) ∧
    (∃ out, build_result ["ab", "bc", "cd"] 3
        [⟨0, 2, [("font-weight", "bold")]⟩,
          ⟨1, 3, [("font-style", "italic")]⟩] 0 3 = .ok out ∧
      leavesOf out = extract ["ab", "bc", "cd"] 0 3) :=
  ⟨rfl,
    build_result_exact ["ab", "bc", "cd"] 3
      [⟨0, 2, [("font-weight", "bold")]⟩,
        ⟨1, 3, [("font-style", "italic")]⟩] 0 3
      (by decide) (by decide) (by decide)⟩

/-! ### List structural inference (src/fixups.py, lines 843-1036)

`fixup_lists.fix_body` walks the flat paragraph stream once, keeping a
stack of open list frames (the `List` namedtuple chain; the bottom
sentinel has left_margin = -1e300).  Per item it computes the effective
margin (minus 36pt for non-list items), closes more-indented lists
(`while current.left_margin > effective_margin and p.name != 'figure'`),
and then either appends the non-list item via `append_non_list_item`
(into the last <li> of the innermost open list, or at the body root) or
opens/extends lists for list items.

Content is opaque here: a paragraph is carried as its tag name plus an
id; the upstream classification (is_list_item, numbering lookup's
bullet answer, the literal marker checks) is carried on the item.
The margin values reaching this code are twip counts divided by 20
(docx.py `twips`), so measuring them in twips makes every margin an
integer and keeps all comparisons exact: margins are modelled as Int
in twips, and the code's point constants are scaled by 20 (36pt
calibration offset = 720, the 3/8-inch = 27pt threshold = 540, the
root sentinel -1e300 stays an enormous negative number).  Each assert
is modelled as an error.  In Python the freshly opened <ol>/<ul> element is appended into
its parent at open time and filled by mutation; the parent receives no
other children while the child list is open, so the model equivalently
attaches each closed frame to its parent when it is closed (and the
remaining frames when the stream ends). -/

/-- Marker type of an open list: a bullet list, or nesting depth k of
an ordered list ('proc' = 0). -/
inductive MarkerType where
  | bullet
  | depth (k : Nat)
deriving Repr, DecidableEq

/-- Output node of the inference: opaque non-list content, a list item
(its paragraph id plus continuation content), or a finished ol/ul. -/
inductive HtNode where
  | other (tag : String) (pid : Nat)
  | li (pid : Nat) (content : List HtNode)
  | list (ordered : Bool) (cls : Option String) (content : List HtNode)
deriving Repr

/-- An open frame of fix_body's stack (the `List` namedtuple without
the parent link, which the stack encodes). -/
structure ListFrame where
  left_margin : Int
  ordered : Bool
  cls : Option String
  numId : Nat
  ilvl : Option Nat
  markerType : MarkerType
  content : List HtNode
deriving Repr

/-- fix_body state: the body's result list and the stack of open list
frames, innermost first. -/
structure FlowState where
  root : List HtNode
  stack : List ListFrame
deriving Repr

/-- One item of the paragraph stream, with its upstream classification.
`numId` is the parsed -ooxml-numId (none when absent or "0"),
`isListItem` the is_list_item predicate of lines 954-960, `isBullet`
the numbering lookup's bullet answer, and the two marker fields the
literal marker-text tests of lines 918-919 and 990. -/
structure FlowItem where
  name : String
  pid : Nat
  numId : Option Nat
  ilvl : Nat
  margin : Int
  isListItem : Bool
  isBullet : Bool
  markerIsDecimalOne : Bool
  markerIsBulletChar : Bool
deriving Repr

/-- current.left_margin (the root sentinel is -1e300). -/
def curMargin (st : FlowState) : Int :=
  match st.stack with
  | [] => (-1000000000000000000000000000000000000000000000000000000000000000000000000000000000000000000000000000000000000000000000000000000000000000000000000000000000000000000000000000000000000000000000000000000000000000000000000000000000000000000000000000000000000000000000000000000000000000000000000000000000000 : Int)
  | f :: _ => f.left_margin

/-- current.numId (0 at the root). -/
def curNumId (st : FlowState) : Nat :=
  match st.stack with
  | [] => 0
  | f :: _ => f.numId

/-- current.ilvl (None at the root). -/
def curIlvl (st : FlowState) : Option Nat :=
  match st.stack with
  | [] => none
  | f :: _ => f.ilvl

/-- Whether current.marker_type == 'bullet' (False at the root, whose
marker_type is None). -/
def curMarkerIsBullet (st : FlowState) : Bool :=
  match st.stack with
  | [] => false
  | f :: _ => f.markerType = .bullet

/-- fixups.py append_non_list_item (lines 889-898): at the root, append
to the body; inside a list, append into the preceding list item. -/
def append_non_list_item (st : FlowState) (e : HtNode) :
    Except PyError FlowState :=
  match st.stack with
  | [] => .ok { st with root := st.root ++ [e] }
  | f :: rest =>
    match f.content.getLast? with
    | some (.li pid kids) =>
      .ok { st with stack :=
        { f with content := f.content.dropLast ++ [.li pid (kids ++ [e])] }
          :: rest }
    | some _ => .error .assertionError
    | none => .error .indexError

/-- fixups.py open_list (lines 900-930): push a new frame, classified
ul for bullet formats, else ol with class proc / nested proc / block. -/
def open_list (st : FlowState) (it : FlowItem) (numId ilvl : Nat)
    (margin : Int) : Except PyError FlowState :=
  if ¬curMargin st ≤ margin then .error .assertionError
  else
    match
      (if it.isBullet then .ok (false, none, MarkerType.bullet)
       else
         match
           (if margin > curMargin st ∧ numId = curNumId st then
             match curIlvl st with
             | none => Except.error PyError.typeError
             | some ci =>
               if ilvl > ci then Except.ok () else .error .assertionError
           else Except.ok ()) with
         | .error e => .error e
         | .ok _ =>
           match st.stack with
           | [] => .ok (true, some "proc", MarkerType.depth 0)
           | f :: _ =>
             if f.markerType = .bullet then
               .ok (true, some "proc", MarkerType.depth 0)
             else if margin > f.left_margin + 540 ∧ it.markerIsDecimalOne then
               .ok (true, some "nested proc", MarkerType.depth 0)
             else
               match f.markerType with
               | .depth k => .ok (true, some "block", MarkerType.depth (k + 1))
               | .bullet => .error .typeError :
        Except PyError (Bool × Option String × MarkerType)) with
    | .error e => .error e
    | .ok (ord, cls, mt) =>
      .ok { st with stack :=
        ⟨margin, ord, cls, numId, some ilvl, mt, []⟩ :: st.stack }

/-- fixups.py close_list (lines 932-935): pop the innermost frame and
(equivalently to the open-time aliasing) attach the finished list into
its parent's last list item, or at the body root. -/
def close_list (st : FlowState) : Except PyError FlowState :=
  match st.stack with
  | [] => .error .assertionError
  | f :: rest =>
    let node := HtNode.list f.ordered f.cls f.content
    match rest with
    | [] => .ok { root := st.root ++ [node], stack := [] }
    | f2 :: rest2 =>
      match f2.content.getLast? with
      | some (.li pid kids) =>
        .ok { st with stack :=
          { f2 with content := f2.content.dropLast ++ [.li pid (kids ++ [node])] }
            :: rest2 }
      | some _ => .error .assertionError
      | none => .error .indexError

/-- The close loop `while current.left_margin > effective_margin`:
each pass pops one frame, so the stack depth bounds the iterations. -/
def closeWhile (eff : Int) : Nat → FlowState → Except PyError FlowState
  | 0, st => if curMargin st > eff then .error .assertionError else .ok st
  | gas + 1, st =>
    if curMargin st > eff then
      match close_list st with
      | .error e => .error e
      | .ok st2 => closeWhile eff gas st2
    else .ok st

/-- One iteration of fix_body's paragraph loop (lines 937-1029; the
numbering-assertion warnings of lines 1009-1029 print diagnostics and
do not change the state). -/
def fix_body_step (st : FlowState) (it : FlowItem) :
    Except PyError FlowState :=
  let eff : Int := if it.isListItem then it.margin else it.margin - 720
  match
    (if it.name = "figure" then .ok st
     else closeWhile eff st.stack.length st) with
  | .error e => .error e
  | .ok st1 =>
    if ¬it.isListItem then
      append_non_list_item st1 (.other it.name it.pid)
    else
      match it.numId with
      | none => .error .assertionError
      | some n =>
        match
          (if it.margin > curMargin st1 then
            open_list st1 it n it.ilvl it.margin
          else if curMarkerIsBullet st1 ∧ ¬it.markerIsBulletChar then
            open_list st1 it n it.ilvl it.margin
          else .ok st1) with
        | .error e => .error e
        | .ok st2 =>
          if it.margin = curMargin st2 then
            match st2.stack with
            | [] => .error .assertionError
            | f :: rest =>
              .ok { st2 with stack :=
                { f with content := f.content ++ [.li it.pid []] } :: rest }
          else .error .assertionError

theorem close_list_stack_margins {st st2 : FlowState}
    (h : close_list st = .ok st2) :
    st2.stack.map ListFrame.left_margin =
      st.stack.tail.map ListFrame.left_margin := by
  rcases st with ⟨rt, stk⟩
  cases stk with
  | nil => exact Except.noConfusion h
  | cons f rest =>
    cases rest with
    | nil =>
      injection h with h2
      rw [← h2]
      rfl
    | cons f2 rest2 =>
      cases hl : f2.content.getLast? with
      | none =>
        simp only [close_list, hl] at h
        exact Except.noConfusion h
      | some n =>
        cases n with
        | other tag pid =>
          simp only [close_list, hl] at h
          exact Except.noConfusion h
        | list o c k =>
          simp only [close_list, hl] at h
          exact Except.noConfusion h
        | li pid kids =>
          simp only [close_list, hl] at h
          injection h with h2
          rw [← h2]
          rfl

theorem close_list_sorted {st st2 : FlowState}
    (h : close_list st = .ok st2)
    (hs : st.stack.Pairwise (fun a b => b.left_margin ≤ a.left_margin)) :
    st2.stack.Pairwise (fun a b => b.left_margin ≤ a.left_margin) := by
  rcases st with ⟨rt, stk⟩
  cases stk with
  | nil => exact Except.noConfusion h
  | cons f rest =>
    have hrest := (List.pairwise_cons.mp hs).2
    cases rest with
    | nil =>
      injection h with h2
      rw [← h2]
      exact List.Pairwise.nil
    | cons f2 rest2 =>
      cases hl : f2.content.getLast? with
      | none =>
        simp only [close_list, hl] at h
        exact Except.noConfusion h
      | some n =>
        cases n with
        | other tag pid =>
          simp only [close_list, hl] at h
          exact Except.noConfusion h
        | list o c k =>
          simp only [close_list, hl] at h
          exact Except.noConfusion h
        | li pid kids =>
          simp only [close_list, hl] at h
          injection h with h2
          rw [← h2]
          rcases List.pairwise_cons.mp hrest with ⟨hf2, hrest2⟩
          exact List.Pairwise.cons hf2 hrest2

theorem map_filter_margin (eff : Int) (l : List ListFrame) :
    ((l.filter (fun f => decide (f.left_margin ≤ eff))).map
      ListFrame.left_margin) =
      (l.map ListFrame.left_margin).filter (fun m => decide (m ≤ eff)) := by
  induction l with
  | nil => rfl
  | cons f rest ih =>
    by_cases h : f.left_margin ≤ eff
    · rw [List.map_cons,
        List.filter_cons_of_pos (by simpa using h),
        List.filter_cons_of_pos (by simpa using h),
        List.map_cons, ih]
    · rw [List.map_cons,
        List.filter_cons_of_neg (by simpa using h),
        List.filter_cons_of_neg (by simpa using h), ih]

/-- The close loop pops exactly the frames whose recorded left margin
exceeds the effective margin (the stack's margins are nonincreasing
outward, so these are precisely the innermost ones). -/
theorem closeWhile_stack_margins (eff : Int) :
    ∀ (gas : Nat) (st st' : FlowState),
      st.stack.length ≤ gas →
      st.stack.Pairwise (fun a b => b.left_margin ≤ a.left_margin) →
      closeWhile eff gas st = .ok st' →
      st'.stack.map ListFrame.left_margin =
        (st.stack.filter (fun f => decide (f.left_margin ≤ eff))).map
          ListFrame.left_margin := by
  intro gas
  induction gas with
  | zero =>
    intro st st' hlen hs h
    have hnil : st.stack = [] := List.length_eq_zero.mp (Nat.le_zero.mp hlen)
    rw [closeWhile] at h
    by_cases hc : curMargin st > eff
    · rw [if_pos hc] at h; exact Except.noConfusion h
    · rw [if_neg hc] at h
      injection h with h2
      rw [← h2, hnil]
      rfl
  | succ gas ih =>
    intro st st' hlen hs h
    rw [closeWhile] at h
    by_cases hc : curMargin st > eff
    · rw [if_pos hc] at h
      cases hcl : close_list st with
      | error e => rw [hcl] at h; exact Except.noConfusion h
      | ok st2 =>
        rw [hcl] at h
        cases hstk : st.stack with
        | nil =>
          exfalso
          rcases st with ⟨rt, stk⟩
          cases hstk
          exact Except.noConfusion hcl
        | cons f rest =>
          have htop : curMargin st = f.left_margin := by
            rcases st with ⟨rt, stk⟩
            cases hstk
            rfl
          have hm2 : st2.stack.map ListFrame.left_margin =
              rest.map ListFrame.left_margin := by
            rw [close_list_stack_margins hcl, hstk]
            rfl
          have hlen2 : st2.stack.length ≤ gas := by
            have hml := congrArg List.length hm2
            simp only [List.length_map] at hml
            have hl1 := congrArg List.length hstk
            simp only [List.length_cons] at hl1
            omega
          have hs2 := close_list_sorted hcl hs
          have hres := ih st2 st' hlen2 hs2 h
          have hfneg : ¬f.left_margin ≤ eff := by
            rw [htop] at hc
            exact not_le.mpr hc
          rw [hres, List.filter_cons_of_neg (by simpa using hfneg)]
          rw [map_filter_margin, map_filter_margin, hm2]
    · rw [if_neg hc] at h
      injection h with h2
      rw [← h2]
      have hall : ∀ f ∈ st.stack, decide (f.left_margin ≤ eff) = true := by
        intro f hf
        cases hstk : st.stack with
        | nil => rw [hstk] at hf; exact absurd hf (List.not_mem_nil f)
        | cons g rest =>
          have htop : curMargin st = g.left_margin := by
            rcases st with ⟨rt, stk⟩
            cases hstk
            rfl
          rw [hstk] at hf hs
          have hg : g.left_margin ≤ eff := by
            rw [htop] at hc
            exact not_lt.mp hc
          rcases List.mem_cons.mp hf with h1 | h1
          · subst h1
            exact decide_eq_true hg
          · have hle := (List.pairwise_cons.mp hs).1 f h1
            exact decide_eq_true (le_trans hle hg)
      rw [List.filter_eq_self.mpr hall]

/-- C5 amended: for every non-figure item, the step first runs the
close loop and then, if the item is not a list item, appends it via
append_non_list_item; the close loop closes exactly the open lists
whose recorded left margin exceeds the item's effective indentation
(margin minus the 720-twip = 36pt calibration offset for non-list items); and
append_non_list_item puts the item inside the last list item of the
innermost still-open list, or at the body root when no list is open.
(Figure elements are excepted: the close loop is skipped for them.) -/
theorem fix_body_non_list_step (st : FlowState) (it : FlowItem)
    (hfig : ¬it.name = "figure")
    (hnl : it.isListItem = false)
    (hsort : st.stack.Pairwise (fun a b => b.left_margin ≤ a.left_margin)) :
    (fix_body_step st it =
      match closeWhile (it.margin - 720) st.stack.length st with
      | .error e => .error e
      | .ok st1 => append_non_list_item st1 (.other it.name it.pid)) ∧
    (∀ st', closeWhile (it.margin - 720) st.stack.length st = .ok st' →
      st'.stack.map ListFrame.left_margin =
        (st.stack.filter
          (fun f => decide (f.left_margin ≤ it.margin - 720))).map
          ListFrame.left_margin) ∧
    (∀ (st1 : FlowState) (e : HtNode),
      (st1.stack = [] →
        append_non_list_item st1 e =
          .ok { st1 with root := st1.root ++ [e] }) ∧
      (∀ f rest pid kids, st1.stack = f :: rest →
        f.content.getLast? = some (.li pid kids) →
        append_non_list_item st1 e = .ok { st1 with stack :=
          { f with content := f.content.dropLast ++ [.li pid (kids ++ [e])] }
            :: rest })) := by
  refine ⟨?_, ?_, ?_⟩
  · rw [fix_body_step]
    simp only [hnl, if_neg hfig, Bool.false_eq_true, if_false,
      not_false_iff, if_true]
  · intro st' h
    exact closeWhile_stack_margins (it.margin - 720) st.stack.length st st'
      (Nat.le_refl _) hsort h
  · intro st1 e
    constructor
    · intro h1
      rcases st1 with ⟨rt, stk⟩
      simp only at h1
      subst h1
      rfl
    · intro f rest pid kids h1 h2
      rcases st1 with ⟨rt, stk⟩
      simp only at h1
      subst h1
      rw [append_non_list_item]
      simp only [h2]

/-- A figure at indentation 0 arriving while a list with left margin
200 twips (10pt) is open. -/
def figItem : FlowItem :=
  { name := "figure", pid := 7, numId := none, ilvl := 0, margin := 0,
    isListItem := false, isBullet := false, markerIsDecimalOne := false,
    markerIsBulletChar := false }

/-- An ordinary paragraph at indentation 0. -/
def pItem : FlowItem :=
  { name := "p", pid := 8, numId := none, ilvl := 0, margin := 0,
    isListItem := false, isBullet := false, markerIsDecimalOne := false,
    markerIsBulletChar := false }

/-- One open ordered list at left margin 200 twips whose last child is
a list item. -/
def exFlowSt : FlowState :=
  { root := [],
    stack := [⟨200, true, some "proc", 5, some 0, .depth 0,
      [HtNode.li 1 []]⟩] }

/-- Counterexample to C5 as stated: the figure's effective indentation
(0 - 720) is below the open list's left margin 200, so the claim says the
list is closed first — but `p.name != 'figure'` in the loop condition
keeps the list open and the figure is appended into its last list item. -/
theorem fix_body_figure_counterexample :
    figItem.isListItem = false ∧
    exFlowSt.stack.map ListFrame.left_margin = [200] ∧
    figItem.margin - 720 < 200 ∧
    fix_body_step exFlowSt figItem = .ok
      { root := [],
        stack := [⟨200, true, some "proc", 5, some 0, .depth 0,
          [HtNode.li 1 [HtNode.other "figure" 7]]⟩] } :=
  ⟨rfl, rfl, by decide, rfl⟩

/-- Witness for the amended C5: an ordinary paragraph at indentation 0
closes the margin-200 list (its effective indentation is -720) and lands
at the body root, after the closed list. -/
theorem fix_body_non_list_step_witness :
    (¬pItem.name = "figure" ∧ pItem.isListItem = false ∧
      exFlowSt.stack.Pairwise (fun a b => b.left_margin ≤ a.left_margin)) ∧
    (fix_body_step exFlowSt pItem = .ok
      { root := [HtNode.list true (some "proc") [HtNode.li 1 []],
          HtNode.other "p" 8],
        stack := [] }) ∧
    ((fix_body_step exFlowSt pItem =
      match closeWhile (pItem.margin - 720) exFlowSt.stack.length exFlowSt with
      | .error e => .error e
      | .ok st1 => append_non_list_item st1 (.other pItem.name pItem.pid)) ∧
    (∀ st', closeWhile (pItem.margin - 720) exFlowSt.stack.length exFlowSt =
        .ok st' →
      st'.stack.map ListFrame.left_margin =
        (exFlowSt.stack.filter
          (fun f => decide (f.left_margin ≤ pItem.margin - 720))).map
          ListFrame.left_margin) ∧
    (∀ (st1 : FlowState) (e : HtNode),
      (st1.stack = [] →
        append_non_list_item st1 e =
          .ok { st1 with root := st1.root ++ [e] }) ∧
      (∀ f rest pid kids, st1.stack = f :: rest →
        f.content.getLast? = some (.li pid kids) →
        append_non_list_item st1 e = .ok { st1 with stack :=
          { f with content := f.content.dropLast ++ [.li pid (kids ++ [e])] }
            :: rest }))) :=
  ⟨⟨by decide, rfl, by
      rw [show exFlowSt.stack = [⟨200, true, some "proc", 5, some 0,
        .depth 0, [HtNode.li 1 []]⟩] from rfl]
      exact List.pairwise_singleton _ _⟩,
    rfl,
    fix_body_non_list_step exFlowSt pItem (by decide) rfl (by
      rw [show exFlowSt.stack = [⟨200, true, some "proc", 5, some 0,
        .depth 0, [HtNode.li 1 []]⟩] from rfl]
      exact List.pairwise_singleton _ _)⟩

/-! ### The generic node model (src/htmodel.py, lines 7-156)

`Element.__init__` asserts that `name` is a str, that `attrs` and
`style` are None or dicts (attrs defaulting to {}), that `content` is
not a bare str, and that every item of `list(content)` is a str or an
Element — a shallow check: nested well-formedness holds because every
Element was itself built through `__init__`.  `with_content`,
`with_content_slice` and `with_` all construct through `__init__`.
`find_replace` rewrites the tree bottom-up and raises ValueError when
the replacement of the root is not exactly one Element.

Python values reaching this code are modelled by a small dynamic value
type.  Dict values are irrelevant to the node model, so attrs/style
dict payloads are string pairs.  `list(content)` applied to a dict
yields its keys, and to a non-iterable raises TypeError, both modelled.
The `replaced_content is e.content` identity test in find_replace only
skips rebuilding an element from its unchanged parts — value-level the
rebuild is the identity — so the model always rebuilds. -/

inductive PyVal where
  | vnone
  | vint (n : Int)
  | vstr (s : String)
  | vdict (d : List (String × String))
  | vlist (items : List PyVal)
  | velt (name : PyVal) (attrs : PyVal) (style : PyVal)
      (content : List PyVal)
deriving Repr

def isStr : PyVal → Bool
  | .vstr _ => true
  | _ => false

def isElt : PyVal → Bool
  | .velt _ _ _ _ => true
  | _ => false

def isNoneOrDict : PyVal → Bool
  | .vnone => true
  | .vdict _ => true
  | _ => false

/-- After construction attrs is always a dict (attrs or {}). -/
def isDict : PyVal → Bool
  | .vdict _ => true
  | _ => false

mutual

/-- The node invariant: a content node is a str, or an Element whose
name is a str, attrs a dict, style None or a dict, and whose content
items all satisfy the invariant. -/
def wfNode : PyVal → Bool
  | .vstr _ => true
  | .velt n a s c => isStr n && isDict a && isNoneOrDict s && wfList c
  | _ => false

def wfList : List PyVal → Bool
  | [] => true
  | x :: xs => wfNode x && wfList xs

end

/-- `Element.__init__` (htmodel.py lines 7-18).  Asserts, in source
order: name is a str; attrs is None or a dict (stored as attrs or the
empty dict); style is None or a dict; content is not a str; every item
of list(content) is a str or an Element (a shallow isinstance check).
list() of a dict yields its keys; list() of None or an int raises
TypeError.  `attrsNorm` is the stored attrs value, `attrs or` the
empty dict. -/
def attrsNorm : PyVal → PyVal
  | .vdict d => .vdict d
  | _ => .vdict []

def elementInit (name attrs style content : PyVal) :
    Except PyError PyVal :=
  if !isStr name then .error .assertionError
  else if !isNoneOrDict attrs then .error .assertionError
  else if !isNoneOrDict style then .error .assertionError
  else match content with
    | .vstr _ => .error .assertionError
    | .vlist items =>
      if items.all (fun x => isStr x || isElt x) then
        .ok (.velt name (attrsNorm attrs) style items)
      else .error .assertionError
    | .vdict d =>
      .ok (.velt name (attrsNorm attrs) style (d.map (fun p => .vstr p.1)))
    | _ => .error .typeError

/-- `Element.with_content` (htmodel.py lines 46-48): rebuild with the
same name, attrs and style and the given content. -/
def with_content (e : PyVal) (replaced_content : PyVal) :
    Except PyError PyVal :=
  match e with
  | .velt n a s _ => elementInit n a s replaced_content
  | _ => .error .typeError

/-- Python list slice assignment `c[start:stop] = rc` for non-negative
indices: both bounds clamp to the length, an inverted slice inserts at
`start`. -/
def pySliceAssign (c : List PyVal) (start stop : Nat)
    (rc : List PyVal) : List PyVal :=
  let lo := min start c.length
  let hi := max lo (min stop c.length)
  c.take lo ++ rc ++ c.drop hi

/-- `Element.with_content_slice` (htmodel.py lines 50-53): copy the
content, assign the slice, rebuild via with_content. -/
def with_content_slice (e : PyVal) (start stop : Nat)
    (replaced_content : List PyVal) : Except PyError PyVal :=
  match e with
  | .velt _ _ _ c =>
    with_content e (.vlist (pySliceAssign c start stop replaced_content))
  | _ => .error .typeError

/-- `Element.with_` (htmodel.py lines 55-60): each keyword argument
defaults to the current field, then rebuild through the constructor. -/
def with_ (e : PyVal) (name attrs style content : Option PyVal) :
    Except PyError PyVal :=
  match e with
  | .velt n a s c =>
    elementInit (name.getD n) (attrs.getD a) (style.getD s)
      (content.getD (.vlist c))
  | _ => .error .typeError

/-- The three values `find_replace` asserts a matcher to return:
True, False, or None. -/
inductive MatchRes where
  | yes
  | no
  | skip
deriving Repr, DecidableEq

mutual

/-- `map_element` inside `Element.find_replace` (htmodel.py lines
95-109).  The boolean part of the result is the changed flag the
caller computes as `seq != [child]`: the element was rebuilt or
replaced, so the result is not the identical singleton.  (Python
`replaced_content is e.content` holds exactly when no child changed,
since `map_content` then returns its argument; the model keeps that
flag explicitly.  The one divergence: a replacement returning the
identical `[e]` counts as changed here.)  Accessing `.content` of a
non-Element raises AttributeError.  Recursion depth is bounded by
fuel, exhaustion standing for RecursionError; any fuel at least the
size of the tree suffices. -/
def mapElement (matcher : PyVal → MatchRes) (repl : PyVal → List PyVal) :
    Nat → PyVal → Except PyError (List PyVal × Bool)
  | 0, _ => .error .recursionError
  | Nat.succ fuel, e =>
    match matcher e with
    | .skip => .ok ([e], false)
    | mr =>
      match e with
      | .velt n a s c =>
        match mapContent matcher repl fuel c with
        | .error err => .error err
        | .ok (rc, ch) =>
          match (if ch then with_content (.velt n a s c) (.vlist rc)
                 else .ok (.velt n a s c)) with
          | .error err => .error err
          | .ok e2 =>
            match mr with
            | .yes => .ok (repl e2, true)
            | _ => .ok ([e2], ch)
      | _ => .error .attributeError

/-- `map_content` inside `Element.find_replace` (htmodel.py lines
111-124): strings pass through, elements are mapped and spliced; the
flag records whether anything changed. -/
def mapContent (matcher : PyVal → MatchRes) (repl : PyVal → List PyVal) :
    Nat → List PyVal → Except PyError (List PyVal × Bool)
  | 0, _ => .error .recursionError
  | Nat.succ _, [] => .ok ([], false)
  | Nat.succ fuel, .vstr s :: xs =>
    match mapContent matcher repl fuel xs with
    | .error err => .error err
    | .ok (r, ch) => .ok (.vstr s :: r, ch)
  | Nat.succ fuel, x :: xs =>
    match mapElement matcher repl fuel x with
    | .error err => .error err
    | .ok (sq, ch1) =>
      match mapContent matcher repl fuel xs with
      | .error err => .error err
      | .ok (r, ch) => .ok (sq ++ r, ch1 || ch)

end

mutual

/-- Fuel sufficient to traverse a value: one unit per constructor. -/
def sizeOfVal : PyVal → Nat
  | .velt _ _ _ c => sizeOfList c + 1
  | _ => 1

def sizeOfList : List PyVal → Nat
  | [] => 1
  | x :: xs => sizeOfVal x + sizeOfList xs + 1

end

/-- `Element.find_replace` (htmodel.py lines 126-132): map the root,
then raise ValueError unless the replacement is exactly one piece of
content and that piece is an Element. -/
def find_replace (matcher : PyVal → MatchRes)
    (repl : PyVal → List PyVal) (root : PyVal) : Except PyError PyVal :=
  match mapElement matcher repl (sizeOfVal root) root with
  | .error err => .error err
  | .ok (rc, _) =>
    match rc with
    | [e] => if isElt e then .ok e else .error .valueError
    | _ => .error .valueError

lemma wfNode_str_or_elt {x : PyVal} (h : wfNode x = true) :
    (isStr x || isElt x) = true := by
  cases x <;> simp [isStr, isElt] <;> exact Bool.noConfusion h

lemma wfList_iff_forall {l : List PyVal} :
    wfList l = true ↔ ∀ x ∈ l, wfNode x = true := by
  induction l with
  | nil => simp [wfList]
  | cons x xs ih =>
    rw [wfList, Bool.and_eq_true, ih]
    simp

lemma wfList_append {l1 l2 : List PyVal} :
    wfList (l1 ++ l2) = (wfList l1 && wfList l2) := by
  induction l1 with
  | nil => simp [wfList]
  | cons x xs ih => rw [List.cons_append, wfList, wfList, ih, Bool.and_assoc]

lemma wfList_singleton {x : PyVal} : wfList [x] = wfNode x := by
  rw [wfList, wfList, Bool.and_true]

lemma attrsNorm_isDict (a : PyVal) : isDict (attrsNorm a) = true := by
  cases a <;> rfl

lemma velt_wfNode {n a s : PyVal} {c : List PyVal} :
    wfNode (.velt n a s c) =
      (isStr n && isDict a && isNoneOrDict s && wfList c) := by
  rfl

lemma elementInit_vstr (n a s : PyVal) (str : String) :
    elementInit n a s (.vstr str) = .error .assertionError := by
  cases hn : isStr n <;> cases ha : isNoneOrDict a <;>
    cases hs : isNoneOrDict s <;> simp [elementInit, hn, ha, hs]

lemma elementInit_vlist_ok {n a s : PyVal} {items : List PyVal}
    {e : PyVal} (h : elementInit n a s (.vlist items) = .ok e) :
    isStr n = true ∧ isNoneOrDict a = true ∧ isNoneOrDict s = true ∧
      items.all (fun x => isStr x || isElt x) = true ∧
      e = .velt n (attrsNorm a) s items := by
  cases hn : isStr n
  · simp [elementInit, hn] at h
  cases ha : isNoneOrDict a
  · simp [elementInit, hn, ha] at h
  cases hs : isNoneOrDict s
  · simp [elementInit, hn, ha, hs] at h
  cases hall : items.all (fun x => isStr x || isElt x)
  · simp [elementInit, hn, ha, hs, hall] at h
  · simp [elementInit, hn, ha, hs, hall] at h
    exact ⟨rfl, rfl, rfl, rfl, h.symm⟩

lemma elementInit_vlist_of (n a s : PyVal) (items : List PyVal)
    (hn : isStr n = true) (ha : isNoneOrDict a = true)
    (hs : isNoneOrDict s = true)
    (hall : items.all (fun x => isStr x || isElt x) = true) :
    elementInit n a s (.vlist items) =
      .ok (.velt n (attrsNorm a) s items) := by
  simp [elementInit, hn, ha, hs, hall]

lemma elementInit_vlist_wf {n a s : PyVal} {items : List PyVal}
    {e : PyVal} (hw : wfList items = true)
    (h : elementInit n a s (.vlist items) = .ok e) :
    wfNode e = true ∧ isElt e = true := by
  obtain ⟨hn, ha, hs, _, he⟩ := elementInit_vlist_ok h
  subst he
  refine ⟨?_, rfl⟩
  rw [velt_wfNode, hn, attrsNorm_isDict, hs, hw]
  rfl

lemma elementInit_bad_item {items : List PyVal} {x : PyVal}
    (hx : x ∈ items) (hbad : (isStr x || isElt x) = false)
    (n a s : PyVal) :
    elementInit n a s (.vlist items) = .error .assertionError := by
  have hall : items.all (fun y => isStr y || isElt y) = false := by
    rw [List.all_eq_false]
    exact ⟨x, hx, by simp [hbad]⟩
  cases hn : isStr n <;> cases ha : isNoneOrDict a <;>
    cases hs : isNoneOrDict s <;> simp [elementInit, hn, ha, hs, hall]

lemma map_wf (matcher : PyVal → MatchRes) (repl : PyVal → List PyVal)
    (hrepl : ∀ e, wfList (repl e) = true) :
    ∀ fuel : Nat,
      (∀ e out ch, wfNode e = true →
        mapElement matcher repl fuel e = .ok (out, ch) →
        wfList out = true) ∧
      (∀ l out ch, wfList l = true →
        mapContent matcher repl fuel l = .ok (out, ch) →
        wfList out = true) := by
  intro fuel
  induction fuel with
  | zero =>
    constructor
    · intro e out ch _ h
      rw [mapElement] at h
      exact Except.noConfusion h
    · intro l out ch _ h
      rw [mapContent] at h
      exact Except.noConfusion h
  | succ fuel ih =>
    obtain ⟨ihE, ihC⟩ := ih
    constructor
    · intro e out ch hwf h
      rw [mapElement] at h
      cases hm : matcher e with
      | skip =>
        simp only [hm] at h
        injection h with h2
        injection h2 with h3 h4
        subst h3
        rw [wfList_singleton]
        exact hwf
      | no =>
        simp only [hm] at h
        cases e with
        | velt n a s c =>
          have hwc : wfList c = true := by
            rw [velt_wfNode, Bool.and_eq_true] at hwf
            exact hwf.2
          cases hc : mapContent matcher repl fuel c with
          | error err =>
            simp only [hc] at h
            exact Except.noConfusion h
          | ok p =>
            obtain ⟨rc, chc⟩ := p
            simp only [hc] at h
            cases chc with
            | false =>
              simp only [Bool.false_eq_true, if_false] at h
              injection h with h2
              injection h2 with h3 h4
              subst h3
              rw [wfList_singleton]
              exact hwf
            | true =>
              simp only [if_true] at h
              cases he2 : with_content (.velt n a s c) (.vlist rc) with
              | error err =>
            simp only [he2] at h
            exact Except.noConfusion h
              | ok e2 =>
                simp only [he2] at h
                injection h with h2
                injection h2 with h3 h4
                subst h3
                rw [wfList_singleton]
                have hrcwf : wfList rc = true := ihC c rc true hwc hc
                exact (elementInit_vlist_wf hrcwf he2).1
        | vnone => exact Except.noConfusion h
        | vint m => exact Except.noConfusion h
        | vstr s => exact Except.noConfusion h
        | vdict d => exact Except.noConfusion h
        | vlist l => exact Except.noConfusion h
      | yes =>
        simp only [hm] at h
        cases e with
        | velt n a s c =>
          have hwc : wfList c = true := by
            rw [velt_wfNode, Bool.and_eq_true] at hwf
            exact hwf.2
          cases hc : mapContent matcher repl fuel c with
          | error err =>
            simp only [hc] at h
            exact Except.noConfusion h
          | ok p =>
            obtain ⟨rc, chc⟩ := p
            simp only [hc] at h
            cases chc with
            | false =>
              simp only [Bool.false_eq_true, if_false] at h
              injection h with h2
              injection h2 with h3 h4
              subst h3
              exact hrepl _
            | true =>
              simp only [if_true] at h
              cases he2 : with_content (.velt n a s c) (.vlist rc) with
              | error err =>
            simp only [he2] at h
            exact Except.noConfusion h
              | ok e2 =>
                simp only [he2] at h
                injection h with h2
                injection h2 with h3 h4
                subst h3
                exact hrepl _
        | vnone => exact Except.noConfusion h
        | vint m => exact Except.noConfusion h
        | vstr s => exact Except.noConfusion h
        | vdict d => exact Except.noConfusion h
        | vlist l => exact Except.noConfusion h
    · intro l out ch hwl h
      cases l with
      | nil =>
        rw [mapContent] at h
        injection h with h2
        injection h2 with h3 h4
        subst h3
        rfl
      | cons x xs =>
        rw [wfList, Bool.and_eq_true] at hwl
        obtain ⟨hwx, hwxs⟩ := hwl
        cases x with
        | vstr s =>
          rw [mapContent] at h
          cases hrec : mapContent matcher repl fuel xs with
          | error err =>
            simp only [hrec] at h
            exact Except.noConfusion h
          | ok p =>
            obtain ⟨r, ch2⟩ := p
            simp only [hrec] at h
            injection h with h2
            injection h2 with h3 h4
            subst h3
            rw [wfList]
            exact ihC xs r ch2 hwxs hrec
        | velt n a s c =>
          rw [mapContent] at h
          cases hme : mapElement matcher repl fuel (.velt n a s c) with
          | error err =>
            simp only [hme] at h
            exact Except.noConfusion h
          | ok p =>
            obtain ⟨sq, ch1⟩ := p
            simp only [hme] at h
            cases hrec : mapContent matcher repl fuel xs with
            | error err =>
            simp only [hrec] at h
            exact Except.noConfusion h
            | ok q =>
              obtain ⟨r, ch2⟩ := q
              simp only [hrec] at h
              injection h with h2
              injection h2 with h3 h4
              subst h3
              rw [wfList_append, ihE _ sq ch1 hwx hme,
                ihC xs r ch2 hwxs hrec]
              rfl
          intro s1 heq
          exact PyVal.noConfusion heq
        | vnone => exact Bool.noConfusion hwx
        | vint m => exact Bool.noConfusion hwx
        | vdict d => exact Bool.noConfusion hwx
        | vlist l2 => exact Bool.noConfusion hwx

lemma isDict_isNoneOrDict {a : PyVal} (h : isDict a = true) :
    isNoneOrDict a = true := by
  cases a <;> first | rfl | exact Bool.noConfusion h

lemma wfList_all_str_or_elt {l : List PyVal} (h : wfList l = true) :
    l.all (fun x => isStr x || isElt x) = true := by
  rw [List.all_eq_true]
  intro x hx
  exact wfNode_str_or_elt (wfList_iff_forall.mp h x hx)

lemma isElt_velt {e : PyVal} (h : isElt e = true) :
    ∃ n a s c, e = .velt n a s c := by
  cases e with
  | velt n a s c => exact ⟨n, a, s, c, rfl⟩
  | vnone => exact Bool.noConfusion h
  | vint m => exact Bool.noConfusion h
  | vstr s => exact Bool.noConfusion h
  | vdict d => exact Bool.noConfusion h
  | vlist l2 => exact Bool.noConfusion h

lemma velt_wf_parts {n a s : PyVal} {c : List PyVal}
    (h : wfNode (.velt n a s c) = true) :
    isStr n = true ∧ isDict a = true ∧ isNoneOrDict s = true ∧
      wfList c = true := by
  rw [velt_wfNode, Bool.and_eq_true, Bool.and_eq_true,
    Bool.and_eq_true] at h
  exact ⟨h.1.1.1, h.1.1.2, h.1.2, h.2⟩

lemma with_content_wf {e : PyVal} {rc : List PyVal}
    (hwf : wfNode e = true) (helt : isElt e = true)
    (hrc : wfList rc = true) :
    ∃ e2, with_content e (.vlist rc) = .ok e2 ∧ wfNode e2 = true ∧
      isElt e2 = true := by
  obtain ⟨n, a, s, c, rfl⟩ := isElt_velt helt
  obtain ⟨hn, hd, hs, _⟩ := velt_wf_parts hwf
  refine ⟨.velt n (attrsNorm a) s rc, ?_, ?_, rfl⟩
  · rw [with_content]
    exact elementInit_vlist_of n a s rc hn (isDict_isNoneOrDict hd) hs
      (wfList_all_str_or_elt hrc)
  · rw [velt_wfNode, hn, attrsNorm_isDict, hs, hrc]
    rfl

lemma wfList_pySliceAssign {c rc : List PyVal} (start stop : Nat)
    (hc : wfList c = true) (hrc : wfList rc = true) :
    wfList (pySliceAssign c start stop rc) = true := by
  rw [pySliceAssign, wfList_append, wfList_append]
  rw [wfList_iff_forall.mpr (fun x hx =>
    wfList_iff_forall.mp hc x (List.mem_of_mem_take hx))]
  rw [wfList_iff_forall.mpr (fun x hx =>
    wfList_iff_forall.mp hc x (List.mem_of_mem_drop hx))]
  rw [hrc]
  rfl

lemma find_replace_of_mapElement {m : PyVal → MatchRes}
    {r : PyVal → List PyVal} {root : PyVal} {rc : List PyVal} {ch : Bool}
    (hme : mapElement m r (sizeOfVal root) root = .ok (rc, ch)) :
    (find_replace m r root = .error .valueError ↔
      ∀ e, rc = [e] → isElt e = false) ∧
    (∀ e, rc = [e] → isElt e = true → find_replace m r root = .ok e) := by
  rw [find_replace, hme]
  cases rc with
  | nil =>
    refine ⟨⟨fun _ e he => List.noConfusion he, fun _ => rfl⟩, ?_⟩
    intro e he
    exact List.noConfusion he
  | cons e rest =>
    cases rest with
    | nil =>
      cases hi : isElt e with
      | true =>
        simp only [hi, if_true]
        refine ⟨⟨fun h => Except.noConfusion h, fun hall => ?_⟩, ?_⟩
        · exact Bool.noConfusion (hi.symm.trans (hall e rfl))
        · intro e2 he2 _
          injection he2 with h1 h2
          rw [h1]
      | false =>
        simp only [hi, if_false]
        refine ⟨⟨fun _ e2 he2 => ?_, fun _ => rfl⟩, ?_⟩
        · injection he2 with h1 h2
          rw [← h1]
          exact hi
        · intro e2 he2 hi2
          injection he2 with h1 h2
          rw [← h1] at hi2
          exact Bool.noConfusion (hi.symm.trans hi2)
    | cons e2 rest2 =>
      refine ⟨⟨fun _ e3 he3 => ?_, fun _ => rfl⟩, fun e3 he3 _ => ?_⟩
      · injection he3 with h1 h2
        exact List.noConfusion h2
      · injection he3 with h1 h2
        exact List.noConfusion h2

lemma find_replace_wf {m : PyVal → MatchRes} {r : PyVal → List PyVal}
    {root e2 : PyVal} (hwf : wfNode root = true)
    (hrepl : ∀ e, wfList (r e) = true)
    (h : find_replace m r root = .ok e2) :
    wfNode e2 = true ∧ isElt e2 = true := by
  rw [find_replace] at h
  cases hme : mapElement m r (sizeOfVal root) root with
  | error err =>
    rw [hme] at h
    exact Except.noConfusion h
  | ok p =>
    obtain ⟨rc, ch⟩ := p
    rw [hme] at h
    have hrcwf : wfList rc = true :=
      (map_wf m r hrepl (sizeOfVal root)).1 root rc ch hwf hme
    cases rc with
    | nil => exact Except.noConfusion h
    | cons e rest =>
      cases rest with
      | nil =>
        have h2 : (if isElt e then (Except.ok e : Except PyError PyVal)
            else .error .valueError) = .ok e2 := h
        cases hi : isElt e with
        | true =>
          simp only [hi, if_true] at h2
          injection h2 with h3
          subst h3
          rw [wfList_singleton] at hrcwf
          exact ⟨hrcwf, hi⟩
        | false =>
          simp only [hi, Bool.false_eq_true, if_false] at h2
          exact Except.noConfusion h2
      | cons e3 rest2 => exact Except.noConfusion h

lemma with_content_slice_wf {e : PyVal} {start stop : Nat}
    {rc : List PyVal} (hwf : wfNode e = true) (helt : isElt e = true)
    (hrc : wfList rc = true) :
    ∃ e2, with_content_slice e start stop rc = .ok e2 ∧
      wfNode e2 = true ∧ isElt e2 = true := by
  obtain ⟨n, a, s, c, rfl⟩ := isElt_velt helt
  rw [with_content_slice]
  exact with_content_wf hwf rfl
    (wfList_pySliceAssign start stop (velt_wf_parts hwf).2.2.2 hrc)

lemma with_wf {e : PyVal} {n2 a2 s2 c2 : Option PyVal}
    (hwf : wfNode e = true) (helt : isElt e = true)
    (hn2 : ∀ v ∈ n2, isStr v = true)
    (ha2 : ∀ v ∈ a2, isNoneOrDict v = true)
    (hs2 : ∀ v ∈ s2, isNoneOrDict v = true)
    (hc2 : ∀ v ∈ c2, ∃ l, v = PyVal.vlist l ∧ wfList l = true) :
    ∃ e2, with_ e n2 a2 s2 c2 = .ok e2 ∧ wfNode e2 = true ∧
      isElt e2 = true := by
  obtain ⟨n, a, s, c, rfl⟩ := isElt_velt helt
  obtain ⟨hn, hd, hs, hc⟩ := velt_wf_parts hwf
  rw [with_]
  have hnn : isStr (n2.getD n) = true := by
    cases n2 with
    | none => exact hn
    | some v => exact hn2 v (Option.mem_def.mpr rfl)
  have haa : isNoneOrDict (a2.getD a) = true := by
    cases a2 with
    | none => exact isDict_isNoneOrDict hd
    | some v => exact ha2 v (Option.mem_def.mpr rfl)
  have hss : isNoneOrDict (s2.getD s) = true := by
    cases s2 with
    | none => exact hs
    | some v => exact hs2 v (Option.mem_def.mpr rfl)
  cases c2 with
  | none =>
    have hinit := elementInit_vlist_of (n2.getD n) (a2.getD a)
      (s2.getD s) c hnn haa hss (wfList_all_str_or_elt hc)
    exact ⟨_, hinit, (elementInit_vlist_wf hc hinit).1,
      (elementInit_vlist_wf hc hinit).2⟩
  | some v =>
    obtain ⟨l, rfl, hwl⟩ := hc2 v (Option.mem_def.mpr rfl)
    have hinit := elementInit_vlist_of (n2.getD n) (a2.getD a)
      (s2.getD s) l hnn haa hss (wfList_all_str_or_elt hwl)
    exact ⟨_, hinit, (elementInit_vlist_wf hwl hinit).1,
      (elementInit_vlist_wf hwl hinit).2⟩

/-- C10: every Element node satisfies, and every node-model operation
(construction via `Element.__init__`, with_content, with_content_slice,
with_, find_replace) preserves, the invariant that its name is a
string, its attrs is a dict, and its content is a list containing only
strings and Elements; constructing an Element whose content is a bare
string, or whose content contains a value of any other type, fails
with AssertionError; and find_replace raises ValueError exactly when
the replacement of the root is not one single Element. -/
theorem element_node_invariants :
    (∀ n a s : PyVal, ∀ str : String,
      elementInit n a s (.vstr str) = .error .assertionError) ∧
    (∀ (n a s : PyVal) (items : List PyVal) (x : PyVal), x ∈ items →
      (isStr x || isElt x) = false →
      elementInit n a s (.vlist items) = .error .assertionError) ∧
    (∀ (n a s : PyVal) (items : List PyVal) (e : PyVal),
      wfList items = true → elementInit n a s (.vlist items) = .ok e →
      wfNode e = true ∧ isElt e = true) ∧
    (∀ (e : PyVal) (rc : List PyVal), wfNode e = true → isElt e = true →
      wfList rc = true →
      ∃ e2, with_content e (.vlist rc) = .ok e2 ∧ wfNode e2 = true ∧
        isElt e2 = true) ∧
    (∀ (e : PyVal) (start stop : Nat) (rc : List PyVal),
      wfNode e = true → isElt e = true → wfList rc = true →
      ∃ e2, with_content_slice e start stop rc = .ok e2 ∧
        wfNode e2 = true ∧ isElt e2 = true) ∧
    (∀ (e : PyVal) (n2 a2 s2 c2 : Option PyVal), wfNode e = true →
      isElt e = true →
      (∀ v ∈ n2, isStr v = true) →
      (∀ v ∈ a2, isNoneOrDict v = true) →
      (∀ v ∈ s2, isNoneOrDict v = true) →
      (∀ v ∈ c2, ∃ l, v = PyVal.vlist l ∧ wfList l = true) →
      ∃ e2, with_ e n2 a2 s2 c2 = .ok e2 ∧ wfNode e2 = true ∧
        isElt e2 = true) ∧
    (∀ (m : PyVal → MatchRes) (r : PyVal → List PyVal) (root e2 : PyVal),
      wfNode root = true → (∀ e, wfList (r e) = true) →
      find_replace m r root = .ok e2 →
      wfNode e2 = true ∧ isElt e2 = true) ∧
    (∀ (m : PyVal → MatchRes) (r : PyVal → List PyVal) (root : PyVal)
      (rc : List PyVal) (ch : Bool),
      mapElement m r (sizeOfVal root) root = .ok (rc, ch) →
      ((find_replace m r root = .error .valueError ↔
        ∀ e, rc = [e] → isElt e = false) ∧
       (∀ e, rc = [e] → isElt e = true →
        find_replace m r root = .ok e))) :=
  ⟨fun n a s str => elementInit_vstr n a s str,
   fun n a s items x hx hbad => elementInit_bad_item hx hbad n a s,
   fun _ _ _ _ _ hw h => elementInit_vlist_wf hw h,
   fun _ _ h1 h2 h3 => with_content_wf h1 h2 h3,
   fun _ _ _ _ h1 h2 h3 => with_content_slice_wf h1 h2 h3,
   fun _ _ _ _ _ h1 h2 h3 h4 h5 h6 => with_wf h1 h2 h3 h4 h5 h6,
   fun _ _ _ _ h1 h2 h3 => find_replace_wf h1 h2 h3,
   fun _ _ _ _ _ hme => find_replace_of_mapElement hme⟩

/-- A concrete well-formed element: p with a class attribute and one
text child. -/
def exC10 : PyVal :=
  .velt (.vstr "p") (.vdict [("class", "x")]) .vnone [.vstr "hi"]

/-- Witness for C10 at concrete inputs: a bare-string content fails
construction, with_content on a well-formed element with well-formed
content succeeds well-formed, and find_replace with an
everything-skipping matcher returns the root element itself. -/
theorem element_node_invariants_witness :
    (elementInit (.vstr "p") .vnone .vnone (.vstr "oops") =
      .error .assertionError) ∧
    (∃ e2, with_content exC10 (.vlist [.vstr "x", exC10]) = .ok e2 ∧
      wfNode e2 = true ∧ isElt e2 = true) ∧
    (find_replace (fun _ => .skip) (fun _ => []) exC10 = .ok exC10) :=
  ⟨element_node_invariants.1 _ _ _ _,
   element_node_invariants.2.2.2.1 exC10 [.vstr "x", exC10]
     (by decide) (by decide) (by decide),
   (element_node_invariants.2.2.2.2.2.2.2 (fun _ => .skip)
     (fun _ => []) exC10 [exC10] false rfl).2 exC10 rfl (by decide)⟩

/-! ### Range construction in rewrite_spans (src/fixups.py, lines 774-801)

The paragraph has been turned into `items`, a list of (content list,
run style) pairs, and an ambient `paragraph_style`.  For each item the
loop computes the active-property map — the run properties whose value
differs from the ambient value — and calls `set_current_style_to`,
which closes the open property intervals that change here (recording
each as `ranges[start, here][prop] = old_val`) and opens intervals for
newly active properties.  `ranges` is a `defaultdict(dict)` keyed by
(start, stop) extent; it is converted to (start, stop, style) triples
and sorted by (start ascending, stop descending).  The extent keys are
distinct, so that sort key is injective and the sorted permutation is
unique; the model uses an insertion sort, which agrees with the stable
Python sort on injective keys. -/

/-- The open intervals: property to (start position, value). -/
abbrev CurStyle := List (String × (Nat × String))

/-- `ranges` as an insertion-ordered dict from (start, stop) extents to
style dicts. -/
abbrev Ranges := List ((Nat × Nat) × PropMap)

/-- `style.get(prop, not old_val) != old_val` (fixups.py line 780):
absent properties compare unequal because the default `not old_val`
never equals the string `old_val`. -/
def styleGetNeq (style : PropMap) (p v : String) : Bool :=
  match style.lookup p with
  | none => true
  | some w => w != v

/-- `ranges[start, here][prop] = old_val`: defaultdict lookup of the
extent, then dict assignment into its style. -/
def rangesAdd : Ranges → (Nat × Nat) → String → String → Ranges
  | [], key, p, v => [(key, [(p, v)])]
  | (k2, st) :: rest, key, p, v =>
    if k2 = key then (k2, dictInsert st p v) :: rest
    else (k2, st) :: rangesAdd rest key p v

/-- First loop of set_current_style_to (fixups.py lines 778-783):
close, at `here`, every open interval whose property is absent from
the new style or changes value; keep the rest open. -/
def closeChanged (style : PropMap) (here : Nat) :
    CurStyle → Ranges → CurStyle × Ranges
  | [], rs => ([], rs)
  | (p, (s, v)) :: rest, rs =>
    if styleGetNeq style p v then
      closeChanged style here rest (rangesAdd rs (s, here) p v)
    else
      let pr := closeChanged style here rest rs
      ((p, (s, v)) :: pr.1, pr.2)

/-- Second loop of set_current_style_to (fixups.py lines 784-789):
open an interval for each new property; an already-open property must
carry the same value (assert). -/
def openNew (here : Nat) : PropMap → CurStyle → Except PyError CurStyle
  | [], cur => .ok cur
  | (p, v) :: rest, cur =>
    match cur.lookup p with
    | none => openNew here rest (cur ++ [(p, (here, v))])
    | some sv =>
      if sv.2 = v then openNew here rest cur else .error .assertionError

/-- The final assert of set_current_style_to (fixups.py line 790):
the mapping held by current_style equals the style dict. -/
def curMapEq (cur : CurStyle) (style : PropMap) : Bool :=
  cur.all (fun pe => style.lookup pe.1 == some pe.2.2) &&
  style.all (fun pv => (cur.lookup pv.1).map Prod.snd == some pv.2)

/-- fixups.py lines 777-790, set_current_style_to. -/
def set_current_style_to (style : PropMap) (here : Nat) (cur : CurStyle)
    (rs : Ranges) : Except PyError (CurStyle × Ranges) :=
  let pr := closeChanged style here cur rs
  match openNew here style pr.1 with
  | .error e => .error e
  | .ok cur3 =>
    if curMapEq cur3 style then .ok (cur3, pr.2)
    else .error .assertionError

/-- The active-property map of a run (fixups.py line 795):
`{p: v for p, v in run_style.items() if paragraph_style.get(p) != v}`. -/
def activeOf (para run : PropMap) : PropMap :=
  run.filter (fun pv => !(para.lookup pv.1 == some pv.2))

/-- The per-item loop (fixups.py lines 793-797): set the current style
to the active map of each run and append its content. -/
def rangesLoop {α : Type} (para : PropMap) :
    List (List α × PropMap) → Nat → CurStyle → Ranges →
    Except PyError (Nat × CurStyle × Ranges)
  | [], n, cur, rs => .ok (n, cur, rs)
  | (c, st) :: rest, n, cur, rs =>
    match set_current_style_to (activeOf para st) n cur rs with
    | .error e => .error e
    | .ok (cur2, rs2) => rangesLoop para rest (n + c.length) cur2 rs2

/-- fixups.py lines 791-798: run the loop from an empty current style,
then close everything with `set_current_style_to({})`. -/
def rangesOf {α : Type} (items : List (List α × PropMap))
    (para : PropMap) : Except PyError Ranges :=
  match rangesLoop para items 0 [] [] with
  | .error e => .error e
  | .ok (n, _cur, rs) =>
    match set_current_style_to [] n _cur rs with
    | .error e => .error e
    | .ok pr2 => .ok pr2.2

/-- The sort key of fixups.py line 801: (start ascending, stop
descending). -/
def rangeKeyLe (r1 r2 : SRange) : Bool :=
  decide (r1.start < r2.start) ||
    (decide (r1.start = r2.start) && decide (r2.stop ≤ r1.stop))

def insertSorted (r : SRange) : List SRange → List SRange
  | [] => [r]
  | x :: xs => if rangeKeyLe x r then x :: insertSorted r xs else r :: x :: xs

/-- `ranges.sort(key=lambda triple: (triple[0], -triple[1]))`. -/
def sortRanges (l : List SRange) : List SRange := l.foldr insertSorted []

/-- A ranges-dict entry as a (start, stop, style) triple
(fixups.py line 800). -/
def toSRange (e : (Nat × Nat) × PropMap) : SRange := ⟨e.1.1, e.1.2, e.2⟩

/-- `all_content`: the item contents concatenated (fixups.py 792-797). -/
def contentOf {α : Type} : List (List α × PropMap) → List α
  | [] => []
  | (c, _) :: rest => c ++ contentOf rest

/-- Each content piece paired with the active map of its run. -/
def annOf {α : Type} (para : PropMap) :
    List (List α × PropMap) → List (α × PropMap)
  | [] => []
  | (c, st) :: rest => c.map (fun a => (a, activeOf para st)) ++ annOf para rest

/-- The active map governing absolute content position i; empty beyond
the end. -/
def posAt {α : Type} (para : PropMap) :
    List (List α × PropMap) → Nat → PropMap
  | [], _ => []
  | (c, st) :: rest, i =>
    if i < c.length then activeOf para st else posAt para rest (i - c.length)

/-- Dict equality of two property maps: over every key of either,
the lookups agree. -/
def pmEq (m1 m2 : PropMap) : Bool :=
  m1.all (fun pv => m2.lookup pv.1 == m1.lookup pv.1) &&
  m2.all (fun pv => m1.lookup pv.1 == m2.lookup pv.1)

mutual

/-- Leaves of a span tree, each with the merged style of its enclosing
spans (inner overriding outer) and the address of its direct parent:
the path of child indices leading to the kids list holding the leaf. -/
def leafFull {α : Type} (acc : PropMap) (pre : List Nat) (k : Nat) :
    SNode α → List (α × PropMap × List Nat)
  | .piece a => [(a, acc, pre)]
  | .span st kids => leavesFull (dictUpdate acc st) (pre ++ [k]) 0 kids

def leavesFull {α : Type} (acc : PropMap) (pre : List Nat) (k : Nat) :
    List (SNode α) → List (α × PropMap × List Nat)
  | [] => []
  | n :: ns => leafFull acc pre k n ++ leavesFull acc pre (k + 1) ns

end

lemma mem_dictInsert {β : Type} {st : List (String × β)} {p : String}
    {v : β} {pv : String × β} (h : pv ∈ dictInsert st p v) :
    pv ∈ st ∨ pv = (p, v) := by
  unfold dictInsert at h
  by_cases hk : (st.lookup p).isSome
  · rw [if_pos hk] at h
    obtain ⟨q, hq, he⟩ := List.mem_map.mp h
    by_cases hq1 : q.1 = p
    · rw [if_pos hq1] at he
      exact Or.inr he.symm
    · rw [if_neg hq1] at he
      exact Or.inl (he ▸ hq)
  · rw [if_neg hk] at h
    rcases List.mem_append.mp h with h2 | h2
    · exact Or.inl h2
    · rcases List.mem_cons.mp h2 with h3 | h3
      · exact Or.inr h3
      · exact absurd h3 (List.not_mem_nil pv)

lemma keys_rangesAdd (rs : Ranges) (key : Nat × Nat) (p v : String) :
    (rangesAdd rs key p v).map Prod.fst =
      if key ∈ rs.map Prod.fst then rs.map Prod.fst
      else rs.map Prod.fst ++ [key] := by
  induction rs with
  | nil => simp [rangesAdd]
  | cons e rest ih =>
    obtain ⟨k2, st⟩ := e
    rw [rangesAdd]
    by_cases hk : k2 = key
    · subst hk
      simp [List.mem_cons]
    · rw [if_neg hk]
      simp only [List.map_cons, ih, List.mem_cons]
      by_cases hm : key ∈ rest.map Prod.fst
      · rw [if_pos hm, if_pos (Or.inr hm)]
      · rw [if_neg hm, if_neg ?_, List.cons_append]
        intro hc
        rcases hc with hc | hc
        · exact hk hc.symm
        · exact hm hc

lemma nodup_keys_rangesAdd {rs : Ranges} {key : Nat × Nat} {p v : String}
    (h : (rs.map Prod.fst).Nodup) :
    ((rangesAdd rs key p v).map Prod.fst).Nodup := by
  rw [keys_rangesAdd]
  by_cases hm : key ∈ rs.map Prod.fst
  · rw [if_pos hm]; exact h
  · rw [if_neg hm]
    simp [List.nodup_append, h, hm]


/-- Invariant of one ranges entry against the position-to-active-map
function A: nonempty extent, dict-unique style keys, and each style
property holds with that value on the whole extent, changes at the
start (or the start is 0) and changes at the stop. -/
lemma dictInsert_ne_nil {β : Type} (st : List (String × β))
    (p : String) (v : β) : dictInsert st p v ≠ [] := by
  unfold dictInsert
  by_cases hk : (st.lookup p).isSome
  · rw [if_pos hk]
    cases st with
    | nil =>
      rw [show (([] : List (String × β)).lookup p) = none from rfl] at hk
      exact absurd hk (by simp)
    | cons e rest => simp
  · rw [if_neg hk]
    simp

def RangeEntryInv (A : Nat → PropMap) (e : (Nat × Nat) × PropMap) : Prop :=
  e.1.1 < e.1.2 ∧
  (e.2.map Prod.fst).Nodup ∧
  e.2 ≠ [] ∧
  ∀ pv ∈ e.2,
    (∀ i, e.1.1 ≤ i → i < e.1.2 → (A i).lookup pv.1 = some pv.2) ∧
    (e.1.1 = 0 ∨ (A (e.1.1 - 1)).lookup pv.1 ≠ some pv.2) ∧
    (A e.1.2).lookup pv.1 ≠ some pv.2

/-- Invariant of the ranges dict at position n: unique extent keys, all
stops within n, every entry well-formed. -/
def RsInv (A : Nat → PropMap) (n : Nat) (rs : Ranges) : Prop :=
  (rs.map Prod.fst).Nodup ∧
  ∀ e ∈ rs, e.1.2 ≤ n ∧ RangeEntryInv A e

/-- Invariant of the current-style dict at position n: unique property
keys, each open interval started before n, holds on [start, n) and
changed at the start, and the held mapping is the active map of the
position just before n (empty when n = 0). -/
def CurInv (A : Nat → PropMap) (n : Nat) (cur : CurStyle) : Prop :=
  (cur.map Prod.fst).Nodup ∧
  (∀ e ∈ cur, e.2.1 < n ∧
    (∀ i, e.2.1 ≤ i → i < n → (A i).lookup e.1 = some e.2.2) ∧
    (e.2.1 = 0 ∨ (A (e.2.1 - 1)).lookup e.1 ≠ some e.2.2)) ∧
  (∀ p, (cur.lookup p).map Prod.snd =
    match n with
    | 0 => none
    | m + 1 => (A m).lookup p)

/-- Coverage: every active property of every position before n is
recorded either in a closed range covering the position or in a
still-open interval. -/
def CovInv (A : Nat → PropMap) (n : Nat) (cur : CurStyle) (rs : Ranges) :
    Prop :=
  ∀ i, i < n → ∀ p v, (A i).lookup p = some v →
    (∃ e ∈ rs, e.1.1 ≤ i ∧ i < e.1.2 ∧ e.2.lookup p = some v) ∨
    (∃ s, cur.lookup p = some (s, v) ∧ s ≤ i)

lemma rangesAdd_entry_inv {A : Nat → PropMap} {n : Nat} {rs : Ranges}
    {s : Nat} {p v : String} (hrs : RsInv A n rs) (hsn : s < n)
    (hconst : ∀ i, s ≤ i → i < n → (A i).lookup p = some v)
    (hstart : s = 0 ∨ (A (s - 1)).lookup p ≠ some v)
    (hstop : (A n).lookup p ≠ some v) :
    RsInv A n (rangesAdd rs (s, n) p v) := by
  obtain ⟨hkeys, hent⟩ := hrs
  refine ⟨nodup_keys_rangesAdd hkeys, ?_⟩
  clear hkeys
  induction rs with
  | nil =>
    intro e he
    rw [rangesAdd] at he
    rcases List.mem_cons.mp he with h2 | h2
    · subst h2
      refine ⟨Nat.le_refl n, hsn, List.nodup_singleton p,
        List.cons_ne_nil _ _, ?_⟩
      intro pv hpv
      rcases List.mem_cons.mp hpv with h3 | h3
      · subst h3
        exact ⟨hconst, hstart, hstop⟩
      · exact absurd h3 (List.not_mem_nil pv)
    · exact absurd h2 (List.not_mem_nil e)
  | cons e0 rest ih =>
    obtain ⟨k2, st⟩ := e0
    have h0 := hent (k2, st) (List.mem_cons_self _ _)
    have hrest := fun e he => hent e (List.mem_cons_of_mem _ he)
    intro e he
    rw [rangesAdd] at he
    by_cases hk : k2 = (s, n)
    · rw [if_pos hk] at he
      rcases List.mem_cons.mp he with h2 | h2
      · subst h2
        subst hk
        refine ⟨h0.1, h0.2.1, nodup_keys_dictInsert h0.2.2.1,
          dictInsert_ne_nil st p v, ?_⟩
        intro pv hpv
        rcases mem_dictInsert hpv with h3 | h3
        · exact h0.2.2.2.2 pv h3
        · subst h3
          exact ⟨hconst, hstart, hstop⟩
      · exact hrest e h2
    · rw [if_neg hk] at he
      rcases List.mem_cons.mp he with h2 | h2
      · subst h2
        exact h0
      · exact ih hrest e h2

lemma rangesAdd_cover {A : Nat → PropMap} {n : Nat} {rs : Ranges}
    {s : Nat} {p v : String} (hrs : RsInv A n rs)
    (hconst : ∀ i, s ≤ i → i < n → (A i).lookup p = some v)
    {i : Nat} {q w : String}
    (h : ∃ e ∈ rs, e.1.1 ≤ i ∧ i < e.1.2 ∧ e.2.lookup q = some w) :
    ∃ e ∈ rangesAdd rs (s, n) p v,
      e.1.1 ≤ i ∧ i < e.1.2 ∧ e.2.lookup q = some w := by
  obtain ⟨-, hent⟩ := hrs
  induction rs with
  | nil =>
    obtain ⟨e, he, -⟩ := h
    exact absurd he (List.not_mem_nil e)
  | cons e0 rest ih =>
    obtain ⟨k2, st⟩ := e0
    have h0 := hent (k2, st) (List.mem_cons_self _ _)
    have hrest := fun e he => hent e (List.mem_cons_of_mem _ he)
    obtain ⟨e, he, hcov⟩ := h
    rw [rangesAdd]
    by_cases hk : k2 = (s, n)
    · rw [if_pos hk]
      rcases List.mem_cons.mp he with h2 | h2
      · subst h2
        refine ⟨(k2, dictInsert st p v), List.mem_cons_self _ _, hcov.1,
          hcov.2.1, ?_⟩
        rw [lookup_dictInsert]
        by_cases hq : q = p
        · subst hq
          rw [if_pos rfl]
          have h4 := h0.2.2.2.2 (q, w) (lookup_mem hcov.2.2)
          have hw : (A i).lookup q = some w := h4.1 i hcov.1 hcov.2.1
          have hv : (A i).lookup q = some v := by
            subst hk
            exact hconst i hcov.1 hcov.2.1
          rw [hw] at hv
          injection hv with hv2
          rw [hv2]
        · rw [if_neg hq]
          exact hcov.2.2
      · obtain ⟨e2, he2, hcov2⟩ : ∃ e2 ∈ rest,
            e2.1.1 ≤ i ∧ i < e2.1.2 ∧ e2.2.lookup q = some w :=
          ⟨e, h2, hcov⟩
        exact ⟨e2, List.mem_cons_of_mem _ he2, hcov2⟩
    · rw [if_neg hk]
      rcases List.mem_cons.mp he with h2 | h2
      · subst h2
        exact ⟨(k2, st), List.mem_cons_self _ _, hcov⟩
      · obtain ⟨e2, he2, hcov2⟩ := ih ⟨e, h2, hcov⟩ hrest
        exact ⟨e2, List.mem_cons_of_mem _ he2, hcov2⟩

lemma rangesAdd_new_cover (rs : Ranges) (s n : Nat) (p v : String) :
    ∃ e ∈ rangesAdd rs (s, n) p v, e.1 = (s, n) ∧
      e.2.lookup p = some v := by
  induction rs with
  | nil =>
    refine ⟨((s, n), [(p, v)]), List.mem_cons_self _ _, rfl, ?_⟩
    rw [lookup_cons, if_pos rfl]
  | cons e0 rest ih =>
    obtain ⟨k2, st⟩ := e0
    rw [rangesAdd]
    by_cases hk : k2 = (s, n)
    · rw [if_pos hk]
      refine ⟨(k2, dictInsert st p v), List.mem_cons_self _ _, hk, ?_⟩
      rw [lookup_dictInsert, if_pos rfl]
    · rw [if_neg hk]
      obtain ⟨e2, he2, hp⟩ := ih
      exact ⟨e2, List.mem_cons_of_mem _ he2, hp⟩

lemma rangesAdd_pres {rs : Ranges} {key : Nat × Nat} {p v q w : String}
    {ext : Nat × Nat} (hq : q ≠ p)
    (h : ∃ e ∈ rs, e.1 = ext ∧ e.2.lookup q = some w) :
    ∃ e ∈ rangesAdd rs key p v, e.1 = ext ∧ e.2.lookup q = some w := by
  induction rs with
  | nil =>
    obtain ⟨e, he, -⟩ := h
    exact absurd he (List.not_mem_nil e)
  | cons e0 rest ih =>
    obtain ⟨k2, st⟩ := e0
    obtain ⟨e, he, hcov⟩ := h
    rw [rangesAdd]
    by_cases hk : k2 = key
    · rw [if_pos hk]
      rcases List.mem_cons.mp he with h2 | h2
      · subst h2
        refine ⟨(k2, dictInsert st p v), List.mem_cons_self _ _,
          hcov.1, ?_⟩
        rw [lookup_dictInsert, if_neg hq]
        exact hcov.2
      · exact ⟨e, List.mem_cons_of_mem _ h2, hcov⟩
    · rw [if_neg hk]
      rcases List.mem_cons.mp he with h2 | h2
      · subst h2
        exact ⟨(k2, st), List.mem_cons_self _ _, hcov⟩
      · obtain ⟨e2, he2, hcov2⟩ := ih ⟨e, h2, hcov⟩
        exact ⟨e2, List.mem_cons_of_mem _ he2, hcov2⟩

lemma closeChanged_kept (style : PropMap) (n : Nat) :
    ∀ (cur : CurStyle) (rs : Ranges),
      (closeChanged style n cur rs).1 =
        cur.filter (fun e => !styleGetNeq style e.1 e.2.2) := by
  intro cur
  induction cur with
  | nil => intro rs; rfl
  | cons e rest ih =>
    intro rs
    obtain ⟨p, s, v⟩ := e
    rw [closeChanged]
    cases hg : styleGetNeq style p v with
    | true =>
      rw [if_pos rfl, ih, List.filter_cons_of_neg (by simp [hg])]
    | false =>
      rw [if_neg (by simp)]
      show (p, s, v) :: (closeChanged style n rest rs).1 = _
      rw [ih, List.filter_cons_of_pos (by simp [hg])]

lemma closeChanged_rs {A : Nat → PropMap} {style : PropMap} {n : Nat}
    (hAn : ∀ p, (A n).lookup p = style.lookup p) :
    ∀ (cur : CurStyle) (rs : Ranges),
      (∀ e ∈ cur, e.2.1 < n ∧
        (∀ i, e.2.1 ≤ i → i < n → (A i).lookup e.1 = some e.2.2) ∧
        (e.2.1 = 0 ∨ (A (e.2.1 - 1)).lookup e.1 ≠ some e.2.2)) →
      RsInv A n rs →
      RsInv A n (closeChanged style n cur rs).2 ∧
      (∀ i q w, (∃ e ∈ rs, e.1.1 ≤ i ∧ i < e.1.2 ∧
          e.2.lookup q = some w) →
        ∃ e ∈ (closeChanged style n cur rs).2,
          e.1.1 ≤ i ∧ i < e.1.2 ∧ e.2.lookup q = some w) := by
  intro cur
  induction cur with
  | nil => exact fun rs _ hrs => ⟨hrs, fun i q w h => h⟩
  | cons e0 rest ih =>
    intro rs hcur hrs
    obtain ⟨p, s, v⟩ := e0
    have h0 := hcur (p, s, v) (List.mem_cons_self _ _)
    have hrest := fun e he => hcur e (List.mem_cons_of_mem _ he)
    rw [closeChanged]
    cases hg : styleGetNeq style p v with
    | true =>
      rw [if_pos rfl]
      have hstop : (A n).lookup p ≠ some v := by
        rw [hAn p]
        unfold styleGetNeq at hg
        cases hl : style.lookup p with
        | none => exact Option.noConfusion
        | some w =>
          rw [hl] at hg
          simp only [bne_iff_ne, ne_eq] at hg
          intro hc
          injection hc with hc2
          exact hg hc2
      have hrs2 : RsInv A n (rangesAdd rs (s, n) p v) :=
        rangesAdd_entry_inv hrs h0.1 h0.2.1 h0.2.2 hstop
      obtain ⟨hrsF, hcovF⟩ := ih (rangesAdd rs (s, n) p v) hrest hrs2
      refine ⟨hrsF, ?_⟩
      intro i q w h
      exact hcovF i q w (rangesAdd_cover hrs h0.2.1 h)
    | false =>
      rw [if_neg (by simp)]
      show RsInv A n (closeChanged style n rest rs).2 ∧ _
      exact ih rs hrest hrs

lemma closeChanged_pres {style : PropMap} {n : Nat} {q w : String}
    {ext : Nat × Nat} :
    ∀ (cur : CurStyle) (rs : Ranges), (∀ e ∈ cur, e.1 ≠ q) →
      (∃ e ∈ rs, e.1 = ext ∧ e.2.lookup q = some w) →
      ∃ e ∈ (closeChanged style n cur rs).2, e.1 = ext ∧
        e.2.lookup q = some w := by
  intro cur
  induction cur with
  | nil => exact fun rs _ h => h
  | cons e0 rest ih =>
    intro rs hne h
    obtain ⟨p, s, v⟩ := e0
    have hpq : p ≠ q := hne (p, s, v) (List.mem_cons_self _ _)
    have hrest := fun e he => hne e (List.mem_cons_of_mem _ he)
    rw [closeChanged]
    cases hg : styleGetNeq style p v with
    | true =>
      rw [if_pos rfl]
      exact ih _ hrest (rangesAdd_pres (fun hc => hpq hc.symm) h)
    | false =>
      rw [if_neg (by simp)]
      show ∃ e ∈ (closeChanged style n rest rs).2, _
      exact ih rs hrest h

lemma closeChanged_closed_mem {style : PropMap} {n : Nat}
    {p v : String} {s : Nat} :
    ∀ (cur : CurStyle) (rs : Ranges), ((p, (s, v)) ∈ cur) →
      (cur.map Prod.fst).Nodup →
      styleGetNeq style p v = true →
      ∃ e ∈ (closeChanged style n cur rs).2, e.1 = (s, n) ∧
        e.2.lookup p = some v := by
  intro cur
  induction cur with
  | nil => exact fun rs hm _ _ => absurd hm (List.not_mem_nil _)
  | cons e0 rest ih =>
    intro rs hm hnd hg
    obtain ⟨p0, s0, v0⟩ := e0
    rw [List.map_cons, List.nodup_cons] at hnd
    rcases List.mem_cons.mp hm with h2 | h2
    · injection h2 with h3 h4
      injection h4 with h5 h6
      subst h3; subst h5; subst h6
      rw [closeChanged, if_pos (by rw [hg])]
      have hne : ∀ e ∈ rest, e.1 ≠ p := by
        intro e he hc
        exact hnd.1 (List.mem_map.mpr ⟨e, he, hc⟩)
      exact closeChanged_pres rest _ hne
        (rangesAdd_new_cover rs s n p v)
    · rw [closeChanged]
      cases hg0 : styleGetNeq style p0 v0 with
      | true =>
        rw [if_pos rfl]
        exact ih _ h2 hnd.2 hg
      | false =>
        rw [if_neg (by simp)]
        show ∃ e ∈ (closeChanged style n rest rs).2, _
        exact ih rs h2 hnd.2 hg

lemma openNew_spec {n : Nat} :
    ∀ (style : PropMap) (kept : CurStyle),
      (style.map Prod.fst).Nodup →
      (∀ e ∈ kept, ∀ v2, style.lookup e.1 = some v2 → e.2.2 = v2) →
      ∃ cur3, openNew n style kept = .ok cur3 ∧
        (∀ p, cur3.lookup p =
          match kept.lookup p with
          | some sv => some sv
          | none => (style.lookup p).map (fun v => (n, v))) ∧
        (∀ e ∈ cur3, e ∈ kept ∨
          (e.2.1 = n ∧ style.lookup e.1 = some e.2.2)) ∧
        ((kept.map Prod.fst).Nodup → (cur3.map Prod.fst).Nodup) := by
  intro style
  induction style with
  | nil =>
    intro kept _ _
    refine ⟨kept, rfl, ?_, fun e he => Or.inl he, fun h => h⟩
    intro p
    cases hk : kept.lookup p with
    | some sv => rfl
    | none => rfl
  | cons pv rest ih =>
    intro kept hnd hcompat
    obtain ⟨p, v⟩ := pv
    rw [List.map_cons, List.nodup_cons] at hnd
    have hrestnone : rest.lookup p = none :=
      lookup_eq_none_of_not_mem_keys hnd.1
    rw [openNew]
    cases hk : kept.lookup p with
    | some sv =>
      have hv : sv.2 = v :=
        hcompat (p, sv) (lookup_mem hk) v (by rw [lookup_cons, if_pos rfl])
      change ∃ cur3, (if sv.2 = v then openNew n rest kept
        else Except.error PyError.assertionError) = Except.ok cur3 ∧ _
      rw [if_pos hv]
      have hcompat2 : ∀ e ∈ kept, ∀ v2,
          rest.lookup e.1 = some v2 → e.2.2 = v2 := by
        intro e he v2 hl
        by_cases hep : e.1 = p
        · rw [hep, hrestnone] at hl
          exact Option.noConfusion hl
        · refine hcompat e he v2 ?_
          rw [lookup_cons, if_neg hep]
          exact hl
      obtain ⟨cur3, hok, hlook, hmem3, hnd3⟩ := ih kept hnd.2 hcompat2
      refine ⟨cur3, hok, ?_, ?_, hnd3⟩
      · intro q
        rw [hlook q]
        cases hkq : kept.lookup q with
        | some sv2 => rfl
        | none =>
          have hqp : ¬q = p := by
            intro hc
            rw [hc, hk] at hkq
            exact Option.noConfusion hkq
          rw [lookup_cons, if_neg hqp]
      · intro e he
        rcases hmem3 e he with h2 | h2
        · exact Or.inl h2
        · refine Or.inr ⟨h2.1, ?_⟩
          by_cases hep : e.1 = p
          · rw [hep, hrestnone] at h2
            exact absurd h2.2 Option.noConfusion
          · rw [lookup_cons, if_neg hep]
            exact h2.2
    | none =>
      have hpnotin : p ∉ kept.map Prod.fst := by
        intro hm
        have := (lookup_isSome_iff_mem_keys kept p).mpr hm
        rw [hk] at this
        exact Bool.noConfusion this
      have hcompat2 : ∀ e ∈ kept ++ [(p, (n, v))], ∀ v2,
          rest.lookup e.1 = some v2 → e.2.2 = v2 := by
        intro e he v2 hl
        rcases List.mem_append.mp he with h2 | h2
        · by_cases hep : e.1 = p
          · rw [hep, hrestnone] at hl
            exact Option.noConfusion hl
          · refine hcompat e h2 v2 ?_
            rw [lookup_cons, if_neg hep]
            exact hl
        · rcases List.mem_cons.mp h2 with h3 | h3
          · subst h3
            rw [hrestnone] at hl
            exact Option.noConfusion hl
          · exact absurd h3 (List.not_mem_nil e)
      obtain ⟨cur3, hok, hlook, hmem3, hnd3⟩ :=
        ih (kept ++ [(p, (n, v))]) hnd.2 hcompat2
      refine ⟨cur3, hok, ?_, ?_, ?_⟩
      · intro q
        rw [hlook q, lookup_append]
        cases hkq : kept.lookup q with
        | some sv2 => rfl
        | none =>
          by_cases hqp : q = p
          · subst hqp
            rw [lookup_cons, if_pos rfl, lookup_cons, if_pos rfl]
            rfl
          · rw [lookup_cons, if_neg hqp, lookup_cons, if_neg hqp]
            cases rest.lookup q with
            | none => rfl
            | some v2 => rfl
      · intro e he
        rcases hmem3 e he with h2 | h2
        · rcases List.mem_append.mp h2 with h3 | h3
          · exact Or.inl h3
          · rcases List.mem_cons.mp h3 with h4 | h4
            · subst h4
              refine Or.inr ⟨rfl, ?_⟩
              rw [lookup_cons, if_pos rfl]
            · exact absurd h4 (List.not_mem_nil e)
        · refine Or.inr ⟨h2.1, ?_⟩
          by_cases hep : e.1 = p
          · rw [hep, hrestnone] at h2
            exact absurd h2.2 Option.noConfusion
          · rw [lookup_cons, if_neg hep]
            exact h2.2
      · intro hndk
        refine hnd3 ?_
        rw [List.map_append]
        simp [List.nodup_append, hndk, hpnotin]

lemma mem_lookup_of_nodup {β : Type} {d : List (String × β)}
    {k : String} {v : β} (hnd : (d.map Prod.fst).Nodup)
    (hm : (k, v) ∈ d) : d.lookup k = some v := by
  induction d with
  | nil => exact absurd hm (List.not_mem_nil _)
  | cons e rest ih =>
    rw [List.map_cons, List.nodup_cons] at hnd
    rw [lookup_cons]
    rcases List.mem_cons.mp hm with h2 | h2
    · subst h2
      rw [if_pos rfl]
    · by_cases hk : k = e.1
      · exact absurd (List.mem_map.mpr ⟨(k, v), h2, hk⟩) hnd.1
      · rw [if_neg hk]
        exact ih hnd.2 h2

lemma styleGetNeq_false {style : PropMap} {p v : String}
    (h : styleGetNeq style p v = false) : style.lookup p = some v := by
  unfold styleGetNeq at h
  cases hl : style.lookup p with
  | none =>
    rw [hl] at h
    exact Bool.noConfusion h
  | some w =>
    rw [hl] at h
    simp only [bne_eq_false_iff_eq] at h
    rw [h]

lemma styleGetNeq_true {style : PropMap} {p v : String}
    (h : styleGetNeq style p v = true) : style.lookup p ≠ some v := by
  unfold styleGetNeq at h
  cases hl : style.lookup p with
  | none => exact Option.noConfusion
  | some w =>
    rw [hl] at h
    simp only [bne_iff_ne, ne_eq] at h
    intro hc
    injection hc with hc2
    exact h hc2

lemma set_current_style_step {A : Nat → PropMap} {n m : Nat}
    {style : PropMap} {cur : CurStyle} {rs : Ranges}
    (hnd : (style.map Prod.fst).Nodup)
    (hA : ∀ i, n ≤ i → i < m → ∀ p, (A i).lookup p = style.lookup p)
    (hnm : n < m)
    (hcur : CurInv A n cur) (hrs : RsInv A n rs)
    (hcov : CovInv A n cur rs) :
    ∃ cur2 rs2, set_current_style_to style n cur rs = .ok (cur2, rs2) ∧
      CurInv A m cur2 ∧ RsInv A n rs2 ∧ CovInv A m cur2 rs2 := by
  obtain ⟨hndc, hce, hcl⟩ := hcur
  have hAn : ∀ p, (A n).lookup p = style.lookup p :=
    hA n (Nat.le_refl n) hnm
  have hkeq := closeChanged_kept style n cur rs
  obtain ⟨hrs2, hcov2⟩ := closeChanged_rs hAn cur rs hce hrs
  have hkept_mem : ∀ e ∈ (closeChanged style n cur rs).1,
      e ∈ cur ∧ styleGetNeq style e.1 e.2.2 = false := by
    intro e he
    rw [hkeq] at he
    have := List.mem_filter.mp he
    exact ⟨this.1, by simpa using this.2⟩
  have hkept_nodup :
      ((closeChanged style n cur rs).1.map Prod.fst).Nodup := by
    rw [hkeq]
    exact ((List.filter_sublist cur).map Prod.fst).nodup hndc
  have hcompat : ∀ e ∈ (closeChanged style n cur rs).1, ∀ v2,
      style.lookup e.1 = some v2 → e.2.2 = v2 := by
    intro e he v2 hl
    have hf := styleGetNeq_false (hkept_mem e he).2
    have h4 := hf.symm.trans hl
    injection h4
  obtain ⟨cur3, hok, hlook, hmem3, hnd3⟩ :=
    @openNew_spec n style (closeChanged style n cur rs).1 hnd hcompat
  have hcur3nd : (cur3.map Prod.fst).Nodup := hnd3 hkept_nodup
  have hmeq : curMapEq cur3 style = true := by
    rw [curMapEq, Bool.and_eq_true, List.all_eq_true, List.all_eq_true]
    constructor
    · intro e he
      simp only [beq_iff_eq]
      rcases hmem3 e he with h2 | h2
      · exact styleGetNeq_false (hkept_mem e h2).2
      · exact h2.2
    · intro pv hpv
      obtain ⟨p1, v1⟩ := pv
      simp only [beq_iff_eq]
      have hsl : style.lookup p1 = some v1 := mem_lookup_of_nodup hnd hpv
      cases hk : (closeChanged style n cur rs).1.lookup p1 with
      | some sv =>
        have hf := styleGetNeq_false (hkept_mem _ (lookup_mem hk)).2
        rw [hsl] at hf
        injection hf with hf2
        rw [hlook p1, hk]
        show some sv.2 = some v1
        rw [← hf2]
      | none =>
        rw [hlook p1, hk, hsl]
        rfl
  refine ⟨cur3, (closeChanged style n cur rs).2, ?_, ?_, hrs2, ?_⟩
  · rw [set_current_style_to]
    simp only [hok, hmeq, if_true]
  · refine ⟨hcur3nd, ?_, ?_⟩
    · intro e he
      rcases hmem3 e he with h2 | h2
      · obtain ⟨hecur, hgf⟩ := hkept_mem e h2
        have h0 := hce e hecur
        refine ⟨Nat.lt_trans h0.1 hnm, ?_, h0.2.2⟩
        intro i hsi him
        by_cases hin : i < n
        · exact h0.2.1 i hsi hin
        · rw [hA i (Nat.le_of_not_lt hin) him]
          exact styleGetNeq_false hgf
      · obtain ⟨hstart, hsl⟩ := h2
        refine ⟨by omega, ?_, ?_⟩
        · intro i hsi him
          rw [hA i (by omega) him]
          exact hsl
        · rw [hstart]
          cases n with
          | zero => exact Or.inl rfl
          | succ n0 =>
            refine Or.inr ?_
            have hprev : (cur.lookup e.1).map Prod.snd =
                (A n0).lookup e.1 := hcl e.1
            show (A (n0 + 1 - 1)).lookup e.1 ≠ some e.2.2
            have hred : n0 + 1 - 1 = n0 := rfl
            rw [hred]
            cases hk : cur.lookup e.1 with
            | none =>
              rw [hk] at hprev
              rw [← hprev]
              exact Option.noConfusion
            | some sv =>
              rw [hk] at hprev
              rw [← hprev]
              have hmemc : (e.1, sv) ∈ cur := lookup_mem hk
              cases hg : styleGetNeq style e.1 sv.2 with
              | true =>
                have hne := styleGetNeq_true hg
                intro hc
                have hc2 : some sv.2 = some e.2.2 := hc
                injection hc2 with hc3
                exact hne (by rw [hsl, hc3])
              | false =>
                have hmk : (e.1, sv) ∈ (closeChanged style (n0 + 1)
                    cur rs).1 := by
                  rw [hkeq]
                  exact List.mem_filter.mpr ⟨hmemc, by simp [hg]⟩
                have hkl : (closeChanged style (n0 + 1) cur rs).1.lookup
                    e.1 = some sv := mem_lookup_of_nodup hkept_nodup hmk
                have hc3 : cur3.lookup e.1 = some sv := by
                  rw [hlook e.1, hkl]
                have hc3e : cur3.lookup e.1 = some e.2 :=
                  mem_lookup_of_nodup hcur3nd (by
                    show (e.1, e.2) ∈ cur3
                    exact he)
                rw [hc3] at hc3e
                injection hc3e with hc3e2
                have hsv1 : sv.1 < n0 + 1 := (hce (e.1, sv) hmemc).1
                rw [← hc3e2] at hstart
                omega
    · intro p
      show (cur3.lookup p).map Prod.snd = _
      cases hm2 : m with
      | zero => omega
      | succ m0 =>
        show _ = (A m0).lookup p
        have hm0 : (A m0).lookup p = style.lookup p := by
          refine hA m0 (by omega) (by omega) p
        rw [hm0, hlook p]
        cases hk : (closeChanged style n cur rs).1.lookup p with
        | some sv =>
          show some sv.2 = style.lookup p
          exact (styleGetNeq_false (hkept_mem _ (lookup_mem hk)).2).symm
        | none =>
          show ((style.lookup p).map (fun v => (n, v))).map Prod.snd =
            style.lookup p
          cases style.lookup p with
          | none => rfl
          | some v => rfl
  · intro i him p v hAi
    by_cases hin : i < n
    · rcases hcov i hin p v hAi with h2 | h2
      · exact Or.inl (hcov2 i p v h2)
      · obtain ⟨s, hkl, hsi⟩ := h2
        have hmemc : (p, (s, v)) ∈ cur := lookup_mem hkl
        cases hg : styleGetNeq style p v with
        | true =>
          refine Or.inl ?_
          obtain ⟨e, he, hext, hlp⟩ :=
            closeChanged_closed_mem cur rs hmemc hndc hg
          refine ⟨e, he, ?_, ?_, hlp⟩
          · rw [hext]; exact hsi
          · rw [hext]; exact hin
        | false =>
          refine Or.inr ⟨s, ?_, hsi⟩
          have hmk : (p, (s, v)) ∈ (closeChanged style n cur rs).1 := by
            rw [hkeq]
            exact List.mem_filter.mpr ⟨hmemc, by simp [hg]⟩
          rw [hlook p, mem_lookup_of_nodup hkept_nodup hmk]
    · have hsty : style.lookup p = some v := by
        rw [← hA i (Nat.le_of_not_lt hin) him p]
        exact hAi
      refine Or.inr ?_
      rw [hlook p]
      cases hk : (closeChanged style n cur rs).1.lookup p with
      | some sv =>
        have hf := styleGetNeq_false (hkept_mem _ (lookup_mem hk)).2
        rw [hsty] at hf
        injection hf with hf2
        have hs1 : sv.1 < n := (hce _ (hkept_mem _ (lookup_mem hk)).1).1
        refine ⟨sv.1, ?_, by omega⟩
        show some sv = some (sv.1, v)
        rw [hf2]
      | none =>
        rw [hsty]
        exact ⟨n, rfl, Nat.le_of_not_lt hin⟩

lemma RsInv_mono {A : Nat → PropMap} {n m : Nat} {rs : Ranges}
    (hnm : n ≤ m) (h : RsInv A n rs) : RsInv A m rs :=
  ⟨h.1, fun e he => ⟨Nat.le_trans (h.2 e he).1 hnm, (h.2 e he).2⟩⟩

lemma posAt_length {α : Type} (para : PropMap) :
    ∀ (items : List (List α × PropMap)) (i : Nat),
      (contentOf items).length ≤ i → posAt para items i = [] := by
  intro items
  induction items with
  | nil => intro i _; rfl
  | cons it rest ih =>
    intro i hi
    obtain ⟨c, st⟩ := it
    rw [contentOf, List.length_append] at hi
    rw [posAt, if_neg (by omega)]
    exact ih (i - c.length) (by omega)

lemma rangesLoop_inv {α : Type} {A : Nat → PropMap} {para : PropMap} :
    ∀ (items : List (List α × PropMap)) (n : Nat) (cur : CurStyle)
      (rs : Ranges),
      (∀ it ∈ items, it.1 ≠ []) →
      (∀ it ∈ items, ((activeOf para it.2).map Prod.fst).Nodup) →
      (∀ j, A (n + j) = posAt para items j) →
      CurInv A n cur → RsInv A n rs → CovInv A n cur rs →
      ∃ cur2 rs2, rangesLoop para items n cur rs =
          .ok (n + (contentOf items).length, cur2, rs2) ∧
        CurInv A (n + (contentOf items).length) cur2 ∧
        RsInv A (n + (contentOf items).length) rs2 ∧
        CovInv A (n + (contentOf items).length) cur2 rs2 := by
  intro items
  induction items with
  | nil =>
    intro n cur rs _ _ _ hcur hrs hcov
    exact ⟨cur, rs, rfl, hcur, hrs, hcov⟩
  | cons it rest ih =>
    intro n cur rs hne hnodup hfut hcur hrs hcov
    obtain ⟨c, st⟩ := it
    have hclen : 0 < c.length := by
      have := hne (c, st) (List.mem_cons_self _ _)
      cases hc : c with
      | nil => exact absurd hc this
      | cons a t => simp [hc]
    have hA : ∀ i, n ≤ i → i < n + c.length → ∀ p,
        (A i).lookup p = (activeOf para st).lookup p := by
      intro i hni him p
      have hj := hfut (i - n)
      rw [show n + (i - n) = i by omega] at hj
      rw [hj, posAt, if_pos (by omega)]
    obtain ⟨cur2, rs2, hok, hcur2, hrs2, hcov2⟩ :=
      set_current_style_step
        (hnodup (c, st) (List.mem_cons_self _ _)) hA
        (by omega) hcur hrs hcov
    have hfut2 : ∀ j, A (n + c.length + j) = posAt para rest j := by
      intro j
      have hj := hfut (c.length + j)
      rw [show n + (c.length + j) = n + c.length + j by omega] at hj
      rw [hj, posAt, if_neg (by omega)]
      congr 1
      omega
    obtain ⟨cur3, rs3, hok2, hcur3, hrs3, hcov3⟩ :=
      ih (n + c.length) cur2 rs2
        (fun it2 h2 => hne it2 (List.mem_cons_of_mem _ h2))
        (fun it2 h2 => hnodup it2 (List.mem_cons_of_mem _ h2))
        hfut2 hcur2 (RsInv_mono (by omega) hrs2) hcov2
    refine ⟨cur3, rs3, ?_, ?_, ?_, ?_⟩
    · rw [rangesLoop]
      simp only [hok, hok2]
      rw [contentOf, List.length_append]
      rw [show n + (c.length + (contentOf rest).length) =
        n + c.length + (contentOf rest).length by omega]
    · rw [contentOf, List.length_append,
        show n + (c.length + (contentOf rest).length) =
          n + c.length + (contentOf rest).length by omega]
      exact hcur3
    · rw [contentOf, List.length_append,
        show n + (c.length + (contentOf rest).length) =
          n + c.length + (contentOf rest).length by omega]
      exact hrs3
    · rw [contentOf, List.length_append,
        show n + (c.length + (contentOf rest).length) =
          n + c.length + (contentOf rest).length by omega]
      exact hcov3

lemma rangesOf_spec {α : Type} (items : List (List α × PropMap))
    (para : PropMap)
    (hne : ∀ it ∈ items, it.1 ≠ [])
    (hnodup : ∀ it ∈ items, ((activeOf para it.2).map Prod.fst).Nodup) :
    ∃ R, rangesOf items para = .ok R ∧
      RsInv (fun i => posAt para items i) (contentOf items).length R ∧
      (∀ i, i < (contentOf items).length → ∀ p v,
        (posAt para items i).lookup p = some v →
        ∃ e ∈ R, e.1.1 ≤ i ∧ i < e.1.2 ∧ e.2.lookup p = some v) := by
  set A : Nat → PropMap := fun i => posAt para items i with hAdef
  set N : Nat := (contentOf items).length with hNdef
  have hfut : ∀ j, A (0 + j) = posAt para items j := by
    intro j
    rw [Nat.zero_add]
  have hcur0 : CurInv A 0 [] := by
    refine ⟨List.nodup_nil, fun e he => absurd he (List.not_mem_nil e), ?_⟩
    intro p
    rfl
  have hrs0 : RsInv A 0 [] :=
    ⟨List.nodup_nil, fun e he => absurd he (List.not_mem_nil e)⟩
  have hcov0 : CovInv A 0 [] [] := by
    intro i hi
    omega
  obtain ⟨cur2, rs2, hloop, hcur2, hrs2, hcov2⟩ :=
    rangesLoop_inv items 0 [] [] hne hnodup hfut hcur0 hrs0 hcov0
  rw [Nat.zero_add] at hloop hcur2 hrs2 hcov2
  have hAend : ∀ i, N ≤ i → i < N + 1 → ∀ p,
      (A i).lookup p = ([] : PropMap).lookup p := by
    intro i hNi _ p
    show (posAt para items i).lookup p = _
    rw [posAt_length para items i hNi]
  obtain ⟨cur3, rs3, hok2, hcur3, hrs3, hcov3⟩ :=
    set_current_style_step
      (show ((([] : PropMap)).map Prod.fst).Nodup from List.nodup_nil)
      hAend (Nat.lt_succ_self N) hcur2 hrs2 hcov2
  refine ⟨rs3, ?_, hrs3, ?_⟩
  · rw [rangesOf]
    simp only [hloop, hok2]
  · intro i hi p v hAi
    rcases hcov3 i (by omega) p v hAi with h2 | h2
    · exact h2
    · obtain ⟨s, hkl, -⟩ := h2
      have hprev := hcur3.2.2 p
      rw [hkl] at hprev
      have hnone : (A N).lookup p = none := by
        show (posAt para items N).lookup p = none
        rw [posAt_length para items N (Nat.le_refl N)]
        rfl
      have : some (s, v).2 = (A N).lookup p := hprev
      rw [hnone] at this
      exact Option.noConfusion this

lemma rangeKeyLe_start {r1 r2 : SRange} (h : rangeKeyLe r1 r2 = true) :
    r1.start ≤ r2.start := by
  rw [rangeKeyLe, Bool.or_eq_true, Bool.and_eq_true] at h
  rcases h with h | h
  · exact Nat.le_of_lt (of_decide_eq_true h)
  · exact Nat.le_of_eq (of_decide_eq_true h.1)

lemma rangeKeyLe_total {r1 r2 : SRange} (h : rangeKeyLe r1 r2 = false) :
    rangeKeyLe r2 r1 = true := by
  rw [rangeKeyLe, Bool.or_eq_false_iff, Bool.and_eq_false_iff] at h
  rw [rangeKeyLe, Bool.or_eq_true, Bool.and_eq_true]
  have h1 : ¬r1.start < r2.start := of_decide_eq_false h.1
  rcases h.2 with h2 | h2
  · have : ¬r1.start = r2.start := of_decide_eq_false h2
    exact Or.inl (decide_eq_true (by omega))
  · have : ¬r2.stop ≤ r1.stop := of_decide_eq_false h2
    by_cases he : r1.start = r2.start
    · exact Or.inr ⟨decide_eq_true he.symm, decide_eq_true (by omega)⟩
    · exact Or.inl (decide_eq_true (by omega))

lemma insertSorted_mem {r : SRange} {x : SRange} :
    ∀ {l : List SRange}, (x ∈ insertSorted r l ↔ x = r ∨ x ∈ l) := by
  intro l
  induction l with
  | nil =>
    rw [insertSorted]
    simp
  | cons y ys ih =>
    rw [insertSorted]
    by_cases h : rangeKeyLe y r = true
    · rw [if_pos h]
      simp only [List.mem_cons, ih]
      tauto
    · rw [if_neg h]
      simp only [List.mem_cons]

lemma sortRanges_mem {x : SRange} :
    ∀ {l : List SRange}, (x ∈ sortRanges l ↔ x ∈ l) := by
  intro l
  induction l with
  | nil => exact Iff.rfl
  | cons y ys ih =>
    show x ∈ insertSorted y (sortRanges ys) ↔ _
    rw [insertSorted_mem, ih, List.mem_cons]

lemma insertSorted_sorted {r : SRange} :
    ∀ {l : List SRange},
      l.Pairwise (fun a b => a.start ≤ b.start) →
      (insertSorted r l).Pairwise (fun a b => a.start ≤ b.start) := by
  intro l
  induction l with
  | nil =>
    intro _
    exact List.pairwise_singleton _ r
  | cons y ys ih =>
    intro h
    rcases List.pairwise_cons.mp h with ⟨hy, hys⟩
    rw [insertSorted]
    by_cases hk : rangeKeyLe y r = true
    · rw [if_pos hk]
      refine List.pairwise_cons.mpr ⟨?_, ih hys⟩
      intro z hz
      rcases insertSorted_mem.mp hz with h2 | h2
      · subst h2
        exact rangeKeyLe_start hk
      · exact hy z h2
    · rw [if_neg hk]
      have hrle := rangeKeyLe_total (Bool.eq_false_iff.mpr hk)
      have hry : r.start ≤ y.start := rangeKeyLe_start hrle
      refine List.pairwise_cons.mpr ⟨?_, h⟩
      intro z hz
      rcases List.mem_cons.mp hz with h2 | h2
      · subst h2
        exact hry
      · exact Nat.le_trans hry (hy z h2)

lemma sortRanges_sorted :
    ∀ {l : List SRange},
      (sortRanges l).Pairwise (fun a b => a.start ≤ b.start) := by
  intro l
  induction l with
  | nil => exact List.Pairwise.nil
  | cons y ys ih => exact insertSorted_sorted ih

lemma leavesFull_append {α : Type} (acc : PropMap) (pre : List Nat) :
    ∀ (xs ys : List (SNode α)) (k : Nat),
      leavesFull acc pre k (xs ++ ys) =
        leavesFull acc pre k xs ++ leavesFull acc pre (k + xs.length) ys := by
  intro xs
  induction xs with
  | nil =>
    intro ys k
    rw [List.nil_append, leavesFull, List.nil_append, List.length_nil,
      Nat.add_zero]
  | cons x xs ih =>
    intro ys k
    rw [List.cons_append, leavesFull, leavesFull, ih, List.append_assoc,
      List.length_cons]
    rw [show k + (xs.length + 1) = k + 1 + xs.length by omega]

lemma leavesFull_map_piece {α : Type} (acc : PropMap) (pre : List Nat) :
    ∀ (l : List α) (k : Nat),
      leavesFull acc pre k (l.map SNode.piece) =
        l.map (fun a => (a, acc, pre)) := by
  intro l
  induction l with
  | nil => intro k; rfl
  | cons a t ih =>
    intro k
    rw [List.map_cons, leavesFull, leafFull, ih, List.map_cons]
    rfl

lemma forall2_append {β γ : Type} {R : β → γ → Prop}
    {l1 l2 : List β} {r1 r2 : List γ} (h1 : List.Forall₂ R l1 r1)
    (h2 : List.Forall₂ R l2 r2) :
    List.Forall₂ R (l1 ++ l2) (r1 ++ r2) := by
  induction h1 with
  | nil => exact h2
  | cons hr _ ih => exact List.Forall₂.cons hr ih

lemma zip_append_eq {β γ : Type} :
    ∀ {l1 : List β} {r1 : List γ} (l2 : List β) (r2 : List γ),
      l1.length = r1.length →
      (l1 ++ l2).zip (r1 ++ r2) = l1.zip r1 ++ l2.zip r2 := by
  intro l1
  induction l1 with
  | nil =>
    intro r1 l2 r2 hl
    cases r1 with
    | nil => rfl
    | cons y ys => exact absurd hl (by simp)
  | cons x xs ih =>
    intro r1 l2 r2 hl
    cases r1 with
    | nil => exact absurd hl (by simp)
    | cons y ys =>
      rw [List.cons_append, List.cons_append, List.zip_cons_cons,
        List.zip_cons_cons, List.cons_append, ih l2 r2 (by simpa using hl)]

lemma chain'_of_mem {β : Type} {R : β → β → Prop} :
    ∀ {l : List β}, (∀ x ∈ l, ∀ y ∈ l, R x y) → List.Chain' R l := by
  intro l
  induction l with
  | nil => intro _; exact List.chain'_nil
  | cons x xs ih =>
    intro h
    rw [List.chain'_cons']
    refine ⟨?_, ih ?_⟩
    · intro y hy
      refine h x (List.mem_cons_self _ _) y ?_
      exact List.mem_cons_of_mem _ (List.mem_of_mem_head? hy)
    · intro a ha b hb
      exact h a (List.mem_cons_of_mem _ ha) b (List.mem_cons_of_mem _ hb)

lemma forall2_const_range {β : Type} (Q : Nat → Prop) :
    ∀ (L2 : List β) (c : Nat),
      (∀ i, c ≤ i → i < c + L2.length → Q i) →
      List.Forall₂ (fun _ i => Q i) L2 (List.range' c L2.length) := by
  intro L2
  induction L2 with
  | nil => intro c _; exact List.Forall₂.nil
  | cons x xs ih =>
    intro c hQ
    show List.Forall₂ _ (x :: xs) (c :: List.range' (c + 1) xs.length)
    refine List.Forall₂.cons (hQ c (Nat.le_refl c) (by simp)) ?_
    refine ih (c + 1) ?_
    intro i h1 h2
    refine hQ i (by omega) (by simp; omega)

lemma extract_length {α : Type} (ac : List α) (c i1 : Nat)
    (h : i1 ≤ ac.length) : (extract ac c i1).length = i1 - c := by
  rw [extract, List.length_take, List.length_drop]
  omega

lemma splitRanges_fst_sub (stop : Nat) :
    ∀ (l : List SRange), ∀ t2 ∈ (splitRanges stop l).1,
      ∃ u ∈ l, t2.style = u.style ∧ u.start ≤ t2.start ∧
        t2.stop ≤ u.stop ∧ (t2.start = u.start ∨ t2.start = stop) ∧
        (t2.stop = u.stop ∨ t2.stop = stop) := by
  intro l
  induction l with
  | nil => intro t2 ht; exact absurd ht (List.not_mem_nil t2)
  | cons r rest ih =>
    intro t2 ht
    rw [splitRanges] at ht
    by_cases h1 : r.stop ≤ stop
    · rw [if_pos h1] at ht
      rcases List.mem_cons.mp ht with h2 | h2
      · subst h2
        exact ⟨t2, List.mem_cons_self _ _, rfl, Nat.le_refl _,
          Nat.le_refl _, Or.inl rfl, Or.inl rfl⟩
      · obtain ⟨u, hu, hs⟩ := ih t2 h2
        exact ⟨u, List.mem_cons_of_mem _ hu, hs⟩
    · rw [if_neg h1] at ht
      by_cases h2 : stop ≤ r.start
      · rw [if_pos h2] at ht
        obtain ⟨u, hu, hs⟩ := ih t2 ht
        exact ⟨u, List.mem_cons_of_mem _ hu, hs⟩
      · rw [if_neg h2] at ht
        rcases List.mem_cons.mp ht with h3 | h3
        · subst h3
          exact ⟨r, List.mem_cons_self _ _, rfl, Nat.le_refl _,
            Nat.le_of_not_lt (fun hc => h1 (Nat.le_of_lt hc)),
            Or.inl rfl, Or.inr rfl⟩
        · obtain ⟨u, hu, hs⟩ := ih t2 h3
          exact ⟨u, List.mem_cons_of_mem _ hu, hs⟩

lemma splitRanges_snd_sub (stop : Nat) :
    ∀ (l : List SRange), ∀ t2 ∈ (splitRanges stop l).2,
      ∃ u ∈ l, t2.style = u.style ∧ u.start ≤ t2.start ∧
        t2.stop ≤ u.stop ∧ (t2.start = u.start ∨ t2.start = stop) ∧
        (t2.stop = u.stop ∨ t2.stop = stop) := by
  intro l
  induction l with
  | nil => intro t2 ht; exact absurd ht (List.not_mem_nil t2)
  | cons r rest ih =>
    intro t2 ht
    rw [splitRanges] at ht
    by_cases h1 : r.stop ≤ stop
    · rw [if_pos h1] at ht
      obtain ⟨u, hu, hs⟩ := ih t2 ht
      exact ⟨u, List.mem_cons_of_mem _ hu, hs⟩
    · rw [if_neg h1] at ht
      by_cases h2 : stop ≤ r.start
      · rw [if_pos h2] at ht
        rcases List.mem_cons.mp ht with h3 | h3
        · subst h3
          exact ⟨t2, List.mem_cons_self _ _, rfl, Nat.le_refl _,
            Nat.le_refl _, Or.inl rfl, Or.inl rfl⟩
        · obtain ⟨u, hu, hs⟩ := ih t2 h3
          exact ⟨u, List.mem_cons_of_mem _ hu, hs⟩
      · rw [if_neg h2] at ht
        rcases List.mem_cons.mp ht with h3 | h3
        · subst h3
          exact ⟨r, List.mem_cons_self _ _, rfl,
            Nat.le_of_not_lt (fun hc => h2 (Nat.le_of_lt hc)),
            Nat.le_refl _, Or.inr rfl, Or.inl rfl⟩
        · obtain ⟨u, hu, hs⟩ := ih t2 h3
          exact ⟨u, List.mem_cons_of_mem _ hu, hs⟩

lemma splitRanges_cover_fst (stop : Nat) {i : Nat} (hi : i < stop) :
    ∀ (l : List SRange), ∀ t ∈ l, t.start ≤ i → i < t.stop →
      ∃ t2 ∈ (splitRanges stop l).1, t2.start ≤ i ∧ i < t2.stop ∧
        t2.style = t.style := by
  intro l
  induction l with
  | nil => intro t ht; exact absurd ht (List.not_mem_nil t)
  | cons r rest ih =>
    intro t ht hti htl
    rw [splitRanges]
    rcases List.mem_cons.mp ht with h2 | h2
    · subst h2
      by_cases h1 : t.stop ≤ stop
      · rw [if_pos h1]
        exact ⟨t, List.mem_cons_self _ _, hti, htl, rfl⟩
      · rw [if_neg h1]
        by_cases h2b : stop ≤ t.start
        · omega
        · rw [if_neg h2b]
          exact ⟨⟨t.start, stop, t.style⟩, List.mem_cons_self _ _,
            hti, hi, rfl⟩
    · by_cases h1 : r.stop ≤ stop
      · rw [if_pos h1]
        obtain ⟨t2, ht2, hc⟩ := ih t h2 hti htl
        exact ⟨t2, List.mem_cons_of_mem _ ht2, hc⟩
      · rw [if_neg h1]
        by_cases h2b : stop ≤ r.start
        · rw [if_pos h2b]
          exact ih t h2 hti htl
        · rw [if_neg h2b]
          obtain ⟨t2, ht2, hc⟩ := ih t h2 hti htl
          exact ⟨t2, List.mem_cons_of_mem _ ht2, hc⟩

lemma splitRanges_cover_snd (stop : Nat) {i : Nat} (hi : stop ≤ i) :
    ∀ (l : List SRange), ∀ t ∈ l, t.start ≤ i → i < t.stop →
      ∃ t2 ∈ (splitRanges stop l).2, t2.start ≤ i ∧ i < t2.stop ∧
        t2.style = t.style := by
  intro l
  induction l with
  | nil => intro t ht; exact absurd ht (List.not_mem_nil t)
  | cons r rest ih =>
    intro t ht hti htl
    rw [splitRanges]
    rcases List.mem_cons.mp ht with h2 | h2
    · subst h2
      by_cases h1 : t.stop ≤ stop
      · omega
      · rw [if_neg h1]
        by_cases h2b : stop ≤ t.start
        · rw [if_pos h2b]
          exact ⟨t, List.mem_cons_self _ _, hti, htl, rfl⟩
        · rw [if_neg h2b]
          exact ⟨⟨stop, t.stop, t.style⟩, List.mem_cons_self _ _,
            hi, htl, rfl⟩
    · by_cases h1 : r.stop ≤ stop
      · rw [if_pos h1]
        exact ih t h2 hti htl
      · rw [if_neg h1]
        by_cases h2b : stop ≤ r.start
        · rw [if_pos h2b]
          obtain ⟨t2, ht2, hc⟩ := ih t h2 hti htl
          exact ⟨t2, List.mem_cons_of_mem _ ht2, hc⟩
        · rw [if_neg h2b]
          obtain ⟨t2, ht2, hc⟩ := ih t h2 hti htl
          exact ⟨t2, List.mem_cons_of_mem _ ht2, hc⟩

lemma range1_append (s m n : Nat) :
    List.range' s m ++ List.range' (s + m) n = List.range' s (m + n) := by
  have h := List.range'_append s m n 1
  rw [Nat.one_mul] at h
  rw [Nat.add_comm m n]
  exact h

lemma forall2_piece_range {α : Type} (Amap : Nat → PropMap)
    (acc : PropMap) (pre : List Nat) :
    ∀ (l : List α) (c : Nat),
      (∀ i, c ≤ i → i < c + l.length → ∀ p,
        acc.lookup p = (Amap i).lookup p) →
      List.Forall₂ (fun t i => ∀ p,
        (t.2.1 : PropMap).lookup p = (Amap i).lookup p)
        (l.map (fun a => (a, acc, pre))) (List.range' c l.length) := by
  intro l
  induction l with
  | nil => intro c _; exact List.Forall₂.nil
  | cons x xs ih =>
    intro c hQ
    rw [List.map_cons, List.length_cons, List.range'_succ]
    refine List.Forall₂.cons (hQ c (Nat.le_refl c) (by simp)) ?_
    refine ih (c + 1) ?_
    intro i h1 h2
    refine hQ i (by omega) (by simp; omega)

lemma zip_range_cons {T : Type} (L : List T) (c len : Nat)
    (hL : L.length = len) (hpos : 0 < len) :
    ∃ a z2, L.zip (List.range' c len) = (a, c) :: z2 := by
  cases L with
  | nil =>
    rw [List.length_nil] at hL
    omega
  | cons a l2 =>
    cases len with
    | zero => omega
    | succ len2 =>
      rw [List.range'_succ, List.zip_cons_cons]
      exact ⟨a, _, rfl⟩

lemma map_fst_triple {α : Type} (acc : PropMap) (pre : List Nat)
    (l : List α) :
    (l.map (fun a => (a, acc, pre))).map
      (fun t : α × PropMap × List Nat => t.1) = l := by
  induction l with
  | nil => rfl
  | cons x xs ih => rw [List.map_cons, List.map_cons, ih]

lemma build_result_full {α : Type} (ac : List α) (Amap : Nat → PropMap) :
    ∀ (fuel : Nat) (ranges : List SRange) (c i1 : Nat) (acc : PropMap)
      (pre : List Nat) (k : Nat),
      ranges.length < fuel →
      i1 ≤ ac.length →
      (∀ t ∈ ranges, c ≤ t.start ∧ t.start < t.stop ∧ t.stop ≤ i1) →
      ranges.Pairwise (fun a b => a.start ≤ b.start) →
      (∀ t ∈ ranges, (t.style.map Prod.fst).Nodup) →
      (∀ t ∈ ranges, ∀ pv ∈ t.style, ∀ i, t.start ≤ i → i < t.stop →
        (Amap i).lookup pv.1 = some pv.2) →
      (∀ i, c ≤ i → i < i1 → ∀ p v, acc.lookup p = some v →
        (Amap i).lookup p = some v) →
      (∀ i, c ≤ i → i < i1 → ∀ p v, (Amap i).lookup p = some v →
        acc.lookup p = some v ∨
        ∃ t ∈ ranges, t.start ≤ i ∧ i < t.stop ∧
          t.style.lookup p = some v) →
      ∃ out, build_result ac fuel ranges c i1 = .ok out ∧
        (leavesFull acc pre k out).map (fun t => t.1) = extract ac c i1 ∧
        List.Forall₂ (fun t i => ∀ p,
          (t.2.1 : PropMap).lookup p = (Amap i).lookup p)
          (leavesFull acc pre k out) (List.range' c (i1 - c)) ∧
        List.Chain' (fun x y =>
          (∀ t ∈ ranges, t.start ≠ y.2 ∧ t.stop ≠ y.2) →
          x.1.2.2 = y.1.2.2)
          ((leavesFull acc pre k out).zip (List.range' c (i1 - c))) := by
  intro fuel
  induction fuel with
  | zero =>
    intro ranges c i1 acc pre k hlen
    omega
  | succ fuel ih =>
    intro ranges c i1 acc pre k hlen hac hb hsort hstyles hagree hacc hcov
    cases ranges with
    | nil =>
      have hpoint : ∀ i, c ≤ i → i < i1 → ∀ p,
          acc.lookup p = (Amap i).lookup p := by
        intro i h1 h2 p
        cases hm : (Amap i).lookup p with
        | some v =>
          rcases hcov i h1 h2 p v hm with h3 | h3
          · exact h3
          · obtain ⟨t, ht, -⟩ := h3
            exact absurd ht (List.not_mem_nil t)
        | none =>
          cases hl : acc.lookup p with
          | none => rfl
          | some w =>
            have h4 := hacc i h1 h2 p w hl
            rw [hm] at h4
            exact Option.noConfusion h4
      refine ⟨(extract ac c i1).map SNode.piece, rfl, ?_, ?_, ?_⟩
      · rw [leavesFull_map_piece, map_fst_triple]
      · rw [leavesFull_map_piece, ← extract_length ac c i1 hac]
        refine forall2_piece_range Amap acc pre (extract ac c i1) c ?_
        intro i h1 h2 p
        rw [extract_length ac c i1 hac] at h2
        exact hpoint i h1 (by omega) p
      · rw [leavesFull_map_piece]
        refine chain'_of_mem ?_
        intro x hx y hy
        obtain ⟨x1, x2⟩ := x
        obtain ⟨y1, y2⟩ := y
        have hx1 := (List.of_mem_zip hx).1
        have hy1 := (List.of_mem_zip hy).1
        obtain ⟨a1, -, he1⟩ := List.mem_map.mp hx1
        obtain ⟨a2, -, he2⟩ := List.mem_map.mp hy1
        intro _
        show x1.2.2 = y1.2.2
        rw [← he1, ← he2]
    | cons r rest =>
      rcases List.pairwise_cons.mp hsort with ⟨hr, hrest⟩
      have hrb := hb r (List.mem_cons_self r rest)
      have hrestb : ∀ t ∈ rest,
          r.start ≤ t.start ∧ t.start < t.stop ∧ t.stop ≤ i1 := by
        intro t ht
        have := hb t (List.mem_cons_of_mem r ht)
        exact ⟨hr t ht, this.2.1, this.2.2⟩
      have hguard : c ≤ r.start ∧ r.start < r.stop ∧ r.stop ≤ i1 ∧
          (∀ t ∈ rest, r.start ≤ t.start ∧ t.start < t.stop ∧
            t.stop ≤ i1) :=
        ⟨hrb.1, hrb.2.1, hrb.2.2, hrestb⟩
      have hlen1 : (splitRanges r.stop rest).1.length < fuel := by
        have := splitRanges_fst_length r.stop rest
        simp only [List.length_cons] at hlen
        omega
      have hlen2 : (splitRanges r.stop rest).2.length < fuel := by
        have := splitRanges_snd_length r.stop rest
        simp only [List.length_cons] at hlen
        omega
      have hrstyleNodup := hstyles r (List.mem_cons_self r rest)
      have hstylesI : ∀ t2 ∈ (splitRanges r.stop rest).1,
          (t2.style.map Prod.fst).Nodup := by
        intro t2 ht2
        obtain ⟨u, hu, hstyleEq, -⟩ := splitRanges_fst_sub r.stop rest t2 ht2
        rw [hstyleEq]
        exact hstyles u (List.mem_cons_of_mem _ hu)
      have hagreeI : ∀ t2 ∈ (splitRanges r.stop rest).1, ∀ pv ∈ t2.style,
          ∀ i, t2.start ≤ i → i < t2.stop →
          (Amap i).lookup pv.1 = some pv.2 := by
        intro t2 ht2 pv hpv i hi1 hi2
        obtain ⟨u, hu, hstyleEq, hus, hut, -⟩ :=
          splitRanges_fst_sub r.stop rest t2 ht2
        refine hagree u (List.mem_cons_of_mem _ hu) pv ?_ i (by omega)
          (by omega)
        rw [← hstyleEq]
        exact hpv
      have hstylesA : ∀ t2 ∈ (splitRanges r.stop rest).2,
          (t2.style.map Prod.fst).Nodup := by
        intro t2 ht2
        obtain ⟨u, hu, hstyleEq, -⟩ := splitRanges_snd_sub r.stop rest t2 ht2
        rw [hstyleEq]
        exact hstyles u (List.mem_cons_of_mem _ hu)
      have hagreeA : ∀ t2 ∈ (splitRanges r.stop rest).2, ∀ pv ∈ t2.style,
          ∀ i, t2.start ≤ i → i < t2.stop →
          (Amap i).lookup pv.1 = some pv.2 := by
        intro t2 ht2 pv hpv i hi1 hi2
        obtain ⟨u, hu, hstyleEq, hus, hut, -⟩ :=
          splitRanges_snd_sub r.stop rest t2 ht2
        refine hagree u (List.mem_cons_of_mem _ hu) pv ?_ i (by omega)
          (by omega)
        rw [← hstyleEq]
        exact hpv
      have haccI : ∀ i, r.start ≤ i → i < r.stop → ∀ p v,
          (dictUpdate acc r.style).lookup p = some v →
          (Amap i).lookup p = some v := by
        intro i h1 h2 p v hl
        rw [lookup_dictUpdate acc r.style p hrstyleNodup] at hl
        cases hsl : r.style.lookup p with
        | some w =>
          rw [hsl] at hl
          have hl2 : some w = some v := hl
          have hl3 : w = v := Option.some.inj hl2
          have h4 := hagree r (List.mem_cons_self r rest) (p, w)
            (lookup_mem hsl) i h1 h2
          rw [hl3] at h4
          exact h4
        | none =>
          rw [hsl] at hl
          have hl2 : acc.lookup p = some v := hl
          exact hacc i (by omega) (by omega) p v hl2
      have hcovI : ∀ i, r.start ≤ i → i < r.stop → ∀ p v,
          (Amap i).lookup p = some v →
          (dictUpdate acc r.style).lookup p = some v ∨
          ∃ t2 ∈ (splitRanges r.stop rest).1, t2.start ≤ i ∧
            i < t2.stop ∧ t2.style.lookup p = some v := by
        intro i h1 h2 p v hm
        rcases hcov i (by omega) (by omega) p v hm with h3 | h3
        · refine Or.inl ?_
          rw [lookup_dictUpdate acc r.style p hrstyleNodup]
          cases hsl : r.style.lookup p with
          | some w =>
            have h4 := hagree r (List.mem_cons_self r rest) (p, w)
              (lookup_mem hsl) i h1 h2
            have h5 : v = w := Option.some.inj (hm.symm.trans h4)
            show some w = some v
            rw [h5]
          | none =>
            show acc.lookup p = some v
            exact h3
        · obtain ⟨t, ht, hti, htl, htp⟩ := h3
          rcases List.mem_cons.mp ht with h4 | h4
          · subst h4
            refine Or.inl ?_
            rw [lookup_dictUpdate acc t.style p hrstyleNodup, htp]
          · obtain ⟨t2, ht2, h5, h6, h7⟩ :=
              splitRanges_cover_fst r.stop h2 rest t h4 hti htl
            refine Or.inr ⟨t2, ht2, h5, h6, ?_⟩
            rw [h7]
            exact htp
      have haccA : ∀ i, r.stop ≤ i → i < i1 → ∀ p v,
          acc.lookup p = some v → (Amap i).lookup p = some v := by
        intro i h1 h2 p v hl
        exact hacc i (by omega) h2 p v hl
      have hcovA : ∀ i, r.stop ≤ i → i < i1 → ∀ p v,
          (Amap i).lookup p = some v →
          acc.lookup p = some v ∨
          ∃ t2 ∈ (splitRanges r.stop rest).2, t2.start ≤ i ∧
            i < t2.stop ∧ t2.style.lookup p = some v := by
        intro i h1 h2 p v hm
        rcases hcov i (by omega) h2 p v hm with h3 | h3
        · exact Or.inl h3
        · obtain ⟨t, ht, hti, htl, htp⟩ := h3
          rcases List.mem_cons.mp ht with h4 | h4
          · subst h4
            omega
          · obtain ⟨t2, ht2, h5, h6, h7⟩ :=
              splitRanges_cover_snd r.stop h1 rest t h4 hti htl
            refine Or.inr ⟨t2, ht2, h5, h6, ?_⟩
            rw [h7]
            exact htp
      obtain ⟨inner, hinner, haI, hbI, hcI⟩ :=
        ih (splitRanges r.stop rest).1 r.start r.stop
          (dictUpdate acc r.style) (pre ++ [k + (r.start - c)]) 0
          hlen1 (Nat.le_trans hrb.2.2 hac)
          (splitRanges_fst_bounds r.stop rest r.start i1 hrestb)
          (splitRanges_fst_sorted r.stop rest hrest)
          hstylesI hagreeI haccI hcovI
      obtain ⟨after, hafter, haA, hbA, hcA⟩ :=
        ih (splitRanges r.stop rest).2 r.stop i1 acc pre
          (k + (r.start - c) + 1)
          hlen2 hac
          (splitRanges_snd_bounds r.stop rest r.start i1 hrestb)
          (splitRanges_snd_sorted r.stop rest hrest)
          hstylesA hagreeA haccA hcovA
      have hacP : r.start ≤ ac.length := by
        have := hrb.2.1
        have := hrb.2.2
        omega
      have hdecomp : leavesFull acc pre k ((extract ac c r.start).map
          SNode.piece ++ (SNode.span r.style inner :: after)) =
        (extract ac c r.start).map (fun a => (a, acc, pre)) ++
          (leavesFull (dictUpdate acc r.style)
            (pre ++ [k + (r.start - c)]) 0 inner ++
           leavesFull acc pre (k + (r.start - c) + 1) after) := by
        rw [leavesFull_append, leavesFull_map_piece, List.length_map,
          extract_length ac c r.start hacP, leavesFull, leafFull]
      have hsplit : List.range' c (i1 - c) =
          List.range' c (r.start - c) ++
            (List.range' r.start (r.stop - r.start) ++
             List.range' r.stop (i1 - r.stop)) := by
        have h1 := range1_append r.start (r.stop - r.start) (i1 - r.stop)
        rw [show r.start + (r.stop - r.start) = r.stop by omega] at h1
        have h2 := range1_append c (r.start - c)
          ((r.stop - r.start) + (i1 - r.stop))
        rw [show c + (r.start - c) = r.start by omega] at h2
        rw [← h1] at h2
        rw [show i1 - c = (r.start - c) +
          ((r.stop - r.start) + (i1 - r.stop)) by omega]
        exact h2.symm
      have hpointP : ∀ i, c ≤ i → i < r.start → ∀ p,
          acc.lookup p = (Amap i).lookup p := by
        intro i h1 h2 p
        cases hm : (Amap i).lookup p with
        | some v =>
          rcases hcov i h1 (by omega) p v hm with h3 | h3
          · exact h3
          · obtain ⟨t, ht, hti, -, -⟩ := h3
            rcases List.mem_cons.mp ht with h4 | h4
            · subst h4
              omega
            · have := (hrestb t h4).1
              omega
        | none =>
          cases hl : acc.lookup p with
          | none => rfl
          | some w =>
            have h4 := hacc i h1 (by omega) p w hl
            rw [hm] at h4
            exact Option.noConfusion h4
      refine ⟨(extract ac c r.start).map SNode.piece ++
        (SNode.span r.style inner :: after), ?_, ?_, ?_, ?_⟩
      · rw [build_result]
        simp only [if_pos hguard, hinner, hafter]
      · rw [hdecomp, List.map_append, List.map_append, map_fst_triple,
          haI, haA,
          extract_append_extract ac r.start r.stop i1
            (Nat.le_of_lt hrb.2.1) hrb.2.2,
          extract_append_extract ac c r.start i1 hrb.1 (by omega)]
      · rw [hdecomp, hsplit]
        refine forall2_append ?_ (forall2_append hbI hbA)
        have hP := forall2_piece_range Amap acc pre
          (extract ac c r.start) c ?_
        · rw [extract_length ac c r.start hacP] at hP
          exact hP
        · intro i h1 h2 p
          rw [extract_length ac c r.start hacP] at h2
          exact hpointP i h1 (by omega) p
      · rw [hdecomp, hsplit]
        have hlenIeq : (leavesFull (dictUpdate acc r.style)
            (pre ++ [k + (r.start - c)]) 0 inner).length =
            r.stop - r.start := by
          have h5 := congrArg List.length haI
          rw [List.length_map] at h5
          rw [h5, extract_length ac r.start r.stop
            (Nat.le_trans hrb.2.2 hac)]
        have hlenAeq : (leavesFull acc pre (k + (r.start - c) + 1)
            after).length = i1 - r.stop := by
          have h5 := congrArg List.length haA
          rw [List.length_map] at h5
          rw [h5, extract_length ac r.stop i1 hac]
        rw [zip_append_eq _ _ (by
          rw [List.length_map, extract_length ac c r.start hacP,
            List.length_range'])]
        rw [zip_append_eq _ _ (by rw [hlenIeq, List.length_range'])]
        rw [List.chain'_append]
        refine ⟨?_, ?_, ?_⟩
        · refine chain'_of_mem ?_
          intro x hx y hy
          obtain ⟨x1, x2⟩ := x
          obtain ⟨y1, y2⟩ := y
          have hx1 := (List.of_mem_zip hx).1
          have hy1 := (List.of_mem_zip hy).1
          obtain ⟨a1, -, he1⟩ := List.mem_map.mp hx1
          obtain ⟨a2, -, he2⟩ := List.mem_map.mp hy1
          intro _
          show x1.2.2 = y1.2.2
          rw [← he1, ← he2]
        · rw [List.chain'_append]
          refine ⟨?_, ?_, ?_⟩
          · refine List.Chain'.imp ?_ hcI
            intro a b hab hnb
            refine hab ?_
            intro t2 ht2
            obtain ⟨u, hu, -, -, -, hbs, hbt⟩ :=
              splitRanges_fst_sub r.stop rest t2 ht2
            constructor
            · rcases hbs with h5 | h5
              · rw [h5]
                exact (hnb u (List.mem_cons_of_mem _ hu)).1
              · rw [h5]
                exact (hnb r (List.mem_cons_self r rest)).2
            · rcases hbt with h5 | h5
              · rw [h5]
                exact (hnb u (List.mem_cons_of_mem _ hu)).2
              · rw [h5]
                exact (hnb r (List.mem_cons_self r rest)).2
          · refine List.Chain'.imp ?_ hcA
            intro a b hab hnb
            refine hab ?_
            intro t2 ht2
            obtain ⟨u, hu, -, -, -, hbs, hbt⟩ :=
              splitRanges_snd_sub r.stop rest t2 ht2
            constructor
            · rcases hbs with h5 | h5
              · rw [h5]
                exact (hnb u (List.mem_cons_of_mem _ hu)).1
              · rw [h5]
                exact (hnb r (List.mem_cons_self r rest)).2
            · rcases hbt with h5 | h5
              · rw [h5]
                exact (hnb u (List.mem_cons_of_mem _ hu)).2
              · rw [h5]
                exact (hnb r (List.mem_cons_self r rest)).2
          · intro x hx y hy
            cases hAe : i1 - r.stop with
            | zero =>
              rw [hAe] at hy
              have hAz : (leavesFull acc pre (k + (r.start - c) + 1)
                  after).zip (List.range' r.stop 0) = [] := by
                rw [show List.range' r.stop 0 = [] from rfl,
                  List.zip_nil_right]
              rw [hAz] at hy
              exact absurd hy (by simp)
            | succ n2 =>
              obtain ⟨a0, z2, hAz⟩ := zip_range_cons
                (leavesFull acc pre (k + (r.start - c) + 1) after)
                r.stop (i1 - r.stop) hlenAeq (by omega)
              rw [hAz] at hy
              have hy2 : y = (a0, r.stop) := by
                have := hy
                simp only [List.head?_cons, Option.mem_def,
                  Option.some.injEq] at this
                exact this.symm
              intro hnb
              exfalso
              refine (hnb r (List.mem_cons_self r rest)).2 ?_
              rw [hy2]
        · intro x hx y hy
          obtain ⟨a0, z2, hIz⟩ := zip_range_cons
            (leavesFull (dictUpdate acc r.style)
              (pre ++ [k + (r.start - c)]) 0 inner)
            r.start (r.stop - r.start) hlenIeq (by omega)
          rw [hIz, List.cons_append] at hy
          have hy2 : y = (a0, r.start) := by
            have := hy
            simp only [List.head?_cons, Option.mem_def,
              Option.some.injEq] at this
            exact this.symm
          intro hnb
          exfalso
          refine (hnb r (List.mem_cons_self r rest)).1 ?_
          rw [hy2]

lemma pmEq_iff {m1 m2 : PropMap} :
    pmEq m1 m2 = true ↔ ∀ p, m1.lookup p = m2.lookup p := by
  rw [pmEq, Bool.and_eq_true, List.all_eq_true, List.all_eq_true]
  constructor
  · intro h p
    cases h1 : m1.lookup p with
    | some v =>
      have h3 := h.1 (p, v) (lookup_mem h1)
      simp only [beq_iff_eq] at h3
      rw [h3, h1]
    | none =>
      cases h2 : m2.lookup p with
      | none => rfl
      | some w =>
        have h3 := h.2 (p, w) (lookup_mem h2)
        simp only [beq_iff_eq] at h3
        rw [h1, h2] at h3
        exact h3
  · intro h
    constructor
    · intro pv _
      simp only [beq_iff_eq]
      exact (h pv.1).symm
    · intro pv _
      simp only [beq_iff_eq]
      exact h pv.1

lemma activeOf_nodup {para run : PropMap}
    (h : (run.map Prod.fst).Nodup) :
    ((activeOf para run).map Prod.fst).Nodup :=
  ((List.filter_sublist run).map Prod.fst).nodup h

lemma extract_all {α : Type} (ac : List α) :
    extract ac 0 ac.length = ac := by
  rw [extract, List.drop_zero, Nat.sub_zero, List.take_length]

lemma annOf_fst {α : Type} (para : PropMap) :
    ∀ (items : List (List α × PropMap)),
      (annOf para items).map Prod.fst = contentOf items := by
  intro items
  induction items with
  | nil => rfl
  | cons it rest ih =>
    obtain ⟨c, st⟩ := it
    rw [annOf, contentOf, List.map_append, ih, List.map_map]
    congr 1
    induction c with
    | nil => rfl
    | cons a t ih2 => rw [List.map_cons, ih2]; rfl

lemma forall2_map_snd {α : Type} {B : Nat → PropMap} (act : PropMap) :
    ∀ (l : List α) (c : Nat),
      (∀ j, j < l.length → B (c + j) = act) →
      List.Forall₂ (fun (pr : α × PropMap) i => pr.2 = B i)
        (l.map (fun a => (a, act))) (List.range' c l.length) := by
  intro l
  induction l with
  | nil => intro c _; exact List.Forall₂.nil
  | cons x xs ih =>
    intro c hB
    rw [List.map_cons, List.length_cons, List.range'_succ]
    refine List.Forall₂.cons ?_ ?_
    · show act = B c
      have := hB 0 (by simp)
      rw [Nat.add_zero] at this
      exact this.symm
    · refine ih (c + 1) ?_
      intro j hj
      have := hB (j + 1) (by simp; omega)
      rw [show c + 1 + j = c + (j + 1) by omega]
      exact this

lemma annOf_forall2 {α : Type} (para : PropMap) :
    ∀ (items : List (List α × PropMap)) (c : Nat) (B : Nat → PropMap),
      (∀ j, B (c + j) = posAt para items j) →
      List.Forall₂ (fun (pr : α × PropMap) i => pr.2 = B i)
        (annOf para items) (List.range' c (contentOf items).length) := by
  intro items
  induction items with
  | nil => intro c B _; exact List.Forall₂.nil
  | cons it rest ih =>
    intro c B hB
    obtain ⟨cl, st⟩ := it
    rw [annOf, contentOf, List.length_append,
      ← range1_append c cl.length (contentOf rest).length]
    refine forall2_append ?_ ?_
    · refine forall2_map_snd (activeOf para st) cl c ?_
      intro j hj
      have := hB j
      rw [posAt, if_pos hj] at this
      exact this
    · refine ih (c + cl.length) B ?_
      intro j
      have := hB (cl.length + j)
      rw [posAt, if_neg (by omega),
        show cl.length + j - cl.length = j by omega] at this
      rw [show c + cl.length + j = c + (cl.length + j) by omega]
      exact this

lemma forall2_and {β γ : Type} {R S : β → γ → Prop} :
    ∀ {l : List β} {r : List γ}, List.Forall₂ R l r →
      List.Forall₂ S l r →
      List.Forall₂ (fun a b => R a b ∧ S a b) l r := by
  intro l r h1 h2
  induction h1 with
  | nil => exact List.Forall₂.nil
  | cons hr htl ih =>
    cases h2 with
    | cons hs hstl => exact List.Forall₂.cons ⟨hr, hs⟩ (ih hstl)

lemma forall2_compose {β γ δ : Type} {R1 : β → δ → Prop}
    {R2 : γ → δ → Prop} :
    ∀ {l1 : List β} {r : List δ}, List.Forall₂ R1 l1 r →
      ∀ {l2 : List γ}, List.Forall₂ R2 l2 r →
      List.Forall₂ (fun a b => ∃ d, R1 a d ∧ R2 b d) l1 l2 := by
  intro l1 r h1
  induction h1 with
  | nil =>
    intro l2 h2
    cases h2 with
    | nil => exact List.Forall₂.nil
  | cons hr htl ih =>
    intro l2 h2
    cases h2 with
    | cons hs hstl =>
      exact List.Forall₂.cons ⟨_, hr, hs⟩ (ih hstl)

lemma forall2_of_map_eq {β γ δ : Type} {f : β → δ} {g : γ → δ} :
    ∀ {l1 : List β} {l2 : List γ}, l1.map f = l2.map g →
      List.Forall₂ (fun a b => f a = g b) l1 l2 := by
  intro l1
  induction l1 with
  | nil =>
    intro l2 h
    cases l2 with
    | nil => exact List.Forall₂.nil
    | cons y ys => exact absurd h (by simp)
  | cons x xs ih =>
    intro l2 h
    cases l2 with
    | nil => exact absurd h (by simp)
    | cons y ys =>
      rw [List.map_cons, List.map_cons] at h
      injection h with h1 h2
      exact List.Forall₂.cons h1 (ih h2)

lemma chain'_adjacent {β : Type} {R : β → β → Prop} :
    ∀ (l1 : List β) {l : List β}, List.Chain' R l →
      ∀ (x y : β) (l2 : List β), l = l1 ++ x :: y :: l2 → R x y := by
  intro l1
  induction l1 with
  | nil =>
    intro l hc x y l2 he
    subst he
    exact (List.chain'_cons.mp hc).1
  | cons z l1 ih =>
    intro l hc x y l2 he
    subst he
    exact ih hc.tail x y l2 rfl

lemma forall2_split {β γ : Type} {R : β → γ → Prop} :
    ∀ (l1 : List β) {l : List β} {r : List γ}, List.Forall₂ R l r →
      ∀ (x : β) (l2 : List β), l = l1 ++ x :: l2 →
      ∃ r1 b r2, r = r1 ++ b :: r2 ∧ r1.length = l1.length ∧ R x b := by
  intro l1
  induction l1 with
  | nil =>
    intro l r h x l2 he
    subst he
    cases h with
    | cons hr htl => exact ⟨[], _, _, rfl, rfl, hr⟩
  | cons z l1 ih =>
    intro l r h x l2 he
    subst he
    cases h with
    | cons hr htl =>
      obtain ⟨r1, b, r2, he2, hl2, hxb⟩ := ih htl x l2 rfl
      subst he2
      exact ⟨_ :: r1, b, r2, rfl,
        by rw [List.length_cons, List.length_cons, hl2], hxb⟩

lemma range'_elem :
    ∀ (r1 : List Nat) (s n : Nat) (b : Nat) (r2 : List Nat),
      List.range' s n = r1 ++ b :: r2 → b = s + r1.length := by
  intro r1
  induction r1 with
  | nil =>
    intro s n b r2 he
    cases n with
    | zero => exact absurd he (by simp)
    | succ n2 =>
      rw [List.range'_succ, List.nil_append] at he
      injection he with h1 h2
      rw [h1, List.length_nil]
      rfl
  | cons a r1 ih =>
    intro s n b r2 he
    cases n with
    | zero => exact absurd he (by simp)
    | succ n2 =>
      rw [List.range'_succ, List.cons_append] at he
      injection he with h1 h2
      rw [ih (s + 1) n2 b r2 h2, List.length_cons]
      omega

/-- C2: for every paragraph handed to the range-nesting step as items
of (content run, run style dict) with nonempty runs, relative to the
ambient paragraph style, the range construction and build_result
succeed, every piece of content in the produced span tree is enclosed
by spans whose merged style properties equal exactly that piece's
active-property map (properties whose value equals the ambient value
are excluded from the ranges), and adjacent pieces with identical
active-property maps share the same innermost span: their parent
addresses in the tree coincide. -/
theorem rewrite_spans_enclosure {α : Type}
    (items : List (List α × PropMap)) (para : PropMap)
    (hne : ∀ it ∈ items, it.1 ≠ [])
    (hnd : ∀ it ∈ items, (it.2.map Prod.fst).Nodup) :
    ∃ R, rangesOf items para = .ok R ∧
      ∀ fuel, (sortRanges (R.map toSRange)).length < fuel →
      ∃ out, build_result (contentOf items) fuel
          (sortRanges (R.map toSRange)) 0 (contentOf items).length =
          .ok out ∧
        List.Forall₂
          (fun (t : α × PropMap × List Nat) (pr : α × PropMap) =>
            t.1 = pr.1 ∧ pmEq t.2.1 pr.2 = true)
          (leavesFull [] [] 0 out) (annOf para items) ∧
        (∀ (l1 l2 : List (α × PropMap × List Nat)) x y,
          leavesFull ([] : PropMap) [] 0 out = l1 ++ x :: y :: l2 →
          pmEq x.2.1 y.2.1 = true → x.2.2 = y.2.2) := by
  obtain ⟨R, hok, hRs, hcover⟩ := rangesOf_spec items para hne
    (fun it hit => activeOf_nodup (hnd it hit))
  refine ⟨R, hok, ?_⟩
  intro fuel hfuel
  have hSfacts : ∀ t ∈ sortRanges (R.map toSRange), ∃ e ∈ R,
      t = toSRange e := by
    intro t ht
    obtain ⟨e, he, heq⟩ := List.mem_map.mp (sortRanges_mem.mp ht)
    exact ⟨e, he, heq.symm⟩
  have hbounds : ∀ t ∈ sortRanges (R.map toSRange),
      0 ≤ t.start ∧ t.start < t.stop ∧
        t.stop ≤ (contentOf items).length := by
    intro t ht
    obtain ⟨e, he, heq⟩ := hSfacts t ht
    have h2 := hRs.2 e he
    subst heq
    exact ⟨Nat.zero_le _, h2.2.1, h2.1⟩
  have hstylesS : ∀ t ∈ sortRanges (R.map toSRange),
      (t.style.map Prod.fst).Nodup := by
    intro t ht
    obtain ⟨e, he, heq⟩ := hSfacts t ht
    subst heq
    exact (hRs.2 e he).2.2.1
  have hagreeS : ∀ t ∈ sortRanges (R.map toSRange), ∀ pv ∈ t.style,
      ∀ i, t.start ≤ i → i < t.stop →
      (posAt para items i).lookup pv.1 = some pv.2 := by
    intro t ht pv hpv i h1 h2
    obtain ⟨e, he, heq⟩ := hSfacts t ht
    subst heq
    exact ((hRs.2 e he).2.2.2.2 pv hpv).1 i h1 h2
  have haccS : ∀ i, 0 ≤ i → i < (contentOf items).length → ∀ p v,
      ([] : PropMap).lookup p = some v →
      (posAt para items i).lookup p = some v := by
    intro i _ _ p v h
    exact absurd h Option.noConfusion
  have hcovS : ∀ i, 0 ≤ i → i < (contentOf items).length → ∀ p v,
      (posAt para items i).lookup p = some v →
      ([] : PropMap).lookup p = some v ∨
      ∃ t ∈ sortRanges (R.map toSRange), t.start ≤ i ∧ i < t.stop ∧
        t.style.lookup p = some v := by
    intro i _ hi p v h
    obtain ⟨e, he, h1, h2, h3⟩ := hcover i hi p v h
    refine Or.inr ⟨toSRange e, ?_, h1, h2, h3⟩
    exact sortRanges_mem.mpr (List.mem_map_of_mem toSRange he)
  obtain ⟨out, hbuild, haT, hbT, hcT⟩ :=
    build_result_full (contentOf items) (fun i => posAt para items i)
      fuel (sortRanges (R.map toSRange)) 0 (contentOf items).length
      [] [] 0 hfuel (Nat.le_refl _) hbounds sortRanges_sorted
      hstylesS hagreeS haccS hcovS
  rw [Nat.sub_zero] at hbT hcT
  rw [extract_all] at haT
  refine ⟨out, hbuild, ?_, ?_⟩
  · have hann := annOf_forall2 para items 0
      (fun i => posAt para items i) (fun j => by rw [Nat.zero_add])
    have hfst := forall2_of_map_eq
      (haT.trans (annOf_fst para items).symm)
    have hcomp := forall2_compose hbT hann
    refine (forall2_and hfst hcomp).imp ?_
    intro t pr h
    obtain ⟨h1, i, h2, h3⟩ := h
    refine ⟨h1, pmEq_iff.mpr ?_⟩
    intro p
    rw [h2 p, h3]
  · intro l1 l2 x y hsplitL hpme
    have hLlen : (leavesFull ([] : PropMap) [] 0 out).length =
        (contentOf items).length := by
      have h5 := congrArg List.length haT
      rw [List.length_map] at h5
      exact h5
    have hsplen := congrArg List.length hsplitL
    rw [List.length_append, List.length_cons, List.length_cons]
      at hsplen
    have hjN : l1.length + 1 < (contentOf items).length := by
      rw [hLlen] at hsplen
      omega
    -- pointwise maps of x and y from the Forall₂ against range'
    obtain ⟨r1x, bx, r2x, hex, hlx, hRx⟩ :=
      forall2_split l1 hbT x (y :: l2) hsplitL
    have hbx : bx = l1.length := by
      have := range'_elem r1x 0 _ bx r2x hex
      omega
    obtain ⟨r1y, by2, r2y, hey, hly, hRy⟩ :=
      forall2_split (l1 ++ [x]) hbT y l2
        (by rw [hsplitL, List.append_assoc]; rfl)
    have hby : by2 = l1.length + 1 := by
      have := range'_elem r1y 0 _ by2 r2y hey
      rw [List.length_append, List.length_singleton] at hly
      omega
    rw [hbx] at hRx
    rw [hby] at hRy
    -- the chain relation at the adjacent pair
    have hzsplit : (leavesFull ([] : PropMap) [] 0 out).zip
        (List.range' 0 (contentOf items).length) =
      l1.zip (List.range' 0 l1.length) ++
        ((x, l1.length) :: (y, l1.length + 1) ::
          l2.zip (List.range' (l1.length + 1 + 1)
            ((contentOf items).length - l1.length - 2))) := by
      have hr1 : List.range' 0 (contentOf items).length =
          List.range' 0 l1.length ++
            List.range' l1.length
              ((contentOf items).length - l1.length) := by
        have h6 := range1_append 0 l1.length
          ((contentOf items).length - l1.length)
        rw [Nat.zero_add] at h6
        have h7 := h6.symm
        rw [show l1.length + ((contentOf items).length - l1.length) =
          (contentOf items).length by omega] at h7
        exact h7
      have hr2 : List.range' l1.length
          ((contentOf items).length - l1.length) =
        l1.length :: (l1.length + 1) ::
          List.range' (l1.length + 1 + 1)
            ((contentOf items).length - l1.length - 2) := by
        have h8 : ∀ m, List.range' l1.length (m + 1 + 1) =
            l1.length :: (l1.length + 1) ::
              List.range' (l1.length + 1 + 1) m := by
          intro m
          rw [List.range'_succ, List.range'_succ]
        have h9 := h8 ((contentOf items).length - l1.length - 2)
        rw [show (contentOf items).length - l1.length - 2 + 1 + 1 =
          (contentOf items).length - l1.length by omega] at h9
        exact h9
      rw [hr1, hr2, hsplitL,
        zip_append_eq _ _ (by rw [List.length_range']),
        List.zip_cons_cons, List.zip_cons_cons]
    have hadj := chain'_adjacent (l1.zip (List.range' 0 l1.length))
      hcT (x, l1.length) (y, l1.length + 1)
      (l2.zip (List.range' (l1.length + 1 + 1)
        ((contentOf items).length - l1.length - 2))) hzsplit
    refine hadj ?_
    -- no range has a boundary at position l1.length + 1
    intro t ht
    obtain ⟨e, he, heq⟩ := hSfacts t ht
    have hEI := (hRs.2 e he).2
    obtain ⟨pv, hpv⟩ := List.exists_mem_of_ne_nil e.2 hEI.2.2.1
    have hprops := hEI.2.2.2 pv hpv
    have hAeq : ∀ p, (posAt para items l1.length).lookup p =
        (posAt para items (l1.length + 1)).lookup p := by
      intro p
      have h7 := hRx p
      have h8 := hRy p
      have h9 := pmEq_iff.mp hpme p
      rw [← h7, ← h8]
      exact h9
    subst heq
    constructor
    · show e.1.1 ≠ l1.length + 1
      intro hc
      have hst := hprops.2.1
      rcases hst with h10 | h10
      · omega
      · rw [hc] at h10
        have h11 := hprops.1 (l1.length + 1) (by omega)
          (by have h12 := hEI.1; omega)
        rw [show l1.length + 1 - 1 = l1.length by omega] at h10
        rw [← hAeq pv.1] at h11
        exact h10 h11
    · show e.1.2 ≠ l1.length + 1
      intro hc
      have hsp := hprops.2.2
      rw [hc] at hsp
      have h11 := hprops.1 l1.length
        (by have := hEI.1; omega) (by omega)
      rw [hAeq pv.1] at h11
      exact hsp h11

/-- Witness for C2: a paragraph of a bold run ["a", "b"] followed by a
plain run ["c"] against an empty ambient style produces exactly one
range, (0, 2) styled bold, and the theorem applies with both
hypotheses checked concretely. -/
theorem rewrite_spans_enclosure_witness :
    (rangesOf [((["a", "b"] : List String), [("font-weight", "bold")]),
        (["c"], [])] ([] : PropMap) =
      .ok [((0, 2), [("font-weight", "bold")])]) ∧
    (∃ R, rangesOf [((["a", "b"] : List String),
          [("font-weight", "bold")]), (["c"], [])] ([] : PropMap) =
        .ok R ∧
      ∀ fuel, (sortRanges (R.map toSRange)).length < fuel →
      ∃ out, build_result (contentOf [((["a", "b"] : List String),
            [("font-weight", "bold")]), (["c"], [])]) fuel
          (sortRanges (R.map toSRange)) 0
          (contentOf [((["a", "b"] : List String),
            [("font-weight", "bold")]), (["c"], [])]).length =
          .ok out ∧
        List.Forall₂ (fun (t : String × PropMap × List Nat)
            (pr : String × PropMap) =>
          t.1 = pr.1 ∧ pmEq t.2.1 pr.2 = true)
          (leavesFull [] [] 0 out)
          (annOf [] [((["a", "b"] : List String),
            [("font-weight", "bold")]), (["c"], [])]) ∧
        (∀ (l1 l2 : List (String × PropMap × List Nat)) x y,
          leavesFull ([] : PropMap) [] 0 out = l1 ++ x :: y :: l2 →
          pmEq x.2.1 y.2.1 = true → x.2.2 = y.2.2)) :=
  ⟨by decide, rewrite_spans_enclosure _ _ (by decide) (by decide)⟩
